import Mathlib

/-!
# gocq / varmq: worker-pool scheduler, priority queue and job lifecycle

A shallow embedding of the Go sources

* `internal/queue/item.go`, `internal/queue/priority_queue.go`, with the
  functions of the Go library `container/heap` that it calls (namespace `queue`),
* `internal/concurrent_queue/queue.go` (namespace `concurrent_queue`),
* `job.go`, `result_channel.go`, `external_queue.go`, `persistent.go` (namespace `varmq`),

followed by theorems about them.  Go code that can panic or block returns an
`Outcome`; unsigned 32-bit counters are natural numbers reduced modulo `2^32`.
-/

set_option autoImplicit false

/-! ## Go runtime -/

/-- Run-time panics raised by the embedded Go operations. -/
inductive GoPanic where
  /-- Raised by `close` of a channel that is already closed. -/
  | closeOfClosedChannel
  /-- Raised by `close` of a nil channel. -/
  | closeOfNilChannel
  /-- Raised by a send on a closed channel. -/
  | sendOnClosedChannel
  /-- Raised by a slice index out of range. -/
  | indexOutOfRange
  /-- Raised by a call of `panic`. -/
  | explicitPanic
  deriving DecidableEq, Repr

/-- What a piece of Go code does when run to its end from a given state: it
returns, it blocks for ever (or, for a step of a state machine, is not
enabled), or it panics. -/
inductive Outcome (α : Type) where
  | ok (a : α)
  | blocks
  | panic (p : GoPanic)
  deriving DecidableEq, Repr

/-- Sequencing of Go statements. -/
def Outcome.bind {α β : Type} : Outcome α → (α → Outcome β) → Outcome β
  | .ok a, f => f a
  | .blocks, _ => .blocks
  | .panic p, _ => .panic p

/-- Post-processing of a returned value. -/
def Outcome.map {α β : Type} (f : α → β) : Outcome α → Outcome β
  | .ok a => .ok (f a)
  | .blocks => .blocks
  | .panic p => .panic p

/-- A Go channel that has been made: its buffered values (oldest first), its
capacity and whether it has been closed.  A channel variable is an
`Option (Chan α)`, `none` being the nil channel. -/
structure Chan (α : Type) where
  buf : List α
  cap : Nat
  closed : Bool
  deriving DecidableEq, Repr

/-- The Go statement `make(chan α, n)`. -/
def Chan.make {α : Type} (n : Nat) : Chan α :=
  { buf := [], cap := n, closed := false }

/-- The Go statement `close(ch)`. -/
def chanClose {α : Type} : Option (Chan α) → Outcome (Option (Chan α))
  | none => .panic .closeOfNilChannel
  | some c => if c.closed then .panic .closeOfClosedChannel else .ok (some { c with closed := true })

/-- The Go statement `ch <- v` with no receiver waiting: the value is buffered
when there is room. -/
def chanSend {α : Type} (v : α) : Option (Chan α) → Outcome (Option (Chan α))
  | none => .blocks
  | some c =>
    if c.closed then .panic .sendOnClosedChannel
    else if c.buf.length < c.cap then .ok (some { c with buf := c.buf ++ [v] })
    else .blocks

/-- The Go expression `v, ok := <-ch` with no sender waiting: `none` is the
pair (zero value, false) of a closed and drained channel. -/
def chanRecv {α : Type} : Option (Chan α) → Outcome (Option α × Option (Chan α))
  | none => .blocks
  | some c =>
    match c.buf with
    | v :: rest => .ok (some v, some { c with buf := rest })
    | [] => if c.closed then .ok (none, some c) else .blocks

/-- Number of values of the type `uint32`. -/
abbrev uint32Size : Nat := 4294967296

/-! ## Package `queue` -/

namespace queue

/-- The struct `EnqItem` of `item.go`. -/
structure EnqItem (T : Type) where
  Value : T
  Priority : Int
  Index : Int
  deriving DecidableEq, Repr

/-- Modelled from the spec: the FIFO queue built by `queue.NewQueue`, whose
source file is missing; it is the list of its values, head first, with the
operations of `IQueue` the scheduler calls (enqueue at the tail, dequeue at
the head). -/
abbrev Queue (T : Type) := List T

/-- Modelled from the spec: `queue.NewQueue`, the empty FIFO queue. -/
def NewQueue {T : Type} : Queue T := []

/-- Modelled from the spec: `Len` of the FIFO queue. -/
def Queue.Len {T : Type} (q : Queue T) : Nat := q.length

/-- Modelled from the spec: `Values` of the FIFO queue. -/
def Queue.Values {T : Type} (q : Queue T) : List T := q

/-- Modelled from the spec: `Init` of the FIFO queue, which empties it. -/
def Queue.Init {T : Type} (_q : Queue T) : Queue T := []

/-- Modelled from the spec: `Enqueue` of the FIFO queue. -/
def Queue.Enqueue {T : Type} (q : Queue T) (t : EnqItem T) : Queue T := q ++ [t.Value]

/-- Modelled from the spec: `Dequeue` of the FIFO queue; `none` is the pair
(zero value, false). -/
def Queue.Dequeue {T : Type} : Queue T → Option (T × Queue T)
  | [] => none
  | v :: rest => some (v, rest)

/-- Modelled from the spec: the type `heapQueue`, whose source file is missing:
the slice of items that `container/heap` keeps in heap order under `Less`. -/
structure heapQueue (T : Type) where
  items : List (EnqItem T)
  deriving DecidableEq, Repr

/-- Modelled from the spec: the order of `heapQueue.Less` on two items,
"smallest priority first; ties broken by insertion order". -/
def Less {T : Type} (a b : EnqItem T) : Bool :=
  decide (a.Priority < b.Priority) || (decide (a.Priority = b.Priority) && decide (a.Index < b.Index))

/-- Modelled from the spec: `heapQueue.Len`. -/
def heapQueue.Len {T : Type} (h : heapQueue T) : Nat := h.items.length

/-- Modelled from the spec: `heapQueue.Less(i, j)`, the order of the items at
the indices `i` and `j`.  The indices that `container/heap` passes are in
range; outside the range, where Go panics, the answer here is false. -/
def heapQueue.Less {T : Type} (h : heapQueue T) (i j : Nat) : Bool :=
  match h.items[i]?, h.items[j]? with
  | some a, some b => queue.Less a b
  | _, _ => false

/-- Modelled from the spec: `heapQueue.Swap(i, j)`, which exchanges the items
at the indices `i` and `j`. -/
def heapQueue.Swap {T : Type} (h : heapQueue T) (i j : Nat) : heapQueue T :=
  match h.items[i]?, h.items[j]? with
  | some a, some b => { items := (h.items.set i b).set j a }
  | _, _ => h

/-- Modelled from the spec: `heapQueue.Push(x)`, which appends the item to the
slice. -/
def heapQueue.Push {T : Type} (h : heapQueue T) (x : EnqItem T) : heapQueue T :=
  { items := h.items ++ [x] }

/-- Modelled from the spec: `heapQueue.Pop()`, which removes and returns the
last item of the slice; `none` on an empty slice, where Go panics. -/
def heapQueue.Pop {T : Type} (h : heapQueue T) : Option (EnqItem T × heapQueue T) :=
  match h.items.getLast? with
  | none => none
  | some item => some (item, { items := h.items.dropLast })

/-- The loop of the function `up` of the Go library `container/heap`, for at
most `fuel` rounds: the item at `j` moves towards the root while it is `Less`
than its parent. -/
def heap.upLoop {T : Type} : Nat → heapQueue T → Nat → heapQueue T
  | 0, h, _ => h
  | fuel + 1, h, j =>
    let i := (j - 1) / 2
    if i = j ∨ h.Less j i = false then h
    else heap.upLoop fuel (h.Swap i j) i

/-- The function `up` of `container/heap`; `j` strictly decreases in every
round of its loop, which therefore ends within `j` rounds. -/
def heap.up {T : Type} (h : heapQueue T) (j : Nat) : heapQueue T := heap.upLoop j h j

/-- The loop of the function `down` of `container/heap`, for at most `fuel`
rounds: the item at `i` moves below the smaller of its children among the
first `n` items while that child is `Less` than it. -/
def heap.downLoop {T : Type} : Nat → heapQueue T → Nat → Nat → heapQueue T
  | 0, h, _, _ => h
  | fuel + 1, h, i, n =>
    let j1 := 2 * i + 1
    if n ≤ j1 then h
    else
      let j2 := j1 + 1
      let j := if j2 < n ∧ h.Less j2 j1 = true then j2 else j1
      if h.Less j i = false then h
      else heap.downLoop fuel (h.Swap i j) j n

/-- The function `down` of `container/heap`, without the boolean it returns,
which `Init`, `Push` and `Pop` do not use; `i` strictly increases in every
round of its loop, which therefore ends within `n - i0` rounds. -/
def heap.down {T : Type} (h : heapQueue T) (i0 n : Nat) : heapQueue T :=
  heap.downLoop (n - i0) h i0 n

/-- The loop of `heap.Init`: `down` at the indices below `k`, from `k - 1` to 0. -/
def heap.initLoop {T : Type} : Nat → heapQueue T → heapQueue T
  | 0, h => h
  | k + 1, h => heap.initLoop k (heap.down h k h.Len)

/-- The function `Init` of `container/heap`. -/
def heap.Init {T : Type} (h : heapQueue T) : heapQueue T := heap.initLoop (h.Len / 2) h

/-- The function `Push` of `container/heap`. -/
def heap.Push {T : Type} (h : heapQueue T) (x : EnqItem T) : heapQueue T :=
  let h1 := h.Push x
  heap.up h1 (h1.Len - 1)

/-- The function `Pop` of `container/heap`; `none` on an empty heap, where Go
panics on the index and which `Dequeue` excludes. -/
def heap.Pop {T : Type} (h : heapQueue T) : Option (EnqItem T × heapQueue T) :=
  let n := h.Len - 1
  let h1 := h.Swap 0 n
  let h2 := heap.down h1 0 n
  h2.Pop

/-- The struct `PriorityQueue`. -/
structure PriorityQueue (T : Type) where
  internal : heapQueue T
  insertionCount : Int
  deriving DecidableEq, Repr

/-- The value of a Go `int` expression on a 64-bit platform. -/
def wrapInt (n : Int) : Int := (n + 9223372036854775808) % 18446744073709551616 - 9223372036854775808

/-- Embeds `NewPriorityQueue`. -/
def NewPriorityQueue {T : Type} : PriorityQueue T :=
  let pq : heapQueue T := { items := [] }
  { internal := heap.Init pq, insertionCount := 0 }

/-- Embeds `PriorityQueue.Len`. -/
def PriorityQueue.Len {T : Type} (q : PriorityQueue T) : Nat := q.internal.Len

/-- Embeds `PriorityQueue.Init`. -/
def PriorityQueue.Init {T : Type} (q : PriorityQueue T) : PriorityQueue T :=
  { q with internal := heap.Init { items := [] } }

/-- Embeds `PriorityQueue.Values`. -/
def PriorityQueue.Values {T : Type} (q : PriorityQueue T) : List T :=
  q.internal.items.map fun item => item.Value

/-- Embeds `PriorityQueue.Enqueue`. -/
def PriorityQueue.Enqueue {T : Type} (q : PriorityQueue T) (t : EnqItem T) : PriorityQueue T :=
  let t1 := { t with Index := q.insertionCount }
  { internal := heap.Push q.internal t1, insertionCount := wrapInt (q.insertionCount + 1) }

/-- Embeds `PriorityQueue.Dequeue`; the zero value of `T` is `default`. -/
def PriorityQueue.Dequeue {T : Type} [Inhabited T] (q : PriorityQueue T) : (T × Bool) × PriorityQueue T :=
  if q.internal.Len = 0 then ((default, false), q)
  else
    match heap.Pop q.internal with
    | none => ((default, false), q)
    | some (popped, h) => ((popped.Value, true), { q with internal := h })

/-- A sequence of `Enqueue` calls. -/
def PriorityQueue.EnqueueAll {T : Type} (q : PriorityQueue T) : List (EnqItem T) → PriorityQueue T
  | [] => q
  | t :: ts => (q.Enqueue t).EnqueueAll ts

/-- At most `n` calls of `Dequeue`, stopping at the first that finds the queue
empty: the values returned, in order, and the queue left. -/
def PriorityQueue.DequeueN {T : Type} [Inhabited T] : Nat → PriorityQueue T → List T × PriorityQueue T
  | 0, q => ([], q)
  | n + 1, q =>
    match q.Dequeue with
    | ((v, true), q1) => let r := DequeueN n q1; (v :: r.1, r.2)
    | ((_, false), q1) => ([], q1)

/-- Calls of `Dequeue` until the queue is empty. -/
def PriorityQueue.DequeueAll {T : Type} [Inhabited T] (q : PriorityQueue T) : List T × PriorityQueue T :=
  PriorityQueue.DequeueN q.Len q

/-- The items as `Enqueue` stores them when the first of them is the `k`-th
insertion: each carries its insertion number in `Index`. -/
def stamp {T : Type} : Nat → List (EnqItem T) → List (EnqItem T)
  | _, [] => []
  | k, t :: ts => { t with Index := (k : Int) } :: stamp (k + 1) ts

/-- Dispatch order of two stored items: strictly smaller priority, or equal
priority and earlier insertion. -/
def Before {T : Type} (a b : EnqItem T) : Prop :=
  a.Priority < b.Priority ∨ (a.Priority = b.Priority ∧ a.Index < b.Index)

/-- Insertion of an item into a list in dispatch order: it goes before the
first item it is `Less` than. -/
def insertAscending {T : Type} (x : EnqItem T) : List (EnqItem T) → List (EnqItem T)
  | [] => [x]
  | y :: ys => if Less x y then x :: y :: ys else y :: insertAscending x ys

/-- The order the specification gives: the items in ascending order of
(Priority, insertion number). -/
def ascending {T : Type} : List (EnqItem T) → List (EnqItem T)
  | [] => []
  | x :: xs => insertAscending x (ascending xs)

/-- The index that `Swap(i, j)` moves to the place `k`. -/
def swapped (i j k : Nat) : Nat := if k = j then i else if k = i then j else k

/-- Heap order on the first `n` items: no item is `Less` than its parent. -/
def heapQueue.IsHeap {T : Type} (h : heapQueue T) (n : Nat) : Prop :=
  ∀ k, 0 < k → k < n → h.Less k ((k - 1) / 2) = false

/-- Heap order but for the item at `j`, which may be `Less` than its parent,
while its children are not `Less` than its parent: the state of the slice at
the head of a round of `up`. -/
def heapQueue.UpInv {T : Type} (h : heapQueue T) (j : Nat) : Prop :=
  (∀ k, 0 < k → k < h.Len → k ≠ j → h.Less k ((k - 1) / 2) = false) ∧
  (∀ k, 0 < k → k < h.Len → (k - 1) / 2 = j → 0 < j → h.Less k ((j - 1) / 2) = false)

/-- Heap order on the first `n` items but for the children of the item at
`i`, which may be `Less` than it, while they are not `Less` than its parent:
the state of the slice at the head of a round of `down`. -/
def heapQueue.DownInv {T : Type} (h : heapQueue T) (i n : Nat) : Prop :=
  (∀ k, 0 < k → k < n → (k - 1) / 2 ≠ i → h.Less k ((k - 1) / 2) = false) ∧
  (∀ k, 0 < k → k < n → (k - 1) / 2 = i → 0 < i → h.Less k ((i - 1) / 2) = false)

end queue

/-! ## Package `concurrent_queue` -/

namespace concurrent_queue

/-- Job statuses, as the scheduler names them (`job.Queued`, `job.Processing`,
`job.Finished`, and `Closed` behind `IsClosed`). -/
inductive Status where
  | Created
  | Queued
  | Processing
  | Finished
  | Closed
  deriving DecidableEq, Repr

/-- The field `ResultChannel` of a scheduler job: the channels `Data` and `Err`
that `spawnWorker` sends on and `Purge` closes.  An error value is `none`
(nil) or a message. -/
structure ResultChannel (R : Type) where
  Data : Option (Chan R)
  Err : Option (Chan (Option String))
  deriving DecidableEq, Repr

/-- Modelled from the spec: the job type `job.Job` of package `internal/job`,
whose source file is missing.  It has the fields `queue.go` reads (`Data`,
`ResultChannel`) and a status. -/
structure Job (T R : Type) where
  Data : T
  ResultChannel : ResultChannel R
  Status : Status
  deriving DecidableEq, Repr

/-- Modelled from the spec: `Job.IsClosed`. -/
def Job.IsClosed {T R : Type} (j : Job T R) : Bool := j.Status == .Closed

/-- Modelled from the spec: `Job.ChangeStatus`. -/
def Job.ChangeStatus {T R : Type} (j : Job T R) (s : concurrent_queue.Status) : Job T R := { j with Status := s }

/-- Closing of a result channel that may be nil: nil channels are left alone. -/
def closeIfPresent {α : Type} : Option (Chan α) → Outcome (Option (Chan α))
  | none => .ok none
  | some c => chanClose (some c)

/-- Modelled from the spec: `Job.Close` of package `internal/job` (§4.2
`close()`): it fails when the job is processing or already closed and
otherwise closes the result channels the job has and sets the status to
Closed.  The boolean is true when an error is returned. -/
def Job.Close {T R : Type} (j : Job T R) : Outcome (Bool × Job T R) :=
  match j.Status with
  | .Processing => .ok (true, j)
  | .Closed => .ok (true, j)
  | _ =>
    (closeIfPresent j.ResultChannel.Data).bind fun d =>
    (closeIfPresent j.ResultChannel.Err).bind fun e =>
    .ok (false, { j with ResultChannel := { Data := d, Err := e }, Status := .Closed })

/-- The struct `ConcurrentQueue`, without its mutex (every operation below is
one critical section) and its `Worker` field (the worker is called outside
the scheduler state).  `ChannelsStack` holds the worker channels by number.
Three further components record what the Go program keeps outside the
struct: `senders` are the goroutines started by `processNextJob` that have
not yet run `pickNextChannel`, each with its job; `workers` are the worker
goroutines that hold a job, each with its channel; `purged` are the jobs
`Purge` has removed. -/
structure ConcurrentQueue (T R : Type) where
  Concurrency : Nat
  ChannelsStack : List Nat
  curProcessing : Nat
  JobQueue : queue.Queue (Job T R)
  wg : Int
  isPaused : Bool
  senders : List (Job T R)
  workers : List (Nat × Job T R)
  purged : List (Job T R)
  deriving DecidableEq, Repr

variable {T R : Type}

/-- Embeds `shouldProcessNextJob`. -/
def shouldProcessNextJob (q : ConcurrentQueue T R) (action : String) : Bool :=
  if action = "add" then
    !q.isPaused && decide (q.curProcessing < q.Concurrency)
  else if action = "resume" then
    decide (q.curProcessing < q.Concurrency) && decide (q.JobQueue.Len > 0)
  else if action = "worker" then
    !q.isPaused && decide (q.JobQueue.Len ≠ 0)
  else
    false

/-- Embeds `processNextJob`, with a bound on the depth of its recursion.  The
goroutine it starts is recorded in `senders`. -/
def processNextJobAux : Nat → ConcurrentQueue T R → ConcurrentQueue T R
  | 0, q => q
  | fuel + 1, q =>
    match q.JobQueue.Dequeue with
    | none => q
    | some (j, rest) =>
      if j.IsClosed then
        processNextJobAux fuel { q with JobQueue := rest, wg := q.wg - 1 }
      else
        { q with
          JobQueue := rest
          curProcessing := (q.curProcessing + 1) % uint32Size
          senders := q.senders ++ [j.ChangeStatus .Processing] }

/-- Embeds `processNextJob`: every call dequeues a job or returns, so one more level
than there are queued jobs is enough. -/
def processNextJob (q : ConcurrentQueue T R) : ConcurrentQueue T R :=
  processNextJobAux (q.JobQueue.Len + 1) q

/-- Embeds `PauseQueue`. -/
def PauseQueue (q : ConcurrentQueue T R) : ConcurrentQueue T R :=
  { q with isPaused := true }

/-- Embeds `Pause`. -/
def Pause (q : ConcurrentQueue T R) : ConcurrentQueue T R := PauseQueue q

/-- Embeds `PendingCount`. -/
def PendingCount (q : ConcurrentQueue T R) : Nat := q.JobQueue.Len

/-- Embeds `CurrentProcessingCount`. -/
def CurrentProcessingCount (q : ConcurrentQueue T R) : Nat := q.curProcessing

/-- Embeds `AddJob`.  The queue holds a pointer to the job, so the job in the queue
is the one whose status has been changed to Queued. -/
def AddJob (q : ConcurrentQueue T R) (enqItem : queue.EnqItem (Job T R)) : ConcurrentQueue T R :=
  let q1 := { q with wg := q.wg + 1 }
  let q2 := { q1 with
    JobQueue := q1.JobQueue.Enqueue { enqItem with Value := enqItem.Value.ChangeStatus .Queued } }
  if shouldProcessNextJob q2 "add" then processNextJob q2 else q2

/-- The loop of `Resume`, bounded by the number of its iterations. -/
def resumeLoop : Nat → ConcurrentQueue T R → ConcurrentQueue T R
  | 0, q => q
  | fuel + 1, q =>
    if shouldProcessNextJob q "resume" then resumeLoop fuel (processNextJob q) else q

/-- Embeds `Resume`: every iteration of its loop dequeues at least one job, so as many
iterations as there are queued jobs are enough. -/
def Resume (q : ConcurrentQueue T R) : ConcurrentQueue T R :=
  let q1 := { q with isPaused := false }
  resumeLoop q1.JobQueue.Len q1

/-- The body of the loop of `Purge` for one job. -/
def purgeJob (j : Job T R) : Outcome (Job T R) :=
  match j.ResultChannel.Data with
  | none => .ok j
  | some c =>
    (chanClose (some c)).map fun d => { j with ResultChannel := { j.ResultChannel with Data := d } }

/-- The loop of `Purge` over the snapshot of the queue. -/
def purgeLoop : List (Job T R) → Outcome (List (Job T R))
  | [] => .ok []
  | j :: rest => (purgeJob j).bind fun j1 => (purgeLoop rest).map fun js => j1 :: js

/-- Embeds `Purge`. -/
def Purge (q : ConcurrentQueue T R) : Outcome (ConcurrentQueue T R) :=
  let prevValues := q.JobQueue.Values
  let q1 := { q with JobQueue := q.JobQueue.Init, wg := q.wg + (-(prevValues.length : Int)) }
  (purgeLoop prevValues).map fun js => { q1 with purged := q1.purged ++ js }

/-- Embeds `pickNextChannel`. -/
def pickNextChannel (q : ConcurrentQueue T R) : Outcome (Nat × ConcurrentQueue T R) :=
  let l := q.ChannelsStack.length
  match q.ChannelsStack.get? (l - 1) with
  | none => .panic .indexOutOfRange
  | some channel =>
    if l = 0 then .panic .indexOutOfRange
    else .ok (channel, { q with ChannelsStack := q.ChannelsStack.take (l - 1) })

/-- The critical section at the end of an iteration of `spawnWorker`, run by
the worker goroutine of `channel` after it has called the worker, sent the
result, and marked and closed its job; those statements act on the finished
job alone, which the scheduler state no longer holds. -/
def workerDone (q : ConcurrentQueue T R) (channel : Nat) : ConcurrentQueue T R :=
  let q1 := { q with
    ChannelsStack := q.ChannelsStack ++ [channel]
    curProcessing := (q.curProcessing + (uint32Size - 1)) % uint32Size
    wg := q.wg - 1 }
  if shouldProcessNextJob q1 "worker" then processNextJob q1 else q1

/-- Embeds `WaitUntilFinished`: it returns only once the wait group is at zero. -/
def WaitUntilFinished (q : ConcurrentQueue T R) : Outcome (ConcurrentQueue T R) :=
  if q.wg = 0 then .ok q else .blocks

/-- Embeds `Restart`: a fresh channel and worker for every slot, between a pause and a
resume. -/
def Restart (q : ConcurrentQueue T R) : Outcome (ConcurrentQueue T R) :=
  (WaitUntilFinished (Pause q)).map fun q1 =>
    Resume { q1 with ChannelsStack := List.range q1.ChannelsStack.length }

/-- Embeds `NewQueue`: the struct literal, then `Restart`.  The `concurrency`
entries of the stack of the literal are nil channels, written 0 here; `Restart`
replaces every one of them. -/
def NewQueue (concurrency : Nat) : Outcome (ConcurrentQueue T R) :=
  Restart
    { Concurrency := concurrency
      ChannelsStack := List.replicate concurrency 0
      curProcessing := 0
      JobQueue := queue.NewQueue
      wg := 0
      isPaused := false
      senders := []
      workers := []
      purged := [] }

/-- Steps of the scheduler.  `AddJob`, `Pause`, `Resume` and `Purge` are the
methods; `pick i` lets the `i`-th waiting sender goroutine run
`pickNextChannel` and hand its job to the worker of that channel;
`complete i` is the end of the iteration of the `i`-th busy worker;
`closeJob i` is a call of `Close` on the `i`-th queued job by the holder of
its handle. -/
inductive Step (T R : Type) where
  | AddJob (j : Job T R)
  | Pause
  | Resume
  | Purge
  | pick (i : Nat)
  | complete (i : Nat)
  | closeJob (i : Nat)
  deriving DecidableEq, Repr

/-- One step of the scheduler; a step that names a goroutine or job that does
not exist is not enabled. -/
def step (q : ConcurrentQueue T R) : Step T R → Outcome (ConcurrentQueue T R)
  | .AddJob j => .ok (AddJob q { Value := j, Priority := 0, Index := 0 })
  | .Pause => .ok (Pause q)
  | .Resume => .ok (Resume q)
  | .Purge => Purge q
  | .pick i =>
    match q.senders.get? i with
    | none => .blocks
    | some j =>
      (pickNextChannel q).map fun (channel, q1) =>
        { q1 with senders := q1.senders.eraseIdx i, workers := q1.workers ++ [(channel, j)] }
  | .complete i =>
    match q.workers.get? i with
    | none => .blocks
    | some (channel, _) => .ok (workerDone { q with workers := q.workers.eraseIdx i } channel)
  | .closeJob i =>
    match q.JobQueue.get? i with
    | none => .blocks
    | some j => (Job.Close j).map fun (_, j1) => { q with JobQueue := q.JobQueue.set i j1 }

/-- A sequence of steps. -/
def run (q : ConcurrentQueue T R) : List (Step T R) → Outcome (ConcurrentQueue T R)
  | [] => .ok q
  | e :: rest => (step q e).bind fun q1 => run q1 rest

/-- Counter invariant of the scheduler: the in-flight counter counts the jobs
handed to goroutines, and it is within the concurrency, itself a `uint32`. -/
def Inv (q : ConcurrentQueue T R) : Prop :=
  q.curProcessing = q.senders.length + q.workers.length ∧
  q.curProcessing ≤ q.Concurrency ∧ q.Concurrency < uint32Size

/-- Status invariant of the scheduler: a waiting job is Queued or Closed, a job
handed to a goroutine is Processing. -/
def StatusInv (q : ConcurrentQueue T R) : Prop :=
  (∀ j ∈ q.JobQueue, j.Status = .Queued ∨ j.Status = .Closed) ∧
  (∀ j ∈ q.senders, j.Status = .Processing) ∧
  (∀ w ∈ q.workers, w.2.Status = .Processing)

/-- The job after the statement `close(job.ResultChannel.Data)` of `Purge`,
which is skipped when the channel is nil. -/
def Job.withDataClosed (j : Job T R) : Job T R :=
  { j with ResultChannel :=
      { j.ResultChannel with Data := j.ResultChannel.Data.map fun c => { c with closed := true } } }

/-- A job as a caller hands it to `AddJob`, with input `n` and both result
channels made with a buffer of one. -/
def exampleJob (n : Nat) : Job Nat Nat :=
  { Data := n
    ResultChannel := { Data := some (Chan.make 1), Err := some (Chan.make 1) }
    Status := .Created }

/-- A job without a `Data` channel, as a void worker needs it: its result, an
error or nil, travels on `Err`. -/
def exampleVoidJob (n : Nat) : Job Nat Nat :=
  { Data := n
    ResultChannel := { Data := none, Err := some (Chan.make 1) }
    Status := .Created }

/-- The queue that `NewQueue 1` builds. -/
def exampleStart : ConcurrentQueue Nat Nat :=
  { Concurrency := 1
    ChannelsStack := [0]
    curProcessing := 0
    JobQueue := []
    wg := 0
    isPaused := false
    senders := []
    workers := []
    purged := [] }

/-- Three submissions to `exampleStart`. -/
def exampleSubmit : List (Step Nat Nat) :=
  [.AddJob (exampleJob 1), .AddJob (exampleJob 2), .AddJob (exampleJob 3)]

/-- The state after `exampleSubmit`: job 1 is dispatched, jobs 2 and 3 wait. -/
def exampleLoaded : ConcurrentQueue Nat Nat :=
  { Concurrency := 1
    ChannelsStack := [0]
    curProcessing := 1
    JobQueue := [(exampleJob 2).ChangeStatus .Queued, (exampleJob 3).ChangeStatus .Queued]
    wg := 3
    isPaused := false
    senders := [(exampleJob 1).ChangeStatus .Processing]
    workers := []
    purged := [] }

/-- Job 2 after its holder has closed it while it was waiting. -/
def exampleClosedJob : Job Nat Nat :=
  { Data := 2
    ResultChannel :=
      { Data := some { buf := [], cap := 1, closed := true }
        Err := some { buf := [], cap := 1, closed := true } }
    Status := .Closed }

/-- The state after `exampleSubmit`, the closing of job 2, the hand-over of
job 1 to the worker and `Pause`. -/
def examplePaused : ConcurrentQueue Nat Nat :=
  { Concurrency := 1
    ChannelsStack := []
    curProcessing := 1
    JobQueue := [exampleClosedJob, (exampleJob 3).ChangeStatus .Queued]
    wg := 3
    isPaused := true
    senders := []
    workers := [(0, (exampleJob 1).ChangeStatus .Processing)]
    purged := [] }

/-- The state in which `Resume` starts its loop after the completion of job 1
in `examplePaused`: the slot is free, the closed job 2 and job 3 wait. -/
def exampleIdle : ConcurrentQueue Nat Nat :=
  { Concurrency := 1
    ChannelsStack := [0]
    curProcessing := 0
    JobQueue := [exampleClosedJob, (exampleJob 3).ChangeStatus .Queued]
    wg := 2
    isPaused := false
    senders := []
    workers := []
    purged := [] }

/-- The state after the completion of job 1 in `examplePaused` and `Resume`:
job 2 is discarded and job 3 dispatched. -/
def exampleResumed : ConcurrentQueue Nat Nat :=
  { Concurrency := 1
    ChannelsStack := [0]
    curProcessing := 1
    JobQueue := []
    wg := 1
    isPaused := false
    senders := [(exampleJob 3).ChangeStatus .Processing]
    workers := []
    purged := [] }

/-- The state after `Pause` and the submission of a job without `Data`
channel to `exampleStart`. -/
def exampleVoidWaiting : ConcurrentQueue Nat Nat :=
  { Concurrency := 1
    ChannelsStack := [0]
    curProcessing := 0
    JobQueue := [(exampleVoidJob 1).ChangeStatus .Queued]
    wg := 1
    isPaused := true
    senders := []
    workers := []
    purged := [] }

end concurrent_queue

/-! ## Package `varmq` (`job.go`, `result_channel.go`, `external_queue.go`) -/

namespace varmq

/-- Go `error` values that the embedded code creates or passes on. -/
inductive Error where
  /-- Message "job is processing, you can't close processing job". -/
  | processingCannotClose
  /-- Message "job is already closed". -/
  | alreadyClosed
  /-- Message "job is not acknowledgeable". -/
  | notAcknowledgeable
  /-- Message "queue failed to acknowledge job %s (ackId=%s)". -/
  | ackRejected (id ackId : String)
  /-- Message "failed to parse job: %w". -/
  | parseFailed (cause : String)
  /-- Message "invalid status: %s". -/
  | invalidStatus (status : String)
  /-- Message "result channel has already been consumed". -/
  | alreadyConsumed
  /-- Any other error, such as one returned by a worker or by `json.Marshal`. -/
  | other (msg : String)
  deriving DecidableEq, Repr

/-- The type `status`, stored in an `atomic.Uint32`. -/
abbrev status := Nat

/-- Constant `created`. -/
abbrev created : Nat := 0
/-- Constant `queued`. -/
abbrev queued : Nat := 1
/-- Constant `processing`. -/
abbrev processing : Nat := 2
/-- Constant `finished`. -/
abbrev finished : Nat := 3
/-- Constant `closed`. -/
abbrev closed : Nat := 4

/-- The struct `Result`, with the fields `job.go` uses; its zero value has an
empty `JobId`, the zero value of `R` (`default`) and a nil `Err`. -/
structure Result (R : Type) where
  JobId : String
  Data : R
  Err : Option Error
  deriving DecidableEq, Repr

/-- Zero value of `Result`. -/
def Result.zero {R : Type} [Inhabited R] : Result R :=
  { JobId := "", Data := default, Err := none }

/-- The struct `ResultController` of `result_channel.go`, which is the type of
the field `resultChannel` of a job.  `consumed` is true once a value has
been stored in the atomic of that name. -/
structure ResultController (R : Type) where
  ch : Option (Chan (Result R))
  consumed : Bool
  Output : Result R
  deriving DecidableEq, Repr

/-- Zero value of `ResultController`: its channel is nil. -/
def ResultController.zero {R : Type} [Inhabited R] : ResultController R :=
  { ch := none, consumed := false, Output := Result.zero }

/-- Embeds `newResultController` (`newResultChannel` in `job.go`). -/
def newResultController {R : Type} [Inhabited R] (bufferSize : Nat) : ResultController R :=
  { ch := some (Chan.make bufferSize), consumed := false, Output := Result.zero }

/-- Embeds `ResultController.Read`: whether a channel is returned (it is the
channel `ch`), and the error. -/
def ResultController.Read {R : Type} (rc : ResultController R) :
    (Option (Chan (Result R)) × Option Error) × ResultController R :=
  if rc.consumed then ((none, some .alreadyConsumed), rc)
  else ((rc.ch, none), { rc with consumed := true })

/-- Embeds `ResultController.Send`. -/
def ResultController.Send {R : Type} (rc : ResultController R) (result : Result R) :
    Outcome (ResultController R) :=
  (chanSend result rc.ch).map fun c => { rc with ch := c }

/-- Embeds `ResultController.Close`, which returns a nil error. -/
def ResultController.Close {R : Type} (rc : ResultController R) : Outcome (ResultController R) :=
  (chanClose rc.ch).map fun c => { rc with ch := c }

/-- The interface value in the field `queue` of a job, as far as `Ack` looks
at it: nil, a queue that does not implement `IAcknowledgeable`, or one that
does. -/
inductive QueueRef where
  | nil
  | base
  | acknowledgeable
  deriving DecidableEq, Repr

/-- A queue that implements `IAcknowledgeable`: `answer` is what `Acknowledge`
returns for an id given the ids it was called with before, and `calls` are
the ids it has been called with. -/
structure IAcknowledgeable where
  answer : List String → String → Bool
  calls : List String

/-- The method `Acknowledge` of the interface `IAcknowledgeable`. -/
def IAcknowledgeable.Acknowledge (q : IAcknowledgeable) (ackID : String) : Bool × IAcknowledgeable :=
  (q.answer q.calls ackID, { q with calls := q.calls ++ [ackID] })

/-- The struct `jobConfigs`, with the one field `job.go` reads. -/
structure jobConfigs where
  Id : String
  deriving DecidableEq, Repr

/-- The struct `job`. -/
structure job (T R : Type) where
  id : String
  Input : T
  status : Nat
  Output : Result R
  resultChannel : ResultController R
  queue : QueueRef
  ackId : String
  deriving DecidableEq, Repr

/-- The struct `jobView`. -/
structure jobView (T R : Type) where
  Id : String
  Status : String
  Input : T
  Output : Result R
  deriving DecidableEq, Repr

/-- What a JSON text holds for the fields of a `jobView`: the values of the
fields of value types, and for the field `Err` of the output, which is of the
interface type `error`, whether the JSON value is null. -/
structure jsonFields (T R : Type) where
  Id : String
  Status : String
  Input : T
  JobId : String
  Data : R
  ErrIsNull : Bool
  deriving DecidableEq, Repr

/-- The Go library `encoding/json` at the type `jobView`, taken as a
parameter; bytes are numbers.  `Marshal` is `json.Marshal`; `Decode` is the
reading of a JSON text into the fields of a view, the first half of
`json.Unmarshal`. -/
structure JsonCodec (T R : Type) where
  Marshal : jobView T R → Except Error (List Nat)
  Decode : List Nat → Except String (jsonFields T R)

/-- The message of the `UnmarshalTypeError` of `encoding/json` for a field of
type `error`, without the path of the field. -/
def unmarshalTypeError : String :=
  "json: cannot unmarshal object into Go struct field of type error"

/-- The call `json.Unmarshal(data, &view)`: the values read are stored in the
fields of the view.  The library has no value to store in a field of the
interface type `error` other than nil for the JSON value null; for any other
JSON value there it returns an `UnmarshalTypeError`. -/
def JsonCodec.Unmarshal {T R : Type} (codec : JsonCodec T R) (data : List Nat) :
    Except String (jobView T R) :=
  match codec.Decode data with
  | .error err => .error err
  | .ok f =>
    if f.ErrIsNull then
      .ok { Id := f.Id, Status := f.Status, Input := f.Input
            Output := { JobId := f.JobId, Data := f.Data, Err := none } }
    else .error unmarshalTypeError

section
variable {T R : Type}

/-- Embeds `newJob`. -/
def newJob [Inhabited R] (data : T) (configs : jobConfigs) : job T R :=
  { id := configs.Id
    Input := data
    status := 0
    Output := Result.zero
    resultChannel := newResultController 1
    queue := .nil
    ackId := "" }

/-- Embeds `newVoidJob`: every field but `id` and `Input` has its zero value. -/
def newVoidJob [Inhabited R] (data : T) (configs : jobConfigs) : job T R :=
  { id := configs.Id
    Input := data
    status := 0
    Output := Result.zero
    resultChannel := ResultController.zero
    queue := .nil
    ackId := "" }

/-- Embeds `job.SetAckId`. -/
def job.SetAckId (j : job T R) (id : String) : job T R := { j with ackId := id }

/-- Embeds `job.SetInternalQueue`. -/
def job.SetInternalQueue (j : job T R) (q : QueueRef) : job T R := { j with queue := q }

/-- Embeds `job.ID`. -/
def job.ID (j : job T R) : String := j.id

/-- Embeds `job.Data`. -/
def job.Data (j : job T R) : T := j.Input

/-- Embeds `job.Status`. -/
def job.Status (j : job T R) : String :=
  if j.status = created then "Created"
  else if j.status = queued then "Queued"
  else if j.status = processing then "Processing"
  else if j.status = finished then "Finished"
  else if j.status = closed then "Closed"
  else "Unknown"

/-- Embeds `job.IsClosed`. -/
def job.IsClosed (j : job T R) : Bool := decide (j.status = closed)

/-- Embeds `job.ChangeStatus`. -/
def job.ChangeStatus (j : job T R) (s : varmq.status) : job T R := { j with status := s }

/-- Embeds `job.SaveAndSendResult`. -/
def job.SaveAndSendResult [Inhabited R] (j : job T R) (result : R) : Outcome (job T R) :=
  let r : Result R := { JobId := j.id, Data := result, Err := none }
  let j1 := { j with Output := r }
  (j1.resultChannel.Send r).map fun rc => { j1 with resultChannel := rc }

/-- Embeds `job.SaveAndSendError`. -/
def job.SaveAndSendError [Inhabited R] (j : job T R) (err : Option Error) : Outcome (job T R) :=
  let r : Result R := { JobId := j.id, Data := default, Err := err }
  let j1 := { j with Output := r }
  (j1.resultChannel.Send r).map fun rc => { j1 with resultChannel := rc }

/-- Embeds `job.Result`: the pair returned, and the job after the receive. -/
def job.Result (j : job T R) : Outcome ((R × Option Error) × job T R) :=
  (chanRecv j.resultChannel.ch).map fun (received, c) =>
    let j1 := { j with resultChannel := { j.resultChannel with ch := c } }
    match received with
    | some result => ((result.Data, result.Err), j1)
    | none => ((j.Output.Data, j.Output.Err), j1)

/-- The first `n` calls of `job.Result` one after the other: the pairs
returned, in order, and the job after the last call. -/
def job.ResultN : Nat → job T R → Outcome (List (R × Option Error) × job T R)
  | 0, j => .ok ([], j)
  | n + 1, j =>
    j.Result.bind fun r => (job.ResultN n r.2).map fun rs => (r.1 :: rs.1, rs.2)

/-- Embeds `job.CloseResultChannel`. -/
def job.CloseResultChannel (j : job T R) : Outcome (job T R) :=
  j.resultChannel.Close.map fun rc => { j with resultChannel := rc }

/-- Embeds `job.isCloseable`. -/
def job.isCloseable (j : job T R) : Option Error :=
  if j.status = processing then some .processingCannotClose
  else if j.status = closed then some .alreadyClosed
  else none

/-- The `jobView` that `job.Json` builds. -/
def job.toView (j : job T R) : jobView T R :=
  { Id := j.ID, Status := j.Status, Input := j.Input, Output := j.Output }

/-- Embeds `job.Json`. -/
def job.Json (codec : JsonCodec T R) (j : job T R) : Except Error (List Nat) :=
  let view : jobView T R := j.toView
  codec.Marshal view

/-- Embeds `parseToJob`. -/
def parseToJob [Inhabited R] (codec : JsonCodec T R) (data : List Nat) : Except Error (job T R) :=
  match codec.Unmarshal data with
  | .error err => .error (.parseFailed err)
  | .ok view =>
    let j : job T R :=
      { id := view.Id
        Input := view.Input
        status := 0
        Output := view.Output
        resultChannel := newResultController 1
        queue := .nil
        ackId := "" }
    if view.Status = "Created" then .ok { j with status := created }
    else if view.Status = "Queued" then .ok { j with status := queued }
    else if view.Status = "Processing" then .ok { j with status := processing }
    else if view.Status = "Finished" then .ok { j with status := finished }
    else if view.Status = "Closed" then .ok { j with status := closed }
    else .error (.invalidStatus view.Status)

/-- Embeds `job.Ack`, run against the queue `q` the job points to: the error
returned and the queue afterwards. -/
def job.Ack (j : job T R) (q : IAcknowledgeable) : Option Error × IAcknowledgeable :=
  if j.ackId = "" ∨ j.IsClosed = true then (some .notAcknowledgeable, q)
  else
    match j.queue with
    | .acknowledgeable =>
      let r := q.Acknowledge j.ackId
      if r.1 = false then (some (.ackRejected j.id j.ackId), r.2) else (none, r.2)
    | _ => (some .notAcknowledgeable, q)

/-- Embeds `job.close`: the error returned, the job and the queue afterwards. -/
def job.close (j : job T R) (q : IAcknowledgeable) :
    Outcome (Option Error × job T R × IAcknowledgeable) :=
  match j.isCloseable with
  | some err => .ok (some err, j, q)
  | none =>
    j.resultChannel.Close.map fun rc =>
      let j1 := { j with resultChannel := rc }
      let r := j1.Ack q
      (none, { j1 with status := closed }, r.2)

/-- A value held by the queue of a worker (Go type `any`): a job, as in-memory
queues hold it, or the bytes of a serialised job. -/
inductive Item (T R : Type) where
  | job (j : job T R)
  | bytes (b : List Nat)
  deriving DecidableEq, Repr

/-- The struct `externalQueue`, reduced to the values in the queue of its
worker (the struct `worker` is not among the sources). -/
structure externalQueue (T R : Type) where
  Queue : List (Item T R)
  deriving DecidableEq, Repr

/-- The loop of `externalQueue.Purge` over the snapshot of the queue: the
values after it. -/
def purgeValues : List (Item T R) → Outcome (List (Item T R))
  | [] => .ok []
  | .job j :: rest =>
    j.CloseResultChannel.bind fun j1 => (purgeValues rest).map fun vs => .job j1 :: vs
  | .bytes b :: rest => (purgeValues rest).map fun vs => .bytes b :: vs

/-- Embeds `externalQueue.PendingCount`. -/
def externalQueue.PendingCount (wbq : externalQueue T R) : Nat := wbq.Queue.length

/-- Embeds `externalQueue.Purge`: the emptied queue and the values it held,
after the loop. -/
def externalQueue.Purge (wbq : externalQueue T R) : Outcome (externalQueue T R × List (Item T R)) :=
  let prevValues := wbq.Queue
  let wbq1 : externalQueue T R := { wbq with Queue := [] }
  (purgeValues prevValues).map fun vs => (wbq1, vs)

end

/-- Encoding of a string as its length followed by its characters. -/
def encodeString (s : String) : List Nat :=
  s.length :: s.toList.map Char.toNat

/-- Decoding of a string written by `encodeString`, with the bytes after it. -/
def decodeString : List Nat → Option (String × List Nat)
  | [] => none
  | n :: rest =>
    if rest.length < n then none
    else some (String.mk ((rest.take n).map Char.ofNat), rest.drop n)

/-- A codec for views with numbers as input and output: a view is written as
its id, its status, its input, the job id and the data of its output, and a
last number for the field `Err`, 0 where `json.Marshal` writes null (a nil
error) and 1 where it writes an object (an error value). -/
def exampleCodec : JsonCodec Nat Nat where
  Marshal := fun v =>
    .ok (encodeString v.Id ++ encodeString v.Status ++ [v.Input]
      ++ encodeString v.Output.JobId ++ [v.Output.Data]
      ++ [match v.Output.Err with | none => 0 | some _ => 1])
  Decode := fun data =>
    match decodeString data with
    | none => .error "unexpected end of input"
    | some (id, r1) =>
      match decodeString r1 with
      | none => .error "unexpected end of input"
      | some (st, r2) =>
        match r2 with
        | [] => .error "unexpected end of input"
        | input :: r3 =>
          match decodeString r3 with
          | none => .error "unexpected end of input"
          | some (jobId, r4) =>
            match r4 with
            | [out, err] =>
              .ok { Id := id, Status := st, Input := input, JobId := jobId, Data := out
                    ErrIsNull := decide (err = 0) }
            | _ => .error "unexpected end of input"

/-- A queue that acknowledges every id but "no". -/
def exampleQueue : IAcknowledgeable :=
  { answer := fun _ ackID => ackID != "no", calls := [] }

/-- A job as `newJob` builds it and `postEnqueue` marks it. -/
def exampleQueuedJob : job Nat Nat :=
  (newJob 7 { Id := "a" }).ChangeStatus queued

/-- A job that finished with result 14, as its serialised form shows it. -/
def exampleFinishedView : jobView Nat Nat :=
  { Id := "a", Status := "Finished", Input := 7, Output := { JobId := "a", Data := 14, Err := none } }

/-- The job `parseToJob` rebuilds from `exampleFinishedView`. -/
def exampleRebuiltJob : job Nat Nat :=
  { id := "a"
    Input := 7
    status := finished
    Output := { JobId := "a", Data := 14, Err := none }
    resultChannel := newResultController 1
    queue := .nil
    ackId := "" }

/-- A job that finished with the error "boom": made by `newJob`, marked
Processing, given the error by `SaveAndSendError` and marked Finished. -/
def exampleFailedJob : job Nat Nat :=
  { id := "a"
    Input := 7
    status := finished
    Output := { JobId := "a", Data := 0, Err := some (.other "boom") }
    resultChannel :=
      { ch := some { buf := [{ JobId := "a", Data := 0, Err := some (.other "boom") }]
                     cap := 1, closed := false }
        consumed := false
        Output := Result.zero }
    queue := .nil
    ackId := "" }

end varmq

namespace concurrent_queue
variable {T R : Type}

/-- Slot invariant of the scheduler: every worker channel is either on the
stack or with the worker that holds a job. -/
def SlotInv (q : ConcurrentQueue T R) : Prop :=
  q.ChannelsStack.length + q.workers.length = q.Concurrency

end concurrent_queue

namespace concurrent_queue
variable {T R : Type}

/-- The jobs of a queue that are not closed, in queue order. -/
def openJobs (l : List (Job T R)) : List (Job T R) :=
  l.filter fun j => !j.IsClosed

/-- The queue that is left of `l` once `k` open jobs have been dequeued, the
closed jobs met on the way being dequeued too; with fewer than `k` open jobs
nothing is left. -/
def afterDispatch : Nat → List (Job T R) → List (Job T R)
  | 0, l => l
  | _ + 1, [] => []
  | k + 1, j :: rest => if j.IsClosed then afterDispatch (k + 1) rest else afterDispatch k rest

/-- The number of closed jobs dequeued on the way to `afterDispatch k l`. -/
def discardedClosed : Nat → List (Job T R) → Nat
  | 0, _ => 0
  | _ + 1, [] => 0
  | k + 1, j :: rest =>
    if j.IsClosed then discardedClosed (k + 1) rest + 1 else discardedClosed k rest

end concurrent_queue

namespace concurrent_queue
variable {T R : Type}

/-- The value in the field `Worker any` of the queue, by the cases of the type
switch of `spawnWorker`: a `types.VoidWorker`, a `types.Worker`, or a value of
any other type.  A worker is a function of the input of the job; an error is
`none` (nil) or a message. -/
inductive WorkerValue (T R : Type) where
  | VoidWorker (worker : T → Option String)
  | Worker (worker : T → R × Option String)
  | other

/-- The message of the error that `spawnWorker` sends when the worker is of no
known kind. -/
def unsupportedWorker : String := "unsupported worker type passed to queue"

/-- The statement `j.ResultChannel.Err <- err`. -/
def Job.sendErr (j : Job T R) (err : Option String) : Outcome (Job T R) :=
  (chanSend err j.ResultChannel.Err).map fun e =>
    { j with ResultChannel := { j.ResultChannel with Err := e } }

/-- The statement `j.ResultChannel.Data <- result`. -/
def Job.sendData (j : Job T R) (result : R) : Outcome (Job T R) :=
  (chanSend result j.ResultChannel.Data).map fun d =>
    { j with ResultChannel := { j.ResultChannel with Data := d } }

/-- The type switch at the head of an iteration of `spawnWorker`: the worker is
called and its result sent. -/
def callWorker (w : WorkerValue T R) (j : Job T R) : Outcome (Job T R) :=
  match w with
  | .VoidWorker worker =>
    let err := worker j.Data
    j.sendErr err
  | .Worker worker =>
    let r := worker j.Data
    match r.2 with
    | some e => j.sendErr (some e)
    | none => j.sendData r.1
  | .other => j.sendErr (some unsupportedWorker)

/-- The statements of an iteration of `spawnWorker` that come before its
critical section: the type switch, `j.ChangeStatus(job.Finished)` and
`j.Close()`, whose error is dropped. -/
def spawnWorkerJob (w : WorkerValue T R) (j : Job T R) : Outcome (Job T R) :=
  (callWorker w j).bind fun j1 =>
    (Job.Close (j1.ChangeStatus .Finished)).map fun r => r.2

/-- The job after `Close` has closed the result channels it has. -/
def Job.closedJob (j : Job T R) : Job T R :=
  { j with
    ResultChannel :=
      { Data := j.ResultChannel.Data.map fun c => { c with closed := true }
        Err := j.ResultChannel.Err.map fun c => { c with closed := true } }
    Status := .Closed }

end concurrent_queue

namespace varmq
variable {T R : Type}

/-- Embeds `job.Drain`: the error returned, the job afterwards and, when the
goroutine is started, the channel `ch` it ranges over, which is then nil
(`some none`); `none` when no goroutine is started. -/
def job.Drain (j : job T R) :
    Option Error × job T R × Option (Option (Chan (varmq.Result R))) :=
  let r := j.resultChannel.Read
  let j1 := { j with resultChannel := r.2 }
  match r.1.1 with
  | some _ => (r.1.2, j1, none)
  | none => (none, j1, some none)

/-- Modelled from the spec: `withRequiredJobId`, whose source is missing; the
comment of `persistentQueue.Add` says "It will panic if no job ID is
provided". -/
def withRequiredJobId (c : jobConfigs) : Outcome jobConfigs :=
  if c.Id = "" then .panic .explicitPanic else .ok c

/-- The method `Enqueue` of a queue that implements `IPersistentQueue`, as a
back-end outside the program: `accepts` is what `Enqueue` returns for an item
given the items it was called with before, and `offered` are the items it
has been called with. -/
structure IPersistentQueue where
  accepts : List (List Nat) → List Nat → Bool
  offered : List (List Nat)

/-- The method `Enqueue` of the interface `IQueue`. -/
def IPersistentQueue.Enqueue (q : IPersistentQueue) (item : List Nat) : Bool × IPersistentQueue :=
  (q.accepts q.offered item, { q with offered := q.offered ++ [item] })

/-- The struct `persistentQueue`, as `Add` uses it: `Cache` is the id index of
the embedded queue (a `sync.Map` from id to job), `internalQueue` the
back-end with its `Enqueue` and, in `acknowledger`, its `Acknowledge`;
`notified` counts the calls of `notifyToPullNextJobs`. -/
structure persistentQueue (T R : Type) where
  Cache : String → Option (job T R)
  internalQueue : IPersistentQueue
  acknowledger : IAcknowledgeable
  notified : Nat

/-- The method `Store` of the id index. -/
def cacheStore (cache : String → Option (job T R)) (id : String) (j : job T R) :
    String → Option (job T R) :=
  fun key => if key = id then some j else cache key

/-- Embeds `externalQueue.postEnqueue`, a method of the queue embedded in
`persistentQueue`: the job and the queue afterwards. -/
def persistentQueue.postEnqueue (wbq : persistentQueue T R) (j : job T R) :
    job T R × persistentQueue T R :=
  let j1 := j.ChangeStatus queued
  let wbq1 := if j1.ID ≠ "" then { wbq with Cache := cacheStore wbq.Cache j1.ID j1 } else wbq
  (j1, { wbq1 with notified := wbq1.notified + 1 })

/-- Embeds `persistentQueue.Add`, `configs` being the configuration that
`loadJobConfigs` returns and `q.newJob`, whose source is missing, the
function `newJob` of `job.go`: the pair returned (nil is `none`), the queue
afterwards, and the job that was prepared, as it is afterwards. -/
def persistentQueue.Add [Inhabited R] (codec : JsonCodec T R) (q : persistentQueue T R)
    (data : T) (configs : jobConfigs) :
    Outcome ((Option (job T R) × Bool) × persistentQueue T R × job T R) :=
  (withRequiredJobId configs).bind fun c =>
    let j : job T R := newJob data c
    match j.Json codec with
    | .error _ => .ok ((none, false), q, j)
    | .ok val =>
      let r := q.internalQueue.Enqueue val
      let q1 := { q with internalQueue := r.2 }
      if r.1 = false then
        (j.close q1.acknowledger).map fun c =>
          ((none, false), { q1 with acknowledger := c.2.2 }, c.2.1)
      else
        let j1 := j.SetInternalQueue .acknowledgeable
        let p := q1.postEnqueue j1
        .ok ((some p.1, true), p.2, p.1)

/-- A back-end that accepts an item unless it already holds two. -/
def exampleBackend : IPersistentQueue :=
  { accepts := fun offered _ => offered.length < 2, offered := [] }

/-- A persistent queue with an empty id index over `exampleBackend`. -/
def examplePersistent : persistentQueue Nat Nat :=
  { Cache := fun _ => none
    internalQueue := exampleBackend
    acknowledger := exampleQueue
    notified := 0 }

end varmq

namespace concurrent_queue
variable {T R : Type}

/-- The job `j1` is the job `j` after exactly one value, `v`, has been sent on
its `Err` channel, which was open with room, nothing else being changed. -/
def Job.sentErr (j j1 : Job T R) (v : Option String) : Prop :=
  ∃ ce, j.ResultChannel.Err = some ce ∧ ce.closed = false ∧ ce.buf.length < ce.cap ∧
    j1 = { j with
      ResultChannel := { j.ResultChannel with Err := some { ce with buf := ce.buf ++ [v] } } }

/-- The job `j1` is the job `j` after exactly one value, `v`, has been sent on
its `Data` channel, which was open with room, nothing else being changed. -/
def Job.sentData (j j1 : Job T R) (v : R) : Prop :=
  ∃ cd, j.ResultChannel.Data = some cd ∧ cd.closed = false ∧ cd.buf.length < cd.cap ∧
    j1 = { j with
      ResultChannel := { j.ResultChannel with Data := some { cd with buf := cd.buf ++ [v] } } }

/-- The delivery the specification asks of the executor: the error of a void
worker, nil or not; the error of a value-returning worker when it is not nil
and its data otherwise; the unsupported-worker error for any other worker. -/
def delivered (w : WorkerValue T R) (j j1 : Job T R) : Prop :=
  match w with
  | .VoidWorker worker => j.sentErr j1 (worker j.Data)
  | .Worker worker =>
    match (worker j.Data).2 with
    | some e => j.sentErr j1 (some e)
    | none => j.sentData j1 (worker j.Data).1
  | .other => j.sentErr j1 (some unsupportedWorker)

end concurrent_queue

/-! # Theorems -/

namespace concurrent_queue
variable {T R : Type}

theorem processNextJobAux_frame (fuel : Nat) (q : ConcurrentQueue T R) :
    (processNextJobAux fuel q).Concurrency = q.Concurrency ∧
    (processNextJobAux fuel q).isPaused = q.isPaused ∧
    (processNextJobAux fuel q).ChannelsStack = q.ChannelsStack ∧
    (processNextJobAux fuel q).workers = q.workers ∧
    (processNextJobAux fuel q).purged = q.purged := by
  induction fuel generalizing q with
  | zero => simp [processNextJobAux]
  | succ n ih =>
    unfold processNextJobAux
    cases hq : q.JobQueue.Dequeue with
    | none => simp
    | some p =>
      obtain ⟨j, rest⟩ := p
      by_cases hc : j.IsClosed = true
      · simp only [hc, if_true]
        have := ih { q with JobQueue := rest, wg := q.wg - 1 }
        simpa using this
      · simp [hc]

theorem processNextJobAux_inv (fuel : Nat) (q : ConcurrentQueue T R) (h : Inv q)
    (hlt : q.curProcessing < q.Concurrency) : Inv (processNextJobAux fuel q) := by
  induction fuel generalizing q with
  | zero => simpa [processNextJobAux] using h
  | succ n ih =>
    unfold processNextJobAux
    cases hq : q.JobQueue.Dequeue with
    | none => simpa using h
    | some p =>
      obtain ⟨j, rest⟩ := p
      by_cases hc : j.IsClosed = true
      · simp only [hc, if_true]
        exact ih _ h hlt
      · have hc1 : j.IsClosed = false := by simpa using hc
        simp only [hc1, Bool.false_eq_true, if_false]
        obtain ⟨h1, h2, h3⟩ := h
        have hmod : (q.curProcessing + 1) % uint32Size = q.curProcessing + 1 :=
          Nat.mod_eq_of_lt (by omega)
        refine ⟨?_, ?_, h3⟩
        · show (q.curProcessing + 1) % uint32Size = (q.senders ++ [_]).length + q.workers.length
          rw [hmod, List.length_append, List.length_singleton]; omega
        · show (q.curProcessing + 1) % uint32Size ≤ q.Concurrency
          rw [hmod]; omega

theorem processNextJob_inv (q : ConcurrentQueue T R) (h : Inv q)
    (hlt : q.curProcessing < q.Concurrency) : Inv (processNextJob q) :=
  processNextJobAux_inv _ q h hlt

theorem resumeLoop_inv (fuel : Nat) (q : ConcurrentQueue T R) (h : Inv q) :
    Inv (resumeLoop fuel q) := by
  induction fuel generalizing q with
  | zero => simpa [resumeLoop] using h
  | succ n ih =>
    unfold resumeLoop
    by_cases hs : shouldProcessNextJob q "resume" = true
    · simp only [hs, if_true]
      apply ih
      apply processNextJob_inv q h
      simp [shouldProcessNextJob] at hs
      exact hs.1
    · simpa [hs] using h

theorem resumeLoop_Concurrency (fuel : Nat) (q : ConcurrentQueue T R) :
    (resumeLoop fuel q).Concurrency = q.Concurrency := by
  induction fuel generalizing q with
  | zero => simp [resumeLoop]
  | succ n ih =>
    unfold resumeLoop
    by_cases hs : shouldProcessNextJob q "resume" = true
    · simp only [hs, if_true]
      rw [ih]
      exact (processNextJobAux_frame _ q).1
    · simp [hs]

theorem step_inv (q q1 : ConcurrentQueue T R) (e : Step T R) (h : Inv q)
    (hs : step q e = .ok q1) : Inv q1 ∧ q1.Concurrency = q.Concurrency := by
  cases e with
  | AddJob j =>
    simp only [step, Outcome.ok.injEq] at hs
    subst hs
    unfold AddJob
    simp only
    split
    · rename_i hc
      refine ⟨processNextJob_inv _ h ?_, (processNextJobAux_frame _ _).1⟩
      simp [shouldProcessNextJob] at hc
      exact hc.2
    · exact ⟨h, rfl⟩
  | Pause =>
    simp only [step, Outcome.ok.injEq] at hs
    subst hs
    exact ⟨h, rfl⟩
  | Resume =>
    simp only [step, Outcome.ok.injEq] at hs
    subst hs
    exact ⟨resumeLoop_inv _ _ h, resumeLoop_Concurrency _ _⟩
  | Purge =>
    simp only [step, Purge] at hs
    cases hp : purgeLoop q.JobQueue.Values with
    | ok js =>
      rw [hp] at hs
      simp only [Outcome.map, Outcome.ok.injEq] at hs
      subst hs
      exact ⟨h, rfl⟩
    | blocks => rw [hp] at hs; simp [Outcome.map] at hs
    | panic p => rw [hp] at hs; simp [Outcome.map] at hs
  | pick i =>
    simp only [step] at hs
    cases hj : q.senders.get? i with
    | none => rw [hj] at hs; simp at hs
    | some j =>
      rw [hj] at hs
      simp only [pickNextChannel] at hs
      cases hc : q.ChannelsStack.get? (q.ChannelsStack.length - 1) with
      | none => rw [hc] at hs; simp [Outcome.map] at hs
      | some c =>
        rw [hc] at hs
        by_cases hl : q.ChannelsStack.length = 0
        · simp [hl, Outcome.map] at hs
        · simp only [hl, if_false, Outcome.map, Outcome.ok.injEq] at hs
          subst hs
          have hi : i < q.senders.length := by
            rw [List.get?_eq_some] at hj
            exact hj.1
          obtain ⟨h1, h2, h3⟩ := h
          refine ⟨⟨?_, h2, h3⟩, rfl⟩
          simp [List.length_eraseIdx, hi, h1]
          omega
  | complete i =>
    simp only [step] at hs
    cases hw : q.workers.get? i with
    | none => rw [hw] at hs; simp at hs
    | some w =>
      obtain ⟨c, j⟩ := w
      rw [hw] at hs
      simp only [Outcome.ok.injEq] at hs
      subst hs
      have hi : i < q.workers.length := by
        rw [List.get?_eq_some] at hw
        exact hw.1
      obtain ⟨h1, h2, h3⟩ := h
      have hpos : 1 ≤ q.curProcessing := by omega
      have hmod : (q.curProcessing + (uint32Size - 1)) % uint32Size = q.curProcessing - 1 := by
        have : q.curProcessing + (uint32Size - 1) = (q.curProcessing - 1) + uint32Size := by
          simp only [uint32Size]; omega
        rw [this, Nat.add_mod_right]
        exact Nat.mod_eq_of_lt (by omega)
      have hinv : Inv ({ q with
          workers := q.workers.eraseIdx i
          ChannelsStack := q.ChannelsStack ++ [c]
          curProcessing := (q.curProcessing + (uint32Size - 1)) % uint32Size
          wg := q.wg - 1 } : ConcurrentQueue T R) := by
        refine ⟨?_, ?_, h3⟩
        · show (q.curProcessing + (uint32Size - 1)) % uint32Size
            = q.senders.length + (q.workers.eraseIdx i).length
          rw [hmod, List.length_eraseIdx, if_pos hi]; omega
        · show (q.curProcessing + (uint32Size - 1)) % uint32Size ≤ q.Concurrency
          rw [hmod]; omega
      unfold workerDone
      simp only
      split
      · refine ⟨processNextJob_inv _ hinv ?_, (processNextJobAux_frame _ _).1⟩
        show (q.curProcessing + (uint32Size - 1)) % uint32Size < q.Concurrency
        rw [hmod]; omega
      · exact ⟨hinv, rfl⟩
  | closeJob i =>
    simp only [step] at hs
    cases hj : q.JobQueue.get? i with
    | none => rw [hj] at hs; simp at hs
    | some j =>
      rw [hj] at hs
      simp only at hs
      cases hc : Job.Close j with
      | ok r =>
        rw [hc] at hs
        simp only [Outcome.map, Outcome.ok.injEq] at hs
        subst hs
        exact ⟨h, rfl⟩
      | blocks => rw [hc] at hs; simp [Outcome.map] at hs
      | panic p => rw [hc] at hs; simp [Outcome.map] at hs

theorem run_inv (steps : List (Step T R)) (q q1 : ConcurrentQueue T R) (h : Inv q)
    (hr : run q steps = .ok q1) : Inv q1 ∧ q1.Concurrency = q.Concurrency := by
  induction steps generalizing q with
  | nil =>
    simp only [run, Outcome.ok.injEq] at hr
    subst hr
    exact ⟨h, rfl⟩
  | cons e rest ih =>
    simp only [run] at hr
    cases hs : step q e with
    | ok q2 =>
      rw [hs] at hr
      simp only [Outcome.bind] at hr
      obtain ⟨h2, hc2⟩ := step_inv q q2 e h hs
      obtain ⟨h3, hc3⟩ := ih q2 h2 hr
      exact ⟨h3, hc3.trans hc2⟩
    | blocks => rw [hs] at hr; simp [Outcome.bind] at hr
    | panic p => rw [hs] at hr; simp [Outcome.bind] at hr

theorem NewQueue_eq (N : Nat) :
    (NewQueue N : Outcome (ConcurrentQueue T R)) = .ok
      { Concurrency := N
        ChannelsStack := List.range N
        curProcessing := 0
        JobQueue := []
        wg := 0
        isPaused := false
        senders := []
        workers := []
        purged := [] } := by
  simp [NewQueue, Restart, WaitUntilFinished, Pause, PauseQueue, Outcome.map, Resume, resumeLoop,
    queue.NewQueue, queue.Queue.Len]

end concurrent_queue

namespace concurrent_queue
variable {T R : Type}

theorem processNextJobAux_status (fuel : Nat) (q : ConcurrentQueue T R) (h : StatusInv q) :
    StatusInv (processNextJobAux fuel q) := by
  induction fuel generalizing q with
  | zero => simpa [processNextJobAux] using h
  | succ n ih =>
    unfold processNextJobAux
    cases hq : q.JobQueue.Dequeue with
    | none => simpa using h
    | some p =>
      obtain ⟨j, rest⟩ := p
      have hjq : q.JobQueue = j :: rest := by
        cases hl : q.JobQueue with
        | nil => rw [hl] at hq; simp [queue.Queue.Dequeue] at hq
        | cons a l =>
          rw [hl] at hq
          simp only [queue.Queue.Dequeue, Option.some.injEq, Prod.mk.injEq] at hq
          rw [hq.1, hq.2]
      obtain ⟨h1, h2, h3⟩ := h
      have hrest : ∀ x ∈ rest, x.Status = .Queued ∨ x.Status = .Closed := by
        intro x hx
        exact h1 x (by rw [hjq]; exact List.mem_cons_of_mem _ hx)
      by_cases hc : j.IsClosed = true
      · simp only [hc, if_true]
        exact ih _ ⟨hrest, h2, h3⟩
      · have hc1 : j.IsClosed = false := by simpa using hc
        simp only [hc1, Bool.false_eq_true, if_false]
        refine ⟨hrest, ?_, h3⟩
        intro x hx
        rcases List.mem_append.1 hx with hx | hx
        · exact h2 x hx
        · rw [List.mem_singleton] at hx
          rw [hx]
          rfl

theorem resumeLoop_status (fuel : Nat) (q : ConcurrentQueue T R) (h : StatusInv q) :
    StatusInv (resumeLoop fuel q) := by
  induction fuel generalizing q with
  | zero => simpa [resumeLoop] using h
  | succ n ih =>
    unfold resumeLoop
    split
    · exact ih _ (processNextJobAux_status _ q h)
    · exact h

theorem Job.Close_status (j j1 : Job T R) (b : Bool) (h : Job.Close j = .ok (b, j1))
    (hj : j.Status = .Queued ∨ j.Status = .Closed) : j1.Status = .Queued ∨ j1.Status = .Closed := by
  unfold Job.Close at h
  rcases hj with hj | hj
  · rw [hj] at h
    simp only at h
    cases hd : closeIfPresent j.ResultChannel.Data with
    | ok d =>
      rw [hd] at h
      simp only [Outcome.bind] at h
      cases he : closeIfPresent j.ResultChannel.Err with
      | ok e =>
        rw [he] at h
        simp only [Outcome.bind, Outcome.ok.injEq, Prod.mk.injEq] at h
        right
        rw [← h.2]
      | blocks => rw [he] at h; simp [Outcome.bind] at h
      | panic p => rw [he] at h; simp [Outcome.bind] at h
    | blocks => rw [hd] at h; simp [Outcome.bind] at h
    | panic p => rw [hd] at h; simp [Outcome.bind] at h
  · rw [hj] at h
    simp only [Outcome.ok.injEq, Prod.mk.injEq] at h
    right
    rw [← h.2]
    exact hj

theorem step_status (q q1 : ConcurrentQueue T R) (e : Step T R) (h : StatusInv q)
    (hs : step q e = .ok q1) : StatusInv q1 := by
  cases e with
  | AddJob j =>
    simp only [step, Outcome.ok.injEq] at hs
    subst hs
    unfold AddJob
    have h2 : StatusInv ({ q with
        wg := q.wg + 1
        JobQueue := queue.Queue.Enqueue q.JobQueue
          { Value := j.ChangeStatus .Queued, Priority := 0, Index := 0 } } : ConcurrentQueue T R) := by
      refine ⟨?_, h.2.1, h.2.2⟩
      intro x hx
      rcases List.mem_append.1 hx with hx | hx
      · exact h.1 x hx
      · rw [List.mem_singleton] at hx
        left
        rw [hx]
        rfl
    simp only
    split
    · exact processNextJobAux_status _ _ h2
    · exact h2
  | Pause =>
    simp only [step, Outcome.ok.injEq] at hs
    subst hs
    exact h
  | Resume =>
    simp only [step, Outcome.ok.injEq] at hs
    subst hs
    exact resumeLoop_status _ _ h
  | Purge =>
    simp only [step, Purge] at hs
    cases hp : purgeLoop q.JobQueue.Values with
    | ok js =>
      rw [hp] at hs
      simp only [Outcome.map, Outcome.ok.injEq] at hs
      subst hs
      refine ⟨?_, h.2.1, h.2.2⟩
      intro x hx
      simp [queue.Queue.Init] at hx
    | blocks => rw [hp] at hs; simp [Outcome.map] at hs
    | panic p => rw [hp] at hs; simp [Outcome.map] at hs
  | pick i =>
    simp only [step] at hs
    cases hj : q.senders.get? i with
    | none => rw [hj] at hs; simp at hs
    | some j =>
      rw [hj] at hs
      simp only [pickNextChannel] at hs
      cases hc : q.ChannelsStack.get? (q.ChannelsStack.length - 1) with
      | none => rw [hc] at hs; simp [Outcome.map] at hs
      | some c =>
        rw [hc] at hs
        by_cases hl : q.ChannelsStack.length = 0
        · simp [hl, Outcome.map] at hs
        · simp only [hl, if_false, Outcome.map, Outcome.ok.injEq] at hs
          subst hs
          refine ⟨h.1, ?_, ?_⟩
          · intro x hx
            exact h.2.1 x (List.mem_of_mem_eraseIdx hx)
          · intro w hw
            rcases List.mem_append.1 hw with hw | hw
            · exact h.2.2 w hw
            · rw [List.mem_singleton] at hw
              rw [hw]
              exact h.2.1 j (List.get?_mem hj)
  | complete i =>
    simp only [step] at hs
    cases hw : q.workers.get? i with
    | none => rw [hw] at hs; simp at hs
    | some w =>
      obtain ⟨c, j⟩ := w
      rw [hw] at hs
      simp only [Outcome.ok.injEq] at hs
      subst hs
      have h2 : StatusInv ({ q with
          workers := q.workers.eraseIdx i
          ChannelsStack := q.ChannelsStack ++ [c]
          curProcessing := (q.curProcessing + (uint32Size - 1)) % uint32Size
          wg := q.wg - 1 } : ConcurrentQueue T R) := by
        refine ⟨h.1, h.2.1, ?_⟩
        intro x hx
        exact h.2.2 x (List.mem_of_mem_eraseIdx hx)
      unfold workerDone
      simp only
      split
      · exact processNextJobAux_status _ _ h2
      · exact h2
  | closeJob i =>
    simp only [step] at hs
    cases hj : q.JobQueue.get? i with
    | none => rw [hj] at hs; simp at hs
    | some j =>
      rw [hj] at hs
      simp only at hs
      cases hc : Job.Close j with
      | ok r =>
        obtain ⟨b, j1⟩ := r
        rw [hc] at hs
        simp only [Outcome.map, Outcome.ok.injEq] at hs
        subst hs
        refine ⟨?_, h.2.1, h.2.2⟩
        intro x hx
        rcases List.mem_or_eq_of_mem_set hx with hx | hx
        · exact h.1 x hx
        · rw [hx]
          exact Job.Close_status j j1 b hc (h.1 j (List.get?_mem hj))
      | blocks => rw [hc] at hs; simp [Outcome.map] at hs
      | panic p => rw [hc] at hs; simp [Outcome.map] at hs

theorem run_status (steps : List (Step T R)) (q q1 : ConcurrentQueue T R) (h : StatusInv q)
    (hr : run q steps = .ok q1) : StatusInv q1 := by
  induction steps generalizing q with
  | nil =>
    simp only [run, Outcome.ok.injEq] at hr
    subst hr
    exact h
  | cons e rest ih =>
    simp only [run] at hr
    cases hs : step q e with
    | ok q2 =>
      rw [hs] at hr
      simp only [Outcome.bind] at hr
      exact ih q2 (step_status q q2 e h hs) hr
    | blocks => rw [hs] at hr; simp [Outcome.bind] at hr
    | panic p => rw [hs] at hr; simp [Outcome.bind] at hr

theorem NewQueue_inv (N : Nat) (hN : N < uint32Size) (q0 : ConcurrentQueue T R)
    (h0 : NewQueue N = .ok q0) : Inv q0 ∧ StatusInv q0 ∧ q0.Concurrency = N := by
  rw [NewQueue_eq] at h0
  simp only [Outcome.ok.injEq] at h0
  subst h0
  refine ⟨⟨rfl, Nat.zero_le _, hN⟩, ⟨?_, ?_, ?_⟩, rfl⟩ <;> intro x hx <;> simp at hx

theorem reachable_inv (N : Nat) (hN : N < uint32Size) (steps : List (Step T R))
    (q0 q : ConcurrentQueue T R) (h0 : NewQueue N = .ok q0) (hr : run q0 steps = .ok q) :
    Inv q ∧ StatusInv q ∧ q.Concurrency = N := by
  obtain ⟨hi, hst, hc⟩ := NewQueue_inv N hN q0 h0
  obtain ⟨hi1, hc1⟩ := run_inv steps q0 q hi hr
  exact ⟨hi1, run_status steps q0 q hst hr, hc1.trans hc⟩

/-- C1 (bounded concurrency): from the queue `NewQueue N` builds, every state
reached by a sequence of the steps AddJob, Pause, Resume, Purge, the hand-over
of a dispatched job to a worker, the completion step of `spawnWorker` and the
closing of a queued job keeps `Concurrency = N` and `curProcessing ≤ N`. -/
theorem C1_bounded_concurrency (N : Nat) (hN : N < uint32Size) (steps : List (Step T R))
    (q0 q : ConcurrentQueue T R) (h0 : NewQueue N = .ok q0) (hr : run q0 steps = .ok q) :
    q.Concurrency = N ∧ q.curProcessing ≤ N := by
  obtain ⟨⟨_, h2, _⟩, _, hc⟩ := reachable_inv N hN steps q0 q h0 hr
  exact ⟨hc, hc ▸ h2⟩

end concurrent_queue

namespace concurrent_queue
variable {T R : Type}

theorem Dequeue_eq_some (l rest : List (Job T R)) (j : Job T R)
    (h : queue.Queue.Dequeue l = some (j, rest)) : l = j :: rest := by
  cases l with
  | nil => simp [queue.Queue.Dequeue] at h
  | cons a t =>
    simp only [queue.Queue.Dequeue, Option.some.injEq, Prod.mk.injEq] at h
    rw [h.1, h.2]

/-- The bound on the recursion of `processNextJob` is never reached: a larger
one gives the same result. -/
theorem processNextJobAux_fuel (n : Nat) (q : ConcurrentQueue T R) (h : q.JobQueue.length < n) :
    processNextJobAux (n + 1) q = processNextJobAux n q := by
  induction n generalizing q with
  | zero => omega
  | succ m ih =>
    rw [processNextJobAux, processNextJobAux]
    cases hq : q.JobQueue.Dequeue with
    | none => rfl
    | some p =>
      obtain ⟨j, rest⟩ := p
      have hl := Dequeue_eq_some _ _ _ hq
      by_cases hc : j.IsClosed = true
      · simp only [hc, if_true]
        apply ih
        show rest.length < m
        rw [hl, List.length_cons] at h
        omega
      · have hc1 : j.IsClosed = false := by simpa using hc
        simp only [hc1, Bool.false_eq_true, if_false]

theorem processNextJobAux_enough (n : Nat) (q : ConcurrentQueue T R) (h : q.JobQueue.length < n) :
    processNextJobAux n q = processNextJob q := by
  unfold processNextJob queue.Queue.Len
  induction n with
  | zero => omega
  | succ m ih =>
    by_cases hm : q.JobQueue.length < m
    · rw [processNextJobAux_fuel m q hm]
      exact ih hm
    · have : m = q.JobQueue.length := by omega
      rw [this]

theorem processNextJob_skips_closed (cl : List (Job T R)) (hcl : ∀ j ∈ cl, j.IsClosed = true) :
    ∀ (q : ConcurrentQueue T R),
      (∀ j rest, q.JobQueue = cl ++ j :: rest → j.IsClosed = false →
        processNextJob q = { q with
          JobQueue := rest
          wg := q.wg - (cl.length : Int)
          curProcessing := (q.curProcessing + 1) % uint32Size
          senders := q.senders ++ [j.ChangeStatus .Processing] }) ∧
      (q.JobQueue = cl →
        processNextJob q = { q with JobQueue := [], wg := q.wg - (cl.length : Int) }) := by
  induction cl with
  | nil =>
    intro q
    constructor
    · intro j rest hq hj
      simp only [List.nil_append] at hq
      simp [processNextJob, queue.Queue.Len, hq, processNextJobAux, queue.Queue.Dequeue, hj]
    · intro hq
      simp [processNextJob, queue.Queue.Len, hq, processNextJobAux, queue.Queue.Dequeue]
      cases q
      simp_all
  | cons c cl ih =>
    intro q
    have hc : c.IsClosed = true := hcl c (List.mem_cons_self _ _)
    have hcl1 : ∀ j ∈ cl, j.IsClosed = true := fun j hj => hcl j (List.mem_cons_of_mem _ hj)
    have key : ∀ tl, q.JobQueue = c :: tl →
        processNextJob q = processNextJob { q with JobQueue := tl, wg := q.wg - 1 } := by
      intro tl hq
      show processNextJobAux (q.JobQueue.length + 1) q = processNextJobAux (tl.length + 1) _
      rw [hq, List.length_cons, processNextJobAux]
      simp only [hq, queue.Queue.Dequeue, hc, if_true]
    constructor
    · intro j rest hq hj
      rw [key (cl ++ j :: rest) (by simpa using hq)]
      rw [((ih hcl1) _).1 j rest rfl hj]
      simp only [List.length_cons, Nat.cast_add, Nat.cast_one]
      congr 1
      omega
    · intro hq
      rw [key cl hq]
      rw [((ih hcl1) _).2 rfl]
      simp only [List.length_cons, Nat.cast_add, Nat.cast_one]
      congr 1
      omega

end concurrent_queue

namespace concurrent_queue
variable {T R : Type}

theorem processNextJobAux_senders (n : Nat) (q : ConcurrentQueue T R) :
    ∀ x ∈ (processNextJobAux n q).senders,
      x ∈ q.senders ∨ ∃ j ∈ q.JobQueue, j.IsClosed = false ∧ x = j.ChangeStatus .Processing := by
  induction n generalizing q with
  | zero =>
    intro x hx
    left
    simpa [processNextJobAux] using hx
  | succ m ih =>
    intro x hx
    rw [processNextJobAux] at hx
    cases hq : q.JobQueue.Dequeue with
    | none =>
      rw [hq] at hx
      exact Or.inl hx
    | some p =>
      obtain ⟨j, rest⟩ := p
      have hl := Dequeue_eq_some _ _ _ hq
      rw [hq] at hx
      by_cases hc : j.IsClosed = true
      · simp only [hc, if_true] at hx
        rcases ih _ x hx with h | ⟨y, hy, hy1, hy2⟩
        · exact Or.inl h
        · exact Or.inr ⟨y, by rw [hl]; exact List.mem_cons_of_mem _ hy, hy1, hy2⟩
      · have hc1 : j.IsClosed = false := by simpa using hc
        simp only [hc1, Bool.false_eq_true, if_false] at hx
        rcases List.mem_append.1 hx with h | h
        · exact Or.inl h
        · rw [List.mem_singleton] at h
          exact Or.inr ⟨j, by rw [hl]; exact List.mem_cons_self _ _, hc1, h⟩

/-- C10 (closed jobs are discarded at dispatch): for a queue whose first jobs
`cl` are closed, the recursion of `processNextJob` ends within the bound of
one call per queued job plus one; if an open job `j` follows `cl`, the call
dequeues `cl` and `j`, releases one wait-group tick per job of `cl`, hands
`j` over in status Processing and adds one to the `uint32` counter
`curProcessing`; if the whole queue is `cl`, it empties the queue, releases
one tick per job and changes nothing else.  Every job it hands over is an
open job of the queue. -/
theorem C10_closed_jobs_discarded (q : ConcurrentQueue T R) (cl : List (Job T R))
    (hcl : ∀ j ∈ cl, j.IsClosed = true) :
    (∀ n, q.JobQueue.Len < n → processNextJobAux n q = processNextJob q) ∧
    (∀ j rest, q.JobQueue = cl ++ j :: rest → j.IsClosed = false →
      processNextJob q = { q with
          JobQueue := rest
          wg := q.wg - (cl.length : Int)
          curProcessing := (q.curProcessing + 1) % uint32Size
          senders := q.senders ++ [j.ChangeStatus .Processing] } ∧
      (j.ChangeStatus .Processing).Status = .Processing ∧
      (q.curProcessing + 1 < uint32Size →
        (processNextJob q).curProcessing = q.curProcessing + 1)) ∧
    (q.JobQueue = cl →
      processNextJob q = { q with JobQueue := [], wg := q.wg - (cl.length : Int) }) ∧
    (∀ x ∈ (processNextJob q).senders,
      x ∈ q.senders ∨ ∃ j ∈ q.JobQueue, j.IsClosed = false ∧ x = j.ChangeStatus .Processing) := by
  refine ⟨fun n hn => processNextJobAux_enough n q hn, ?_, ?_, processNextJobAux_senders _ q⟩
  · intro j rest hq hj
    have h := (processNextJob_skips_closed cl hcl q).1 j rest hq hj
    refine ⟨h, rfl, ?_⟩
    intro hlt
    rw [h]
    exact Nat.mod_eq_of_lt hlt
  · exact (processNextJob_skips_closed cl hcl q).2

theorem shouldProcessNextJob_paused (q : ConcurrentQueue T R) (hp : q.isPaused = true) :
    shouldProcessNextJob q "add" = false ∧ shouldProcessNextJob q "worker" = false := by
  simp [shouldProcessNextJob, hp]

/-- C3 (pause blocks dispatch): in every reachable state with `isPaused` set,
`AddJob` only counts the job in the wait group and appends it, marked Queued,
to the queue; `Pause` changes nothing; a worker completion returns the
worker channel, lowers `curProcessing` by one and releases one wait-group
tick, leaving the queue and the dispatched jobs as they are; and the
hand-over of an already dispatched job leaves `curProcessing` and the queue
as they are. -/
theorem C3_pause_blocks_dispatch (N : Nat) (hN : N < uint32Size) (steps : List (Step T R))
    (q0 q : ConcurrentQueue T R) (h0 : NewQueue N = .ok q0) (hr : run q0 steps = .ok q)
    (hp : q.isPaused = true) :
    (∀ j, step q (.AddJob j) = .ok { q with
        wg := q.wg + 1
        JobQueue := q.JobQueue ++ [j.ChangeStatus .Queued] }) ∧
    step q .Pause = .ok q ∧
    (∀ i channel j, q.workers.get? i = some (channel, j) →
      1 ≤ q.curProcessing ∧
      step q (.complete i) = .ok { q with
        workers := q.workers.eraseIdx i
        ChannelsStack := q.ChannelsStack ++ [channel]
        curProcessing := q.curProcessing - 1
        wg := q.wg - 1 }) ∧
    (∀ i, q.workers.get? i = none → step q (.complete i) = .blocks) ∧
    (∀ i q1, step q (.pick i) = .ok q1 →
      q1.curProcessing = q.curProcessing ∧ q1.JobQueue = q.JobQueue ∧ q1.isPaused = true ∧
      ∃ j channel, q.senders.get? i = some j ∧ j.Status = .Processing ∧
        q1.senders = q.senders.eraseIdx i ∧ q1.workers = q.workers ++ [(channel, j)]) := by
  obtain ⟨⟨h1, h2, h3⟩, hst, _⟩ := reachable_inv N hN steps q0 q h0 hr
  refine ⟨?_, ?_, ?_, ?_, ?_⟩
  · intro j
    simp only [step, AddJob, Outcome.ok.injEq]
    rw [(shouldProcessNextJob_paused _ (by exact hp)).1]
    simp [queue.Queue.Enqueue]
  · simp only [step, Pause, PauseQueue, Outcome.ok.injEq]
    cases q
    simp_all
  · intro i c j hw
    have hi : i < q.workers.length := by
      rw [List.get?_eq_some] at hw
      exact hw.1
    have hpos : 1 ≤ q.curProcessing := by omega
    refine ⟨hpos, ?_⟩
    have hmod : (q.curProcessing + (uint32Size - 1)) % uint32Size = q.curProcessing - 1 := by
      have : q.curProcessing + (uint32Size - 1) = (q.curProcessing - 1) + uint32Size := by
        simp only [uint32Size]; omega
      rw [this, Nat.add_mod_right]
      exact Nat.mod_eq_of_lt (by omega)
    simp only [step, hw, workerDone, Outcome.ok.injEq]
    rw [(shouldProcessNextJob_paused _ (by exact hp)).2]
    simp only [Bool.false_eq_true, if_false]
    rw [hmod]
  · intro i hw
    simp only [step, hw]
  · intro i q1 hs
    simp only [step] at hs
    cases hj : q.senders.get? i with
    | none => rw [hj] at hs; simp at hs
    | some j =>
      rw [hj] at hs
      simp only [pickNextChannel] at hs
      cases hc : q.ChannelsStack.get? (q.ChannelsStack.length - 1) with
      | none => rw [hc] at hs; simp [Outcome.map] at hs
      | some c =>
        rw [hc] at hs
        by_cases hl : q.ChannelsStack.length = 0
        · simp [hl, Outcome.map] at hs
        · simp only [hl, if_false, Outcome.map, Outcome.ok.injEq] at hs
          subst hs
          exact ⟨rfl, rfl, hp, j, c, rfl, hst.2.1 j (List.get?_mem hj), rfl, rfl⟩

theorem purgeLoop_open (l : List (Job T R))
    (hopen : ∀ j ∈ l, ∀ c, j.ResultChannel.Data = some c → c.closed = false) :
    purgeLoop l = .ok (l.map Job.withDataClosed) := by
  induction l with
  | nil => rfl
  | cons j rest ih =>
    have hj := hopen j (List.mem_cons_self _ _)
    have hrest := ih (fun x hx => hopen x (List.mem_cons_of_mem _ hx))
    rw [purgeLoop, hrest]
    cases hd : j.ResultChannel.Data with
    | none =>
      cases j with
      | mk d rc st =>
        cases rc with
        | mk dd ee =>
          simp only at hd
          subst hd
          simp [purgeJob, Outcome.bind, Outcome.map, Job.withDataClosed]
    | some c =>
      have hcl := hj c hd
      simp [purgeJob, hd, chanClose, hcl, Outcome.bind, Outcome.map, Job.withDataClosed]

/-- C4, as amended (Purge postcondition): in every reachable state in which no
waiting job has a `Data` channel that is already closed, `Purge` returns;
afterwards the pending count is 0, the wait-group counter is lower by the
number `k` of jobs that were waiting, the removed jobs are those `k` jobs
with the `Data` channel of each closed when it has one and nothing else
changed (a nil `Data` channel and every `Err` channel are left as they were),
and `curProcessing`, the idle-slot stack and the jobs handed to goroutines,
which are the jobs in status Processing, are unchanged. -/
theorem C4_purge_postcondition (N : Nat) (hN : N < uint32Size) (steps : List (Step T R))
    (q0 q : ConcurrentQueue T R) (h0 : NewQueue N = .ok q0) (hr : run q0 steps = .ok q)
    (hopen : ∀ j ∈ q.JobQueue, ∀ c, j.ResultChannel.Data = some c → c.closed = false) :
    ∃ q1, Purge q = .ok q1 ∧
      PendingCount q1 = 0 ∧
      q1.wg = q.wg - (PendingCount q : Int) ∧
      q1.purged = q.purged ++ q.JobQueue.map Job.withDataClosed ∧
      (∀ j ∈ q.JobQueue, ∀ c, j.ResultChannel.Data = some c →
        (Job.withDataClosed j).ResultChannel.Data = some { c with closed := true }) ∧
      (∀ j ∈ q.JobQueue, j.ResultChannel.Data = none →
        Job.withDataClosed j = j) ∧
      (∀ j ∈ q.JobQueue, (Job.withDataClosed j).ResultChannel.Err = j.ResultChannel.Err ∧
        (Job.withDataClosed j).Status = j.Status ∧ (Job.withDataClosed j).Data = j.Data) ∧
      q1.curProcessing = q.curProcessing ∧
      q1.ChannelsStack = q.ChannelsStack ∧
      q1.senders = q.senders ∧
      q1.workers = q.workers ∧
      (∀ j ∈ q.JobQueue, j.Status ≠ .Processing) ∧
      (∀ j ∈ q.senders, j.Status = .Processing) ∧
      (∀ w ∈ q.workers, w.2.Status = .Processing) := by
  obtain ⟨_, hst, _⟩ := reachable_inv N hN steps q0 q h0 hr
  refine ⟨{ q with
      JobQueue := []
      wg := q.wg + (-(q.JobQueue.length : Int))
      purged := q.purged ++ q.JobQueue.map Job.withDataClosed },
    ?_, rfl, ?_, rfl, ?_, ?_, ?_, rfl, rfl, rfl, rfl, ?_, hst.2.1, hst.2.2⟩
  · simp only [Purge, queue.Queue.Values]
    rw [purgeLoop_open q.JobQueue hopen]
    rfl
  · show q.wg + -(q.JobQueue.length : Int) = q.wg - (q.JobQueue.length : Int)
    omega
  · intro j _ c hc
    simp [Job.withDataClosed, hc]
  · intro j _ hn
    cases j with
    | mk d rc s =>
      cases rc with
      | mk dd ee =>
        simp only at hn
        subst hn
        rfl
  · intro j _
    exact ⟨rfl, rfl, rfl⟩
  · intro j hj
    rcases hst.1 j hj with h | h <;> rw [h] <;> simp

end concurrent_queue

namespace concurrent_queue
variable {T R : Type}

theorem processNextJobAux_length_le (n : Nat) (q : ConcurrentQueue T R) :
    (processNextJobAux n q).JobQueue.length ≤ q.JobQueue.length := by
  induction n generalizing q with
  | zero => simp [processNextJobAux]
  | succ m ih =>
    rw [processNextJobAux]
    cases hq : q.JobQueue.Dequeue with
    | none => simp
    | some p =>
      obtain ⟨j, rest⟩ := p
      have hl := Dequeue_eq_some _ _ _ hq
      by_cases hc : j.IsClosed = true
      · simp only [hc, if_true]
        have := ih { q with JobQueue := rest, wg := q.wg - 1 }
        rw [hl, List.length_cons]
        exact Nat.le_succ_of_le this
      · have hc1 : j.IsClosed = false := by simpa using hc
        simp only [hc1, Bool.false_eq_true, if_false]
        rw [hl, List.length_cons]
        exact Nat.le_succ _

theorem processNextJob_length_lt (q : ConcurrentQueue T R) (h : 0 < q.JobQueue.length) :
    (processNextJob q).JobQueue.length < q.JobQueue.length := by
  unfold processNextJob
  rw [processNextJobAux]
  cases hq : q.JobQueue.Dequeue with
  | none =>
    cases hl : q.JobQueue with
    | nil => rw [hl] at h; simp at h
    | cons a t => rw [hl] at hq; simp [queue.Queue.Dequeue] at hq
  | some p =>
    obtain ⟨j, rest⟩ := p
    have hl := Dequeue_eq_some _ _ _ hq
    by_cases hc : j.IsClosed = true
    · simp only [hc, if_true]
      generalize q.JobQueue.Len = n
      have := processNextJobAux_length_le n { q with JobQueue := rest, wg := q.wg - 1 }
      rw [hl, List.length_cons]
      exact Nat.lt_succ_of_le this
    · have hc1 : j.IsClosed = false := by simpa using hc
      simp only [hc1, Bool.false_eq_true, if_false]
      rw [hl, List.length_cons]
      exact Nat.lt_succ_self _

/-- The bound on the loop of `Resume` is never reached with work left: when the
loop ends its condition is false. -/
theorem resumeLoop_done (n : Nat) (q : ConcurrentQueue T R) (h : q.JobQueue.length ≤ n) :
    shouldProcessNextJob (resumeLoop n q) "resume" = false := by
  induction n generalizing q with
  | zero =>
    have h0 : q.JobQueue.length = 0 := Nat.le_zero.1 h
    simp [resumeLoop, shouldProcessNextJob, queue.Queue.Len, h0]
  | succ m ih =>
    rw [resumeLoop]
    by_cases hs : shouldProcessNextJob q "resume" = true
    · simp only [hs, if_true]
      apply ih
      have hpos : 0 < q.JobQueue.length := by
        simp [shouldProcessNextJob, queue.Queue.Len] at hs
        exact hs.2
      have := processNextJob_length_lt q hpos
      omega
    · simp only [hs, if_false, Bool.false_eq_true]

theorem Resume_done (q : ConcurrentQueue T R) :
    shouldProcessNextJob (Resume q) "resume" = false ∧ (Resume q).isPaused = false := by
  refine ⟨resumeLoop_done _ _ (Nat.le_refl _), ?_⟩
  unfold Resume
  simp only
  generalize q.JobQueue.Len = n
  have : ∀ (m : Nat) (p : ConcurrentQueue T R), (resumeLoop m p).isPaused = p.isPaused := by
    intro m
    induction m with
    | zero => intro p; rfl
    | succ k ih =>
      intro p
      rw [resumeLoop]
      split
      · rw [ih]
        exact (processNextJobAux_frame _ p).2.1
      · rfl
  rw [this]

end concurrent_queue

namespace concurrent_queue

/-- Witness of C1: one slot, three submissions, a closed waiting job, a
hand-over, a pause, a completion and a resume. -/
theorem C1_bounded_concurrency_witness :
    (1 < uint32Size) ∧
    (NewQueue 1 : Outcome (ConcurrentQueue Nat Nat)) = .ok exampleStart ∧
    run exampleStart (exampleSubmit ++ [.closeJob 0, .pick 0, .Pause, .complete 0, .Resume])
      = .ok exampleResumed ∧
    exampleResumed.Concurrency = 1 ∧ exampleResumed.curProcessing ≤ 1 :=
  ⟨by decide, by decide, by decide,
    C1_bounded_concurrency 1 (by decide)
      (exampleSubmit ++ [.closeJob 0, .pick 0, .Pause, .complete 0, .Resume])
      exampleStart exampleResumed (by decide) (by decide)⟩

/-- Witness of C3: in `examplePaused` a submission only appends the job. -/
theorem C3_pause_blocks_dispatch_witness :
    examplePaused.isPaused = true ∧
    step examplePaused (.AddJob (exampleJob 4)) = .ok { examplePaused with
      wg := 4
      JobQueue := [exampleClosedJob, (exampleJob 3).ChangeStatus .Queued,
        (exampleJob 4).ChangeStatus .Queued] } :=
  ⟨rfl, (C3_pause_blocks_dispatch 1 (by decide) (exampleSubmit ++ [.closeJob 0, .pick 0, .Pause])
    exampleStart examplePaused (by decide) (by decide) rfl).1 (exampleJob 4)⟩

/-- Witness of C4 as amended: `Purge` in `exampleLoaded`, where two open jobs
wait. -/
theorem C4_purge_postcondition_witness :
    (∀ j ∈ exampleLoaded.JobQueue, ∀ c, j.ResultChannel.Data = some c → c.closed = false) ∧
    ∃ q1, Purge exampleLoaded = .ok q1 ∧ PendingCount q1 = 0 ∧ q1.wg = 1 :=
  ⟨by decide,
    (C4_purge_postcondition 1 (by decide) exampleSubmit exampleStart exampleLoaded
      (by decide) (by decide) (by decide)).imp fun _ h => ⟨h.1, h.2.1, by rw [h.2.2.1]; decide⟩⟩

/-- Counterexample to C4 as stated: a job without `Data` channel waits in a
reachable state; `Purge` removes it and closes none of its channels. -/
theorem C4_purge_counterexample :
    (NewQueue 1 : Outcome (ConcurrentQueue Nat Nat)) = .ok exampleStart ∧
    run exampleStart [.Pause, .AddJob (exampleVoidJob 1)] = .ok exampleVoidWaiting ∧
    PendingCount exampleVoidWaiting = 1 ∧
    Purge exampleVoidWaiting = .ok { exampleVoidWaiting with
      JobQueue := []
      wg := 0
      purged := [(exampleVoidJob 1).ChangeStatus .Queued] } ∧
    ((exampleVoidJob 1).ChangeStatus .Queued).ResultChannel.Data = none ∧
    ((exampleVoidJob 1).ChangeStatus .Queued).ResultChannel.Err
      = some { buf := [], cap := 1, closed := false } := by
  decide

/-- Witness of C10: in `exampleIdle` the closed job 2 is discarded and job 3
dispatched, which gives `exampleResumed`. -/
theorem C10_closed_jobs_discarded_witness :
    (∀ j ∈ [exampleClosedJob], j.IsClosed = true) ∧
    processNextJob exampleIdle = exampleResumed :=
  ⟨by decide,
    ((C10_closed_jobs_discarded exampleIdle [exampleClosedJob] (by decide)).2.1
      ((exampleJob 3).ChangeStatus .Queued) [] rfl rfl).1⟩

end concurrent_queue

namespace queue
variable {T : Type}

theorem wrapInt_eq (n : Int) (h0 : 0 ≤ n) (h1 : n < 9223372036854775808) : wrapInt n = n := by
  unfold wrapInt
  omega

theorem Less_iff (a b : EnqItem T) : Less a b = true ↔ Before a b := by
  simp [Less, Before]

theorem Less_false_iff (a b : EnqItem T) : Less a b = false ↔ ¬ Before a b := by
  rw [← Less_iff]
  cases Less a b <;> simp

/-- An item that is not `Less` than a second one that is not `Less` than a
third is not `Less` than the third. -/
theorem notLess_trans (a b c : EnqItem T) (h1 : Less b a = false) (h2 : Less c b = false) :
    Less c a = false := by
  rw [Less_false_iff] at *
  unfold Before at *
  omega

theorem notLess_of_Less (a b : EnqItem T) (h : Less a b = true) : Less b a = false := by
  rw [Less_false_iff]
  rw [Less_iff] at h
  unfold Before at *
  omega

theorem Swap_Len (h : heapQueue T) (i j : Nat) : (h.Swap i j).Len = h.Len := by
  unfold heapQueue.Swap heapQueue.Len
  cases h.items[i]? with
  | none => rfl
  | some a =>
    cases h.items[j]? with
    | none => rfl
    | some b => simp

theorem set_set_perm (l : List (EnqItem T)) (i j : Nat) (a b : EnqItem T)
    (hi : l[i]? = some a) (hj : l[j]? = some b) : ((l.set i b).set j a).Perm l := by
  classical
  obtain ⟨hil, hia⟩ := List.getElem?_eq_some.1 hi
  obtain ⟨hjl, hjb⟩ := List.getElem?_eq_some.1 hj
  have hjl1 : j < (l.set i b).length := by rw [List.length_set]; exact hjl
  have hjb1 : (l.set i b)[j] = b := by
    have : (l.set i b)[j]? = some b := by
      rw [List.getElem?_set]
      by_cases hij : i = j
      · simp [hij, hjl]
      · simp [hij, hj]
    exact (List.getElem?_eq_some.1 this).2
  rw [List.perm_iff_count]
  intro c
  rw [List.count_set a c (l.set i b) j hjl1, List.count_set b c l i hil, hjb1, hia]
  have hpos : a = c → 0 < List.count c l := by
    intro h
    rw [List.count_pos_iff]
    rw [← h, ← hia]
    exact List.getElem_mem hil
  by_cases hac : a = c
  · have := hpos hac
    by_cases hbc : b = c
    · simp [hac, hbc]
      omega
    · simp [hac, hbc]
      omega
  · by_cases hbc : b = c
    · simp [hac, hbc]
    · simp [hac, hbc]

theorem Swap_perm (h : heapQueue T) (i j : Nat) : (h.Swap i j).items.Perm h.items := by
  unfold heapQueue.Swap
  cases hi : h.items[i]? with
  | none => exact List.Perm.refl _
  | some a =>
    cases hj : h.items[j]? with
    | none => exact List.Perm.refl _
    | some b => exact set_set_perm h.items i j a b hi hj

/-- The items after `Swap(i, j)` with both indices in range. -/
theorem Swap_get (h : heapQueue T) (i j k : Nat) (hi : i < h.Len) (hj : j < h.Len) :
    (h.Swap i j).items[k]? =
      if k = j then h.items[i]? else if k = i then h.items[j]? else h.items[k]? := by
  unfold heapQueue.Len at hi hj
  unfold heapQueue.Swap
  rw [List.getElem?_eq_getElem hi, List.getElem?_eq_getElem hj]
  simp only
  rw [List.getElem?_set, List.getElem?_set, List.length_set]
  by_cases hkj : k = j
  · subst hkj
    simp [hj]
  · by_cases hki : k = i
    · subst hki
      simp [hi, Ne.symm hkj, hkj]
    · simp [hkj, hki, Ne.symm hkj, Ne.symm hki]

theorem swapped_eq (i j k r : Nat)
    (h : (k = j ∧ r = i) ∨ (k ≠ j ∧ k = i ∧ r = j) ∨ (k ≠ j ∧ k ≠ i ∧ r = k)) :
    swapped i j k = r := by
  unfold swapped
  rcases h with ⟨h1, h2⟩ | ⟨h1, h2, h3⟩ | ⟨h1, h2, h3⟩
  · rw [if_pos h1, h2]
  · rw [if_neg h1, if_pos h2, h3]
  · rw [if_neg h1, if_neg h2, h3]

theorem Swap_Less (h : heapQueue T) (i j x y : Nat) (hi : i < h.Len) (hj : j < h.Len) :
    (h.Swap i j).Less x y = h.Less (swapped i j x) (swapped i j y) := by
  have hx : (h.Swap i j).items[x]? = h.items[swapped i j x]? := by
    rw [Swap_get h i j x hi hj]
    unfold swapped
    split_ifs <;> rfl
  have hy : (h.Swap i j).items[y]? = h.items[swapped i j y]? := by
    rw [Swap_get h i j y hi hj]
    unfold swapped
    split_ifs <;> rfl
  unfold heapQueue.Less
  rw [hx, hy]

theorem idx_trans (h : heapQueue T) (a b c : Nat) (hb : b < h.Len)
    (h1 : h.Less b a = false) (h2 : h.Less c b = false) : h.Less c a = false := by
  unfold heapQueue.Len at hb
  unfold heapQueue.Less at *
  rw [List.getElem?_eq_getElem hb] at h1 h2
  cases ha : h.items[a]? with
  | none => cases h.items[c]? <;> rfl
  | some va =>
    cases hc : h.items[c]? with
    | none => rfl
    | some vc =>
      rw [ha] at h1
      rw [hc] at h2
      exact notLess_trans va _ vc h1 h2

theorem idx_asymm (h : heapQueue T) (a b : Nat) (h1 : h.Less a b = true) : h.Less b a = false := by
  unfold heapQueue.Less at *
  cases ha : h.items[a]? with
  | none => rw [ha] at h1; cases h1
  | some va =>
    cases hb : h.items[b]? with
    | none => rfl
    | some vb =>
      rw [ha, hb] at h1
      exact notLess_of_Less va vb h1

theorem idx_irrefl (h : heapQueue T) (a : Nat) : h.Less a a = false := by
  unfold heapQueue.Less
  cases h.items[a]? with
  | none => rfl
  | some va => simp [Less]

/-- The loop of `up` restores heap order. -/
theorem upLoop_heap (fuel : Nat) (h : heapQueue T) (j : Nat) (hf : j ≤ fuel) (hj : j < h.Len)
    (inv : h.UpInv j) :
    (heap.upLoop fuel h j).IsHeap h.Len ∧ (heap.upLoop fuel h j).Len = h.Len ∧
    (heap.upLoop fuel h j).items.Perm h.items := by
  induction fuel generalizing h j with
  | zero =>
    refine ⟨?_, rfl, List.Perm.refl _⟩
    intro k hk hkn
    exact inv.1 k hk hkn (by omega)
  | succ fuel ih =>
    unfold heap.upLoop
    simp only
    by_cases hc : (j - 1) / 2 = j ∨ h.Less j ((j - 1) / 2) = false
    · rw [if_pos hc]
      refine ⟨?_, rfl, List.Perm.refl _⟩
      intro k hk hkn
      by_cases hkj : k = j
      · subst hkj
        rcases hc with hc | hc
        · omega
        · exact hc
      · exact inv.1 k hk hkn hkj
    · rw [if_neg hc]
      push_neg at hc
      obtain ⟨hij, hless⟩ := hc
      have hless : h.Less j ((j - 1) / 2) = true := by
        cases hl : h.Less j ((j - 1) / 2) with
        | true => rfl
        | false => exact absurd hl hless
      have hi : (j - 1) / 2 < h.Len := by omega
      have hj0 : 0 < j := by omega
      have hlen := Swap_Len h ((j - 1) / 2) j
      have hinv : (h.Swap ((j - 1) / 2) j).UpInv ((j - 1) / 2) := by
        refine ⟨?_, ?_⟩
        · intro k hk hkn hki
          rw [hlen] at hkn
          rw [Swap_Less h _ _ _ _ hi hj]
          by_cases hkj : k = j
          · subst hkj
            have e1 : swapped ((k - 1) / 2) k k = (k - 1) / 2 :=
              swapped_eq _ _ _ _ (by omega)
            have e2 : swapped ((k - 1) / 2) k ((k - 1) / 2) = k :=
              swapped_eq _ _ _ _ (by omega)
            rw [e1, e2]
            exact idx_asymm h _ _ hless
          · have e1 : swapped ((j - 1) / 2) j k = k :=
              swapped_eq _ _ _ _ (by omega)
            rw [e1]
            by_cases hp1 : (k - 1) / 2 = (j - 1) / 2
            · have e2 : swapped ((j - 1) / 2) j ((k - 1) / 2) = j :=
              swapped_eq _ _ _ _ (by omega)
              rw [e2]
              have h1 := inv.1 k hk hkn hkj
              rw [hp1] at h1
              exact idx_trans h j ((j - 1) / 2) k hi (idx_asymm h _ _ hless) h1
            · by_cases hp2 : (k - 1) / 2 = j
              · have e2 : swapped ((j - 1) / 2) j ((k - 1) / 2) = (j - 1) / 2 :=
              swapped_eq _ _ _ _ (by omega)
                rw [e2]
                exact inv.2 k hk hkn hp2 hj0
              · have e2 : swapped ((j - 1) / 2) j ((k - 1) / 2) = (k - 1) / 2 :=
              swapped_eq _ _ _ _ (by omega)
                rw [e2]
                exact inv.1 k hk hkn hkj
        · intro k hk hkn hpk hi0
          rw [hlen] at hkn
          rw [Swap_Less h _ _ _ _ hi hj]
          have e2 : swapped ((j - 1) / 2) j (((j - 1) / 2 - 1) / 2) = ((j - 1) / 2 - 1) / 2 :=
              swapped_eq _ _ _ _ (by omega)
          rw [e2]
          have hpi := inv.1 ((j - 1) / 2) hi0 hi (by omega)
          by_cases hkj : k = j
          · subst hkj
            have e1 : swapped ((k - 1) / 2) k k = (k - 1) / 2 :=
              swapped_eq _ _ _ _ (by omega)
            rw [e1]
            exact hpi
          · have e1 : swapped ((j - 1) / 2) j k = k :=
              swapped_eq _ _ _ _ (by omega)
            rw [e1]
            have h1 := inv.1 k hk hkn hkj
            rw [hpk] at h1
            exact idx_trans h _ ((j - 1) / 2) k hi hpi h1
      obtain ⟨r1, r2, r3⟩ := ih (h.Swap ((j - 1) / 2) j) ((j - 1) / 2) (by omega)
        (by rw [hlen]; exact hi) hinv
      rw [hlen] at r1 r2
      exact ⟨r1, r2, r3.trans (Swap_perm h _ _)⟩

/-- The loop of `down` restores heap order on the first `n` items and leaves
the items from `n` on in place. -/
theorem downLoop_heap (fuel : Nat) (h : heapQueue T) (i n : Nat) (hn : n ≤ h.Len)
    (hf : n - i ≤ fuel) (inv : h.DownInv i n) :
    (heap.downLoop fuel h i n).IsHeap n ∧ (heap.downLoop fuel h i n).Len = h.Len ∧
    (heap.downLoop fuel h i n).items.Perm h.items ∧
    (∀ k, n ≤ k → (heap.downLoop fuel h i n).items[k]? = h.items[k]?) := by
  induction fuel generalizing h i with
  | zero =>
    refine ⟨?_, rfl, List.Perm.refl _, fun _ _ => rfl⟩
    intro k hk hkn
    exact inv.1 k hk hkn (by omega)
  | succ fuel ih =>
    unfold heap.downLoop
    simp only
    by_cases hc : n ≤ 2 * i + 1
    · rw [if_pos hc]
      refine ⟨?_, rfl, List.Perm.refl _, fun _ _ => rfl⟩
      intro k hk hkn
      exact inv.1 k hk hkn (by omega)
    · rw [if_neg hc]
      obtain ⟨j, hjdef, hj12, hsmall⟩ :
          ∃ j, (if 2 * i + 1 + 1 < n ∧ h.Less (2 * i + 1 + 1) (2 * i + 1) = true
                then 2 * i + 1 + 1 else 2 * i + 1) = j ∧
            (j = 2 * i + 1 ∨ (j = 2 * i + 2 ∧ j < n)) ∧
            (∀ k, 0 < k → k < n → (k - 1) / 2 = i → h.Less k j = false) := by
        by_cases hcond : 2 * i + 1 + 1 < n ∧ h.Less (2 * i + 1 + 1) (2 * i + 1) = true
        · refine ⟨2 * i + 1 + 1, if_pos hcond, Or.inr ⟨rfl, hcond.1⟩, ?_⟩
          intro k hk hkn hp
          have hk2 : k = 2 * i + 1 ∨ k = 2 * i + 1 + 1 := by omega
          rcases hk2 with hk2 | hk2
          · rw [hk2]
            exact idx_asymm h _ _ hcond.2
          · rw [hk2]
            exact idx_irrefl h _
        · refine ⟨2 * i + 1, if_neg hcond, Or.inl rfl, ?_⟩
          intro k hk hkn hp
          have hk2 : k = 2 * i + 1 ∨ k = 2 * i + 1 + 1 := by omega
          rcases hk2 with hk2 | hk2
          · rw [hk2]
            exact idx_irrefl h _
          · rw [hk2]
            cases hl : h.Less (2 * i + 1 + 1) (2 * i + 1) with
            | false => rfl
            | true => exact absurd ⟨by omega, hl⟩ hcond
      rw [hjdef]
      have hjn : j < n := by omega
      have hjl : j < h.Len := by omega
      have hil : i < h.Len := by omega
      have hpj : (j - 1) / 2 = i := by omega
      by_cases hless : h.Less j i = false
      · rw [if_pos hless]
        refine ⟨?_, rfl, List.Perm.refl _, fun _ _ => rfl⟩
        intro k hk hkn
        by_cases hp : (k - 1) / 2 = i
        · rw [hp]
          exact idx_trans h i j k hjl hless (hsmall k hk hkn hp)
        · exact inv.1 k hk hkn hp
      · rw [if_neg hless]
        have hless1 : h.Less j i = true := by
          cases hl : h.Less j i with
          | true => rfl
          | false => exact absurd hl hless
        have hlen := Swap_Len h i j
        have hinv : (h.Swap i j).DownInv j n := by
          refine ⟨?_, ?_⟩
          · intro k hk hkn hp
            rw [Swap_Less h _ _ _ _ hil hjl]
            by_cases hkj : k = j
            · have e1 : swapped i j k = i := swapped_eq _ _ _ _ (by omega)
              have e2 : swapped i j ((k - 1) / 2) = j := swapped_eq _ _ _ _ (by omega)
              rw [e1, e2]
              exact idx_asymm h _ _ hless1
            · by_cases hki : k = i
              · have e1 : swapped i j k = j := swapped_eq _ _ _ _ (by omega)
                have e2 : swapped i j ((k - 1) / 2) = (i - 1) / 2 :=
                  swapped_eq _ _ _ _ (by omega)
                rw [e1, e2]
                exact inv.2 j (by omega) hjn hpj (by omega)
              · have e1 : swapped i j k = k := swapped_eq _ _ _ _ (by omega)
                rw [e1]
                by_cases hpi : (k - 1) / 2 = i
                · have e2 : swapped i j ((k - 1) / 2) = j := swapped_eq _ _ _ _ (by omega)
                  rw [e2]
                  exact hsmall k hk hkn hpi
                · have e2 : swapped i j ((k - 1) / 2) = (k - 1) / 2 :=
                    swapped_eq _ _ _ _ (by omega)
                  rw [e2]
                  exact inv.1 k hk hkn hpi
          · intro k hk hkn hp hj0
            rw [Swap_Less h _ _ _ _ hil hjl]
            have e1 : swapped i j k = k := swapped_eq _ _ _ _ (by omega)
            have e2 : swapped i j ((j - 1) / 2) = j := swapped_eq _ _ _ _ (by omega)
            rw [e1, e2]
            have h1 := inv.1 k hk hkn (by omega)
            rw [hp] at h1
            exact h1
        obtain ⟨r1, r2, r3, r4⟩ := ih (h.Swap i j) j (by rw [hlen]; exact hn) (by omega) hinv
        refine ⟨r1, by rw [r2, hlen], r3.trans (Swap_perm h _ _), ?_⟩
        intro k hk
        rw [r4 k hk, Swap_get h i j k hil hjl]
        rw [if_neg (by omega), if_neg (by omega)]

theorem Push_Less (h : heapQueue T) (x : EnqItem T) (a b : Nat) (ha : a < h.Len) (hb : b < h.Len) :
    (h.Push x).Less a b = h.Less a b := by
  unfold heapQueue.Len at ha hb
  unfold heapQueue.Less heapQueue.Push
  simp only
  rw [List.getElem?_append_left ha, List.getElem?_append_left hb]

/-- The function `Push` of `container/heap` keeps heap order and adds the item. -/
theorem Push_heap (h : heapQueue T) (x : EnqItem T) (hh : h.IsHeap h.Len) :
    (heap.Push h x).IsHeap (heap.Push h x).Len ∧ (heap.Push h x).Len = h.Len + 1 ∧
    (heap.Push h x).items.Perm (h.items ++ [x]) := by
  have hlen : (h.Push x).Len = h.Len + 1 := by simp [heapQueue.Push, heapQueue.Len]
  have hinv : (h.Push x).UpInv h.Len := by
    refine ⟨?_, ?_⟩
    · intro k hk hkn hkj
      rw [hlen] at hkn
      rw [Push_Less h x _ _ (by omega) (by omega)]
      exact hh k hk (by omega)
    · intro k hk hkn hp hj0
      rw [hlen] at hkn
      omega
  obtain ⟨r1, r2, r3⟩ := upLoop_heap h.Len (h.Push x) h.Len (le_refl _) (by rw [hlen]; omega) hinv
  have e : heap.Push h x = heap.upLoop h.Len (h.Push x) h.Len := by
    unfold heap.Push heap.up
    simp only [hlen, Nat.add_sub_cancel]
  rw [e, r2]
  exact ⟨r1, hlen, r3⟩

/-- In heap order no item is `Less` than the first. -/
theorem root_min (h : heapQueue T) (hh : h.IsHeap h.Len) (k : Nat) (hk : k < h.Len) :
    h.Less k 0 = false := by
  induction k using Nat.strong_induction_on with
  | _ k ih =>
    by_cases hk0 : k = 0
    · rw [hk0]
      exact idx_irrefl h 0
    · have h1 := ih ((k - 1) / 2) (by omega) (by omega)
      have h2 := hh k (by omega) hk
      exact idx_trans h 0 ((k - 1) / 2) k (by omega) h1 h2

/-- The function `Pop` of `container/heap` on a non-empty heap returns its
first item, which no other item is `Less` than, and keeps the other items in
heap order. -/
theorem Pop_heap (h : heapQueue T) (hh : h.IsHeap h.Len) (hne : 0 < h.Len) :
    ∃ m r, heap.Pop h = some (m, r) ∧ h.items[0]? = some m ∧ (m :: r.items).Perm h.items ∧
      r.IsHeap r.Len ∧ r.Len + 1 = h.Len ∧ (∀ y ∈ r.items, Less y m = false) := by
  have hlen1 := Swap_Len h 0 (h.Len - 1)
  have hn : h.Len - 1 < h.Len := by omega
  have hinv : (h.Swap 0 (h.Len - 1)).DownInv 0 (h.Len - 1) := by
    refine ⟨?_, ?_⟩
    · intro k hk hkn hp
      rw [Swap_Less h _ _ _ _ hne hn]
      have e1 : swapped 0 (h.Len - 1) k = k := swapped_eq _ _ _ _ (by omega)
      have e2 : swapped 0 (h.Len - 1) ((k - 1) / 2) = (k - 1) / 2 :=
        swapped_eq _ _ _ _ (by omega)
      rw [e1, e2]
      exact hh k hk (by omega)
    · intro k hk hkn hp h0
      omega
  obtain ⟨h2, hdef, r1, r2, r3, r4⟩ : ∃ h2 : heapQueue T,
      heap.down (h.Swap 0 (h.Len - 1)) 0 (h.Len - 1) = h2 ∧ h2.IsHeap (h.Len - 1) ∧
      h2.Len = (h.Swap 0 (h.Len - 1)).Len ∧ h2.items.Perm (h.Swap 0 (h.Len - 1)).items ∧
      (∀ k, h.Len - 1 ≤ k → h2.items[k]? = (h.Swap 0 (h.Len - 1)).items[k]?) :=
    ⟨_, rfl, downLoop_heap (h.Len - 1 - 0) (h.Swap 0 (h.Len - 1)) 0 (h.Len - 1)
      (by rw [hlen1]; omega) (le_refl _) hinv⟩
  have hroot : h.items[0]? = some (h.items[0]) := List.getElem?_eq_getElem hne
  have hll : h2.items.length = h.Len := r2.trans hlen1
  have hlast : h2.items.getLast? = some (h.items[0]) := by
    rw [List.getLast?_eq_getElem?, hll, r4 (h.Len - 1) (le_refl _),
      Swap_get h 0 (h.Len - 1) (h.Len - 1) hne hn, if_pos rfl]
    exact hroot
  have hpop : heap.Pop h = some (h.items[0], { items := h2.items.dropLast }) := by
    unfold heap.Pop
    simp only [hdef]
    unfold heapQueue.Pop
    simp only [hlast]
  have hperm : (h.items[0] :: h2.items.dropLast).Perm h.items := by
    have e := List.dropLast_append_getLast? (h.items[0]) (Option.mem_def.2 hlast)
    have p1 : (h.items[0] :: h2.items.dropLast).Perm (h2.items.dropLast ++ [h.items[0]]) :=
      (List.perm_append_singleton _ _).symm
    rw [e] at p1
    exact p1.trans (r3.trans (Swap_perm h _ _))
  have hrlen : h2.items.dropLast.length = h.Len - 1 := by
    rw [List.length_dropLast, hll]
  refine ⟨_, _, hpop, hroot, hperm, ?_, ?_, ?_⟩
  · intro k hk hkn
    have hkn1 : k < h.Len - 1 := by
      have : k < h2.items.dropLast.length := hkn
      rw [hrlen] at this
      exact this
    have := r1 k hk hkn1
    unfold heapQueue.Less at this ⊢
    simp only
    rw [List.getElem?_dropLast, List.getElem?_dropLast, hll, if_pos hkn1, if_pos (by omega)]
    exact this
  · show h2.items.dropLast.length + 1 = h.Len
    rw [hrlen]
    omega
  · intro y hy
    have hy1 : y ∈ h.items := hperm.subset (List.mem_cons_of_mem _ hy)
    obtain ⟨k, hk⟩ := List.mem_iff_getElem?.1 hy1
    have hkl : k < h.Len := (List.getElem?_eq_some.1 hk).1
    have := root_min h hh k hkl
    unfold heapQueue.Less at this
    rw [hk, hroot] at this
    exact this

theorem stamp_length (k : Nat) (ts : List (EnqItem T)) : (stamp k ts).length = ts.length := by
  induction ts generalizing k with
  | nil => rfl
  | cons t ts ih => simp [stamp, ih]

theorem stamp_index_ge (k : Nat) (ts : List (EnqItem T)) :
    ∀ y ∈ stamp k ts, (k : Int) ≤ y.Index := by
  induction ts generalizing k with
  | nil => intro y hy; simp [stamp] at hy
  | cons t ts ih =>
    intro y hy
    simp only [stamp, List.mem_cons] at hy
    rcases hy with hy | hy
    · rw [hy]
    · have := ih (k + 1) y hy
      push_cast at this
      omega

theorem stamp_pairwise (k : Nat) (ts : List (EnqItem T)) :
    (stamp k ts).Pairwise fun a b => a.Index < b.Index := by
  induction ts generalizing k with
  | nil => simp [stamp]
  | cons t ts ih =>
    simp only [stamp, List.pairwise_cons]
    refine ⟨?_, ih (k + 1)⟩
    intro y hy
    have := stamp_index_ge (k + 1) ts y hy
    push_cast at this
    show (k : Int) < y.Index
    omega

theorem stamp_get (k i : Nat) (ts : List (EnqItem T)) (a : EnqItem T)
    (h : (stamp k ts).get? i = some a) :
    a.Index = ((k + i : Nat) : Int) ∧ ∃ t, ts.get? i = some t ∧ a.Value = t.Value ∧ a.Priority = t.Priority := by
  induction ts generalizing k i with
  | nil => simp [stamp] at h
  | cons t ts ih =>
    cases i with
    | zero =>
      simp only [stamp, List.get?_cons_zero, Option.some.injEq] at h
      rw [← h]
      exact ⟨rfl, t, rfl, rfl, rfl⟩
    | succ i =>
      simp only [stamp, List.get?_cons_succ] at h
      obtain ⟨h1, h2⟩ := ih (k + 1) i h
      refine ⟨?_, ?_⟩
      · rw [h1]; congr 1; omega
      · simpa using h2

theorem sublist_pair_of_mem {α : Type} (a b : α) (l : List α) (ha : a ∈ l) (hb : b ∈ l)
    (hab : a ≠ b) : [a, b].Sublist l ∨ [b, a].Sublist l := by
  induction l with
  | nil => simp at ha
  | cons x xs ih =>
    rcases List.mem_cons.1 ha with ha1 | ha1
    · rcases List.mem_cons.1 hb with hb1 | hb1
      · exact absurd (ha1.trans hb1.symm) hab
      · left
        rw [ha1]
        exact List.Sublist.cons₂ x (List.singleton_sublist.2 hb1)
    · rcases List.mem_cons.1 hb with hb1 | hb1
      · right
        rw [hb1]
        exact List.Sublist.cons₂ x (List.singleton_sublist.2 ha1)
      · rcases ih ha1 hb1 with h | h
        · exact Or.inl (List.Sublist.cons x h)
        · exact Or.inr (List.Sublist.cons x h)

theorem stamp_get_of_get (k i : Nat) (ts : List (EnqItem T)) (t : EnqItem T)
    (h : ts.get? i = some t) :
    (stamp k ts).get? i = some { t with Index := ((k + i : Nat) : Int) } := by
  induction ts generalizing k i with
  | nil => simp at h
  | cons x xs ih =>
    cases i with
    | zero =>
      simp only [List.get?_cons_zero, Option.some.injEq] at h
      simp [stamp, h]
    | succ i =>
      simp only [List.get?_cons_succ] at h
      simp only [stamp, List.get?_cons_succ]
      rw [ih (k + 1) i h]
      congr 3
      omega

theorem Init_nil : heap.Init ({ items := [] } : heapQueue T) = { items := [] } := by
  simp [heap.Init, heap.initLoop, heapQueue.Len]

theorem IsHeap_nil : ({ items := [] } : heapQueue T).IsHeap 0 := by
  intro k _ hk
  omega

/-- The queue after a sequence of `Enqueue` calls holds, in heap order, the
items it held and the new items stamped with their insertion numbers. -/
theorem EnqueueAll_items (ts : List (EnqItem T)) (q : PriorityQueue T) (k : Nat)
    (hk : q.insertionCount = (k : Int)) (hlen : k + ts.length < 9223372036854775808)
    (hh : q.internal.IsHeap q.internal.Len) :
    (q.EnqueueAll ts).internal.items.Perm (q.internal.items ++ stamp k ts) ∧
    (q.EnqueueAll ts).internal.IsHeap (q.EnqueueAll ts).internal.Len ∧
    (q.EnqueueAll ts).insertionCount = ((k + ts.length : Nat) : Int) := by
  induction ts generalizing q k with
  | nil =>
    simp only [PriorityQueue.EnqueueAll, stamp, List.append_nil, List.length_nil, Nat.add_zero]
    exact ⟨List.Perm.refl _, hh, hk⟩
  | cons t ts ih =>
    simp only [PriorityQueue.EnqueueAll]
    have hk1 : (q.Enqueue t).insertionCount = ((k + 1 : Nat) : Int) := by
      simp only [PriorityQueue.Enqueue, hk]
      rw [wrapInt_eq]
      · push_cast; rfl
      · omega
      · simp only [List.length_cons] at hlen
        omega
    obtain ⟨p1, p2, p3⟩ := Push_heap q.internal { t with Index := q.insertionCount } hh
    have hint : (q.Enqueue t).internal = heap.Push q.internal { t with Index := q.insertionCount } :=
      rfl
    obtain ⟨i1, i2, i3⟩ := ih (q.Enqueue t) (k + 1) hk1
      (by simp only [List.length_cons] at hlen; omega) (by rw [hint]; exact p1)
    refine ⟨?_, i2, ?_⟩
    · refine i1.trans ?_
      rw [hint]
      refine (List.Perm.append_right _ p3).trans ?_
      simp only [stamp, hk, List.append_assoc, List.singleton_append]
      exact List.Perm.refl _
    · rw [i3]
      simp only [List.length_cons]
      congr 1
      omega

/-- Calls of `Dequeue` until the queue is empty return the values of the items
in dispatch order. -/
theorem DequeueN_sorted [Inhabited T] (n : Nat) (q : PriorityQueue T) (hn : q.internal.Len = n)
    (hh : q.internal.IsHeap q.internal.Len)
    (hd : q.internal.items.Pairwise fun a b => a.Index ≠ b.Index) :
    ∃ out : List (EnqItem T),
      (PriorityQueue.DequeueN n q).1 = out.map (fun item => item.Value) ∧
      out.Perm q.internal.items ∧
      out.Pairwise Before ∧
      (PriorityQueue.DequeueN n q).2.internal.items = [] ∧
      (PriorityQueue.DequeueN n q).2.insertionCount = q.insertionCount := by
  induction n generalizing q with
  | zero =>
    have : q.internal.items = [] := List.length_eq_zero.1 hn
    exact ⟨[], by simp [PriorityQueue.DequeueN], by simp [this], by simp,
      by simp [PriorityQueue.DequeueN, this], rfl⟩
  | succ m ih =>
    obtain ⟨mn, r, hpop, _, hperm, hheap, hlen, hmin⟩ := Pop_heap q.internal hh (by omega)
    have hd1 : (mn :: r.items).Pairwise fun a b => a.Index ≠ b.Index :=
      hperm.symm.pairwise hd (fun hab hba => hab hba.symm)
    have hdq : q.Dequeue = ((mn.Value, true), { q with internal := r }) := by
      unfold PriorityQueue.Dequeue
      rw [if_neg (by omega), hpop]
    obtain ⟨out, ho1, ho2, ho3, ho4, ho5⟩ :=
      ih { q with internal := r } (by show r.Len = m; omega) hheap (List.pairwise_cons.1 hd1).2
    refine ⟨mn :: out, ?_, ?_, ?_, ?_, ?_⟩
    · simp [PriorityQueue.DequeueN, hdq, ho1]
    · exact (List.Perm.cons mn ho2).trans hperm
    · rw [List.pairwise_cons]
      refine ⟨?_, ho3⟩
      intro y hy
      have hy1 : y ∈ r.items := ho2.subset hy
      have h1 := (Less_false_iff _ _).1 (hmin y hy1)
      have h2 := (List.pairwise_cons.1 hd1).1 y hy1
      unfold Before at h1 ⊢
      omega
    · simpa [PriorityQueue.DequeueN, hdq] using ho4
    · simpa [PriorityQueue.DequeueN, hdq] using ho5

theorem insertAscending_perm (x : EnqItem T) (l : List (EnqItem T)) :
    (insertAscending x l).Perm (x :: l) := by
  induction l with
  | nil => exact List.Perm.refl _
  | cons y ys ih =>
    unfold insertAscending
    split_ifs
    · exact List.Perm.refl _
    · exact (List.Perm.cons y ih).trans (List.Perm.swap x y ys)

theorem ascending_perm (l : List (EnqItem T)) : (ascending l).Perm l := by
  induction l with
  | nil => exact List.Perm.refl _
  | cons x xs ih =>
    unfold ascending
    exact (insertAscending_perm x _).trans (List.Perm.cons x ih)

theorem insertAscending_sorted (x : EnqItem T) (l : List (EnqItem T)) (hs : l.Pairwise Before)
    (hx : ∀ y ∈ l, x.Index ≠ y.Index) : (insertAscending x l).Pairwise Before := by
  induction l with
  | nil => simp [insertAscending]
  | cons y ys ih =>
    obtain ⟨hy, hys⟩ := List.pairwise_cons.1 hs
    unfold insertAscending
    split_ifs with hl
    · have hxy : Before x y := (Less_iff x y).1 hl
      rw [List.pairwise_cons]
      refine ⟨?_, hs⟩
      intro z hz
      rcases List.mem_cons.1 hz with hz | hz
      · rw [hz]
        exact hxy
      · have := hy z hz
        unfold Before at *
        omega
    · have hxy : ¬ Before x y := fun h => hl ((Less_iff x y).2 h)
      have hne := hx y (List.mem_cons_self _ _)
      rw [List.pairwise_cons]
      refine ⟨?_, ih hys (fun z hz => hx z (List.mem_cons_of_mem _ hz))⟩
      intro z hz
      rcases List.mem_cons.1 ((insertAscending_perm x ys).subset hz) with hz | hz
      · rw [hz]
        unfold Before at *
        omega
      · exact hy z hz

theorem ascending_sorted (l : List (EnqItem T)) (hd : l.Pairwise fun a b => a.Index ≠ b.Index) :
    (ascending l).Pairwise Before := by
  induction l with
  | nil => simp [ascending]
  | cons x xs ih =>
    obtain ⟨hx, hxs⟩ := List.pairwise_cons.1 hd
    unfold ascending
    exact insertAscending_sorted x _ (ih hxs) (fun y hy => hx y ((ascending_perm xs).subset hy))

/-- Two arrangements of the same items in dispatch order are equal. -/
theorem sorted_unique (l1 l2 : List (EnqItem T)) (hp : l1.Perm l2) (h1 : l1.Pairwise Before)
    (h2 : l2.Pairwise Before) : l1 = l2 := by
  haveI : IsAntisymm (EnqItem T) Before :=
    ⟨fun a b hab hba => by
      exfalso
      unfold Before at *
      omega⟩
  exact List.eq_of_perm_of_sorted hp h1 h2

/-- The heap alone does not keep insertion order: three items of one priority
that all carry the index 0, placed in the slice as they come, are popped as
A, C, B.  The order of equal priorities rests on the insertion number that
`Enqueue` writes in `Index`. -/
theorem Dequeue_unstamped :
    (({ internal :=
          { items := [({ Value := "A", Priority := 1, Index := 0 } : EnqItem String),
                      { Value := "B", Priority := 1, Index := 0 },
                      { Value := "C", Priority := 1, Index := 0 }] }
        insertionCount := 0 } : PriorityQueue String).DequeueAll).1 = ["A", "C", "B"] := by
  decide

/-- C2 (priority order with FIFO tie-break; `heapQueue` is modelled from the
spec and driven by the functions of `container/heap`): after any sequence
`ts` of fewer than `2^63` `Enqueue` calls on a new priority queue, `Dequeue`
calls until the queue is empty return the values of the items, each stamped
with its insertion number, in ascending order of (Priority, insertion
number); that list is a rearrangement of the stamped items in which every
item is before every later one; of two items with the same priority the one
enqueued first is dequeued first; the queue is then empty; `Dequeue` on an
empty queue returns (zero value, false) and leaves it as it is; the items
(A,5), (B,1), (C,1), (D,3) come out as B, C, D, A, and three items of one
priority come out as they went in. -/
theorem C2_priority_order [Inhabited T] (ts : List (EnqItem T))
    (hlen : ts.length < 9223372036854775808) :
    ((NewPriorityQueue.EnqueueAll ts).DequeueAll).1
      = (ascending (stamp 0 ts)).map (fun item => item.Value) ∧
    (ascending (stamp 0 ts)).Perm (stamp 0 ts) ∧
    (ascending (stamp 0 ts)).Pairwise Before ∧
    (∀ i j ta tb, i < j → ts.get? i = some ta → ts.get? j = some tb →
      ta.Priority = tb.Priority →
      [{ ta with Index := (i : Int) }, { tb with Index := (j : Int) }].Sublist
        (ascending (stamp 0 ts))) ∧
    ((NewPriorityQueue.EnqueueAll ts).DequeueAll).2.Len = 0 ∧
    (∀ q : PriorityQueue T, q.Len = 0 → q.Dequeue = ((default, false), q)) ∧
    ((NewPriorityQueue.EnqueueAll
        [({ Value := "A", Priority := 5, Index := 0 } : EnqItem String),
         { Value := "B", Priority := 1, Index := 0 },
         { Value := "C", Priority := 1, Index := 0 },
         { Value := "D", Priority := 3, Index := 0 }]).DequeueAll).1 = ["B", "C", "D", "A"] ∧
    ((NewPriorityQueue.EnqueueAll
        [({ Value := "A", Priority := 1, Index := 0 } : EnqItem String),
         { Value := "B", Priority := 1, Index := 0 },
         { Value := "C", Priority := 1, Index := 0 }]).DequeueAll).1 = ["A", "B", "C"] := by
  have hq0 : (NewPriorityQueue : PriorityQueue T).internal = { items := [] } := Init_nil
  have hh0 : (NewPriorityQueue : PriorityQueue T).internal.IsHeap
      (NewPriorityQueue : PriorityQueue T).internal.Len := by
    rw [hq0]
    exact IsHeap_nil
  obtain ⟨hitems, hheap, _⟩ := EnqueueAll_items ts (NewPriorityQueue : PriorityQueue T) 0 rfl
    (by simpa using hlen) hh0
  have hitems1 : (NewPriorityQueue.EnqueueAll ts).internal.items.Perm (stamp 0 ts) := by
    rw [hq0] at hitems
    exact hitems
  have hdist : (stamp 0 ts).Pairwise fun a b => a.Index ≠ b.Index :=
    (stamp_pairwise 0 ts).imp (fun h => ne_of_lt h)
  have hd : (NewPriorityQueue.EnqueueAll ts).internal.items.Pairwise
      fun a b => a.Index ≠ b.Index :=
    hitems1.symm.pairwise hdist (fun hab hba => hab hba.symm)
  obtain ⟨out, ho1, ho2, ho3, ho4, _⟩ :=
    DequeueN_sorted (NewPriorityQueue.EnqueueAll ts).Len (NewPriorityQueue.EnqueueAll ts) rfl
      hheap hd
  have hasc := ascending_sorted (stamp 0 ts) hdist
  have hout : out = ascending (stamp 0 ts) :=
    sorted_unique out _ ((ho2.trans hitems1).trans (ascending_perm _).symm) ho3 hasc
  rw [hout] at ho1
  refine ⟨ho1, ascending_perm _, hasc, ?_, ?_, ?_, by decide, by decide⟩
  · intro i j ta tb hij hi hj hprio
    have ha := stamp_get_of_get 0 i ts ta hi
    have hb := stamp_get_of_get 0 j ts tb hj
    simp only [Nat.zero_add] at ha hb
    have hain : ({ ta with Index := (i : Int) } : EnqItem T) ∈ ascending (stamp 0 ts) :=
      (ascending_perm _).symm.subset (List.get?_mem ha)
    have hbin : ({ tb with Index := (j : Int) } : EnqItem T) ∈ ascending (stamp 0 ts) :=
      (ascending_perm _).symm.subset (List.get?_mem hb)
    have hne : ({ ta with Index := (i : Int) } : EnqItem T) ≠ { tb with Index := (j : Int) } := by
      intro h
      have := congrArg EnqItem.Index h
      simp only [Nat.cast_inj] at this
      omega
    rcases sublist_pair_of_mem _ _ _ hain hbin hne with h | h
    · exact h
    · exfalso
      have hp := hasc.sublist h
      simp only [List.pairwise_cons, List.mem_singleton, forall_eq] at hp
      have hb1 := hp.1
      unfold Before at hb1
      simp only at hb1
      omega
  · show (PriorityQueue.DequeueN _ _).2.internal.items.length = 0
    rw [ho4]
    rfl
  · intro q hq
    simp only [PriorityQueue.Len] at hq
    simp [PriorityQueue.Dequeue, hq]

/-- Witness of C2: the scenario S2 of the specification. -/
theorem C2_priority_order_witness :
    [({ Value := "A", Priority := 5, Index := 0 } : EnqItem String),
      { Value := "B", Priority := 1, Index := 0 },
      { Value := "C", Priority := 1, Index := 0 },
      { Value := "D", Priority := 3, Index := 0 }].length < 9223372036854775808 ∧
    ((NewPriorityQueue.EnqueueAll
        [({ Value := "A", Priority := 5, Index := 0 } : EnqItem String),
         { Value := "B", Priority := 1, Index := 0 },
         { Value := "C", Priority := 1, Index := 0 },
         { Value := "D", Priority := 3, Index := 0 }]).DequeueAll).1
      = (ascending (stamp 0
        [({ Value := "A", Priority := 5, Index := 0 } : EnqItem String),
         { Value := "B", Priority := 1, Index := 0 },
         { Value := "C", Priority := 1, Index := 0 },
         { Value := "D", Priority := 3, Index := 0 }])).map (fun item => item.Value) :=
  ⟨by decide, (C2_priority_order
    [({ Value := "A", Priority := 5, Index := 0 } : EnqItem String),
      { Value := "B", Priority := 1, Index := 0 },
      { Value := "C", Priority := 1, Index := 0 },
      { Value := "D", Priority := 3, Index := 0 }] (by decide)).1⟩

end queue

namespace varmq
variable {T R : Type}

theorem Ack_channel_irrelevant (j : job T R) (rc : ResultController R) (q : IAcknowledgeable) :
    job.Ack { j with resultChannel := rc } q = job.Ack j q := rfl

theorem close_open (j : job T R) (q : IAcknowledgeable) (c : Chan (Result R))
    (h1 : j.status ≠ processing) (h2 : j.status ≠ closed)
    (hch : j.resultChannel.ch = some c) (hopen : c.closed = false) :
    j.close q = .ok (none,
      { j with
        resultChannel := { j.resultChannel with ch := some { c with closed := true } }
        status := closed },
      (j.Ack q).2) := by
  simp only [job.close, job.isCloseable, h1, h2, if_false, ResultController.Close, hch,
    chanClose, hopen, Bool.false_eq_true, Outcome.map]
  rfl

/-- What `close()` does where it returns: it returns an error exactly when the
status is Processing (processing job cannot be closed) or Closed (already
closed), and then leaves the job and its queue as they are; for every other
status, on a job whose result channel is there and open, it returns nil, the
result channel is closed, the ack has been attempted on the job before its
status changed, and the status is Closed. -/
theorem close_returns (j : job T R) (q : IAcknowledgeable) :
    (j.status = processing → j.close q = .ok (some .processingCannotClose, j, q)) ∧
    (j.status = closed → j.close q = .ok (some .alreadyClosed, j, q)) ∧
    ((∃ err j1 q1, j.close q = .ok (some err, j1, q1)) ↔
      (j.status = processing ∨ j.status = closed)) ∧
    (∀ c, j.status ≠ processing → j.status ≠ closed →
      j.resultChannel.ch = some c → c.closed = false →
      j.close q = .ok (none,
        { j with
          resultChannel := { j.resultChannel with ch := some { c with closed := true } }
          status := closed },
        (j.Ack q).2)) := by
  refine ⟨?_, ?_, ?_, ?_⟩
  · intro h
    simp [job.close, job.isCloseable, h]
  · intro h
    simp [job.close, job.isCloseable, h]
  · constructor
    · rintro ⟨err, j1, q1, h⟩
      by_contra hn
      push_neg at hn
      simp only [job.close, job.isCloseable, hn.1, hn.2, if_false] at h
      cases hc : j.resultChannel.Close with
      | ok rc => rw [hc] at h; simp [Outcome.map] at h
      | blocks => rw [hc] at h; simp [Outcome.map] at h
      | panic p => rw [hc] at h; simp [Outcome.map] at h
    · rintro (h | h)
      · exact ⟨.processingCannotClose, j, q, by simp [job.close, job.isCloseable, h]⟩
      · exact ⟨.alreadyClosed, j, q, by simp [job.close, job.isCloseable, h]⟩
  · intro c h1 h2 hch hopen
    exact close_open j q c h1 h2 hch hopen

/-- C5 at its failing inputs: `close()` closes the result channel without a
check.  A job made by `newVoidJob` has status Created and no result channel:
`close()` on it panics with "close of nil channel" and never sets the status
Closed.  A job made by `newJob` and queued, whose result channel
`CloseResultChannel()` has closed (as `externalQueue.Purge` does), still has
status Queued: `close()` on it panics with "close of closed channel".  In
both cases the claim has `close()` return nil and leave the status Closed. -/
theorem C5_close_unguarded :
    ((newVoidJob 7 { Id := "a" } : job Nat Nat).status = created ∧
      (newVoidJob 7 { Id := "a" } : job Nat Nat).isCloseable = none ∧
      (newVoidJob 7 { Id := "a" } : job Nat Nat).resultChannel.ch = none ∧
      (newVoidJob 7 { Id := "a" } : job Nat Nat).close exampleQueue
        = .panic .closeOfNilChannel) ∧
    (((newJob 7 { Id := "a" } : job Nat Nat).ChangeStatus queued).CloseResultChannel
        = .ok { exampleQueuedJob with
            resultChannel :=
              { exampleQueuedJob.resultChannel with
                ch := some { buf := [], cap := 1, closed := true } } } ∧
      ({ exampleQueuedJob with
          resultChannel :=
            { exampleQueuedJob.resultChannel with
              ch := some { buf := [], cap := 1, closed := true } } } : job Nat Nat).status
        = queued ∧
      ({ exampleQueuedJob with
          resultChannel :=
            { exampleQueuedJob.resultChannel with
              ch := some { buf := [], cap := 1, closed := true } } } : job Nat Nat).isCloseable
        = none ∧
      ({ exampleQueuedJob with
          resultChannel :=
            { exampleQueuedJob.resultChannel with
              ch := some { buf := [], cap := 1, closed := true } } } : job Nat Nat).close
          exampleQueue
        = .panic .closeOfClosedChannel) :=
  ⟨⟨rfl, rfl, rfl, rfl⟩, ⟨rfl, rfl, rfl, rfl⟩⟩

/-- A second `close()` after a successful one returns the already-closed error
and changes nothing. -/
theorem close_twice (j : job T R) (q : IAcknowledgeable) (c : Chan (Result R))
    (h1 : j.status ≠ processing) (h2 : j.status ≠ closed)
    (hch : j.resultChannel.ch = some c) (hopen : c.closed = false) :
    ∃ j1 q1, j.close q = .ok (none, j1, q1) ∧ j1.status = closed ∧
      j1.resultChannel.ch = some { c with closed := true } ∧
      j1.close q1 = .ok (some .alreadyClosed, j1, q1) := by
  refine ⟨_, _, close_open j q c h1 h2 hch hopen, rfl, rfl, ?_⟩
  simp [job.close, job.isCloseable]

/-- C6 at its failing inputs: `close()` succeeds on the queued job
`exampleQueuedJob`, which stays in the queue, and `externalQueue.Purge` then
closes its closed result channel; and `externalQueue.Purge` closes the result
channel of the queued job and leaves its status Queued, so that `close()`
then closes the closed channel.  Both runs end in the panic "close of closed
channel". -/
theorem C6_double_close :
    (exampleQueuedJob.close exampleQueue = .ok (none,
        { exampleQueuedJob with
          resultChannel :=
            { exampleQueuedJob.resultChannel with ch := some { buf := [], cap := 1, closed := true } }
          status := closed },
        (exampleQueuedJob.Ack exampleQueue).2) ∧
      externalQueue.Purge ({ Queue := [.job { exampleQueuedJob with
          resultChannel :=
            { exampleQueuedJob.resultChannel with ch := some { buf := [], cap := 1, closed := true } }
          status := closed }] } : externalQueue Nat Nat)
        = .panic .closeOfClosedChannel) ∧
    (externalQueue.Purge ({ Queue := [.job exampleQueuedJob] } : externalQueue Nat Nat)
        = .ok ({ Queue := [] }, [.job { exampleQueuedJob with
          resultChannel :=
            { exampleQueuedJob.resultChannel with ch := some { buf := [], cap := 1, closed := true } } }]) ∧
      ({ exampleQueuedJob with
          resultChannel :=
            { exampleQueuedJob.resultChannel with ch := some { buf := [], cap := 1, closed := true } } }
        : job Nat Nat).close exampleQueue = .panic .closeOfClosedChannel) :=
  ⟨⟨rfl, rfl⟩, ⟨rfl, rfl⟩⟩

theorem ResultN_closed_empty (j : job T R) (c : Chan (Result R))
    (hch : j.resultChannel.ch = some c) (hclosed : c.closed = true) (hempty : c.buf = []) (n : Nat) :
    j.ResultN n = .ok (List.replicate n (j.Output.Data, j.Output.Err), j) := by
  have hres : j.Result = .ok ((j.Output.Data, j.Output.Err), j) := by
    cases j with
    | mk id inp st out rc qr ack =>
      cases rc with
      | mk ch cons o =>
        simp only at hch
        subst hch
        cases c with
        | mk buf cap cl =>
          simp only at hclosed hempty
          subst hclosed hempty
          rfl
  induction n with
  | zero => rfl
  | succ m ih =>
    simp only [job.ResultN, hres, Outcome.bind, ih, Outcome.map, List.replicate_succ]

theorem ResultN_after_send (j : job T R) (c : Chan (Result R)) (r : Result R)
    (hch : j.resultChannel.ch = some c) (hclosed : c.closed = true) (hbuf : c.buf = [r])
    (hout : j.Output = r) (n : Nat) :
    j.ResultN (n + 1) = .ok (List.replicate (n + 1) (r.Data, r.Err),
      { j with resultChannel := { j.resultChannel with ch := some { c with buf := [] } } }) := by
  subst hout
  have hres : j.Result = .ok ((j.Output.Data, j.Output.Err),
      { j with resultChannel := { j.resultChannel with ch := some { c with buf := [] } } }) := by
    simp [job.Result, hch, chanRecv, hbuf, Outcome.map]
  have hrest := ResultN_closed_empty
    ({ j with resultChannel := { j.resultChannel with ch := some { c with buf := [] } } })
    { c with buf := [] } rfl hclosed rfl n
  simp only [job.ResultN, hres, Outcome.bind, hrest, Outcome.map, List.replicate_succ]

end varmq

namespace varmq
variable {T R : Type}

/-- What `Result()` gives late readers: on a job whose result channel
is open and empty, after one `SaveAndSendResult(r)` (a buffer of at least one
given) and the closing of the channel, the first call of `Result()` and every
later one return (r, nil); after one `SaveAndSendError(e)` they return
(zero value, e); and when the channel is closed with no value sent, every
call returns the retained `Output`, which is (zero value, nil) for a job that
`newJob` made. -/
theorem Result_late_readers [Inhabited R] (j : job T R) (c : Chan (Result R))
    (hch : j.resultChannel.ch = some c) (hopen : c.closed = false) (hempty : c.buf = []) :
    (0 < c.cap → ∀ r : R, ∃ j1 j2 j3,
      j.SaveAndSendResult r = .ok j1 ∧ j1.CloseResultChannel = .ok j2 ∧
      ∀ n, j2.ResultN (n + 1) = .ok (List.replicate (n + 1) (r, none), j3)) ∧
    (0 < c.cap → ∀ e : Option Error, ∃ j1 j2 j3,
      j.SaveAndSendError e = .ok j1 ∧ j1.CloseResultChannel = .ok j2 ∧
      ∀ n, j2.ResultN (n + 1) = .ok (List.replicate (n + 1) (default, e), j3)) ∧
    (∃ j2, j.CloseResultChannel = .ok j2 ∧
      ∀ n, j2.ResultN n = .ok (List.replicate n (j.Output.Data, j.Output.Err), j2)) ∧
    (∀ (data : T) (configs : jobConfigs), ∃ j2,
      (newJob data configs : job T R).CloseResultChannel = .ok j2 ∧
      ∀ n, j2.ResultN n = .ok (List.replicate n (default, none), j2)) := by
  have send : ∀ res : Result R, 0 < c.cap →
      ∃ j1 j2 j3,
        (({ j with Output := res } : job T R).resultChannel.Send res).map
          (fun rc => ({ j with Output := res, resultChannel := rc } : job T R)) = .ok j1 ∧
        j1.CloseResultChannel = .ok j2 ∧
        ∀ n, j2.ResultN (n + 1) = .ok (List.replicate (n + 1) (res.Data, res.Err), j3) := by
    intro res hcap
    have hlt : c.buf.length < c.cap := by rw [hempty]; exact hcap
    refine ⟨{ j with
        Output := res
        resultChannel := { j.resultChannel with ch := some { c with buf := c.buf ++ [res] } } },
      { j with
        Output := res
        resultChannel :=
          { j.resultChannel with ch := some { c with buf := c.buf ++ [res], closed := true } } },
      { j with
        Output := res
        resultChannel :=
          { j.resultChannel with ch := some { c with buf := [], closed := true } } },
      ?_, ?_, ?_⟩
    · simp [ResultController.Send, hch, chanSend, hopen, hlt, Outcome.map]
    · simp [job.CloseResultChannel, ResultController.Close, chanClose, hopen, Outcome.map]
    · intro n
      exact ResultN_after_send _ { c with buf := c.buf ++ [res], closed := true } res rfl rfl
        (by simp [hempty]) rfl n
  refine ⟨?_, ?_, ?_, ?_⟩
  · intro hcap r
    exact send { JobId := j.id, Data := r, Err := none } hcap
  · intro hcap e
    exact send { JobId := j.id, Data := default, Err := e } hcap
  · refine ⟨{ j with resultChannel := { j.resultChannel with ch := some { c with closed := true } } },
      ?_, ?_⟩
    · simp [job.CloseResultChannel, ResultController.Close, hch, chanClose, hopen, Outcome.map]
    · intro n
      exact ResultN_closed_empty _ { c with closed := true } rfl rfl hempty n
  · intro data configs
    refine ⟨{ (newJob data configs : job T R) with
        resultChannel := { (newResultController 1 : ResultController R) with
          ch := some { buf := [], cap := 1, closed := true } } }, rfl, ?_⟩
    intro n
    exact ResultN_closed_empty _ { buf := [], cap := 1, closed := true } rfl rfl rfl n

/-- A job made by `newJob`, result 14, three calls of `Result()`. -/
theorem Result_late_readers_example :
    ∃ j1 j2 j3, (newJob 7 { Id := "a" } : job Nat Nat).SaveAndSendResult 14 = .ok j1 ∧
      j1.CloseResultChannel = .ok j2 ∧
      j2.ResultN 3 = .ok ([(14, none), (14, none), (14, none)], j3) := by
  obtain ⟨j1, j2, j3, h1, h2, h3⟩ :=
    (Result_late_readers (newJob 7 { Id := "a" } : job Nat Nat) (Chan.make 1) rfl rfl rfl).1
      (by decide) 14
  exact ⟨j1, j2, j3, h1, h2, h3 2⟩

/-- C7 at its failing input: the job that `parseToJob` rebuilds from the
serialised form of a finished job retains the output 14 of its view; when its
result channel is closed with no value sent, `Result()` returns (14, nil),
which is not the (zero value, nil) that the claim and the comment of `Result`
give for a channel closed without a value. -/
theorem C7_result_closed_without_value :
    parseToJob exampleCodec [1, 97, 8, 70, 105, 110, 105, 115, 104, 101, 100, 7, 1, 97, 14, 0]
      = .ok exampleRebuiltJob ∧
    exampleRebuiltJob.resultChannel.ch = some { buf := [], cap := 1, closed := false } ∧
    exampleRebuiltJob.CloseResultChannel = .ok { exampleRebuiltJob with
      resultChannel := { exampleRebuiltJob.resultChannel with
        ch := some { buf := [], cap := 1, closed := true } } } ∧
    ({ exampleRebuiltJob with
      resultChannel := { exampleRebuiltJob.resultChannel with
        ch := some { buf := [], cap := 1, closed := true } } } : job Nat Nat).Result
      = .ok ((14, none), { exampleRebuiltJob with
          resultChannel := { exampleRebuiltJob.resultChannel with
            ch := some { buf := [], cap := 1, closed := true } } }) ∧
    ((14, none) : Nat × Option Error) ≠ (default, none) :=
  ⟨rfl, rfl, rfl, rfl, by decide⟩

theorem Status_parse (j : job T R) (hs : j.status ≤ 4) :
    (j.status = created ∧ j.Status = "Created") ∨ (j.status = queued ∧ j.Status = "Queued") ∨
    (j.status = processing ∧ j.Status = "Processing") ∨
    (j.status = finished ∧ j.Status = "Finished") ∨ (j.status = closed ∧ j.Status = "Closed") := by
  have h : j.status = 0 ∨ j.status = 1 ∨ j.status = 2 ∨ j.status = 3 ∨ j.status = 4 := by omega
  rcases h with h | h | h | h | h <;> simp [job.Status, h]

/-- What `parseToJob` does with the view that `json.Unmarshal` returns: when
the view is that of a job whose status is one of the five, it yields a job
with the same id, status, Input and Output and a fresh result channel; when
the view has a status name outside the five, it fails with the invalid-status
error, as it does for the name "Unknown" that `Json` writes for a status
outside the five. -/
theorem parseToJob_of_view [Inhabited R] (codec : JsonCodec T R) (j : job T R) (data : List Nat)
    (hu : codec.Unmarshal data = .ok j.toView) :
    (j.status ≤ 4 → ∃ j1, parseToJob codec data = .ok j1 ∧
      j1.id = j.id ∧ j1.status = j.status ∧ j1.Input = j.Input ∧ j1.Output = j.Output ∧
      j1.resultChannel = newResultController 1) ∧
    (4 < j.status → parseToJob codec data = .error (.invalidStatus "Unknown")) ∧
    (∀ (bytes : List Nat) (view : jobView T R), codec.Unmarshal bytes = .ok view →
      view.Status ≠ "Created" → view.Status ≠ "Queued" → view.Status ≠ "Processing" →
      view.Status ≠ "Finished" → view.Status ≠ "Closed" →
      parseToJob codec bytes = .error (.invalidStatus view.Status)) := by
  refine ⟨?_, ?_, ?_⟩
  · intro hs
    have hview : j.toView.Status = j.Status := rfl
    refine ⟨{ j with resultChannel := newResultController 1, queue := .nil, ackId := "" },
      ?_, rfl, rfl, rfl, rfl, rfl⟩
    rcases Status_parse j hs with h | h | h | h | h <;>
      simp [parseToJob, hu, hview, h.2, h.1, job.toView, job.ID]
  · intro hs
    have hst : j.Status = "Unknown" := by
      have h0 : j.status ≠ 0 := by omega
      have h1 : j.status ≠ 1 := by omega
      have h2 : j.status ≠ 2 := by omega
      have h3 : j.status ≠ 3 := by omega
      have h4 : j.status ≠ 4 := by omega
      simp [job.Status, h0, h1, h2, h3, h4]
    have hview : j.toView.Status = "Unknown" := hst
    simp only [parseToJob, hu, hview]
    rfl
  · intro bytes view hb h1 h2 h3 h4 h5
    simp only [parseToJob, hb, h1, h2, h3, h4, h5, if_false]

/-- A view read by `json.Unmarshal` carries no error. -/
theorem Unmarshal_nil_error (codec : JsonCodec T R) (data : List Nat) (view : jobView T R)
    (h : codec.Unmarshal data = .ok view) : view.Output.Err = none := by
  unfold JsonCodec.Unmarshal at h
  cases hd : codec.Decode data with
  | error e => rw [hd] at h; cases h
  | ok f =>
    rw [hd] at h
    simp only at h
    by_cases hn : f.ErrIsNull = true
    · rw [if_pos hn] at h
      cases h
      rfl
    · rw [if_neg hn] at h
      cases h

/-- A job rebuilt by `parseToJob` carries no error in its `Output`. -/
theorem parseToJob_nil_error [Inhabited R] (codec : JsonCodec T R) (data : List Nat)
    (j1 : job T R) (h : parseToJob codec data = .ok j1) : j1.Output.Err = none := by
  unfold parseToJob at h
  cases hu : codec.Unmarshal data with
  | error e => rw [hu] at h; cases h
  | ok view =>
    have hv := Unmarshal_nil_error codec data view hu
    rw [hu] at h
    simp only at h
    split_ifs at h <;> cases h <;> exact hv

/-- C8 at its failing input: the job "a" made by `newJob`, marked Processing,
given the error "boom" by `SaveAndSendError` and marked Finished has one of
the five statuses; `Json()` succeeds on it and `parseToJob` fails on the
bytes written, with the parse error that wraps the error of `json.Unmarshal`;
and whatever the library reads and writes, no job that `parseToJob` returns
has the `Output` of this job. -/
theorem C8_round_trip_error_output :
    (((newJob 7 { Id := "a" } : job Nat Nat).ChangeStatus processing).SaveAndSendError
        (some (.other "boom")) = .ok (exampleFailedJob.ChangeStatus processing) ∧
      (exampleFailedJob.ChangeStatus processing).ChangeStatus finished = exampleFailedJob ∧
      exampleFailedJob.Status = "Finished") ∧
    exampleFailedJob.Json exampleCodec
      = .ok [1, 97, 8, 70, 105, 110, 105, 115, 104, 101, 100, 7, 1, 97, 0, 1] ∧
    (parseToJob exampleCodec [1, 97, 8, 70, 105, 110, 105, 115, 104, 101, 100, 7, 1, 97, 0, 1]
        : Except Error (job Nat Nat))
      = .error (.parseFailed unmarshalTypeError) ∧
    (∀ (codec : JsonCodec Nat Nat) (data : List Nat) (j1 : job Nat Nat),
      parseToJob codec data = .ok j1 → j1.Output ≠ exampleFailedJob.Output) := by
  refine ⟨⟨rfl, rfl, rfl⟩, rfl, rfl, ?_⟩
  intro codec data j1 h he
  have h1 := parseToJob_nil_error codec data j1 h
  rw [he] at h1
  cases h1

/-- C9 (`Ack`): `Ack()` returns nil exactly when the ack id is non-empty, the
job is not closed, its queue implements `IAcknowledgeable` and `Acknowledge`
answers true for the ack id; when the first three conditions hold,
`Acknowledge` is called once, with the ack id of the job, and `Ack()` fails
with the ack-rejected error if the answer is false; when they do not all
hold, `Acknowledge` is not called and `Ack()` fails with the
not-acknowledgeable error. -/
theorem C9_ack (j : job T R) (q : IAcknowledgeable) :
    ((j.Ack q).1 = none ↔
      (j.ackId ≠ "" ∧ j.IsClosed = false ∧ j.queue = .acknowledgeable ∧
        (q.Acknowledge j.ackId).1 = true)) ∧
    ((j.ackId ≠ "" ∧ j.IsClosed = false ∧ j.queue = .acknowledgeable) →
      (j.Ack q).2 = (q.Acknowledge j.ackId).2 ∧
      (j.Ack q).2.calls = q.calls ++ [j.ackId] ∧
      ((q.Acknowledge j.ackId).1 = false → (j.Ack q).1 = some (.ackRejected j.id j.ackId))) ∧
    (¬ (j.ackId ≠ "" ∧ j.IsClosed = false ∧ j.queue = .acknowledgeable) →
      (j.Ack q).2 = q ∧ (j.Ack q).1 = some .notAcknowledgeable) := by
  by_cases h1 : j.ackId = ""
  · simp [job.Ack, h1]
  · cases h2 : j.IsClosed with
    | true => simp [job.Ack, h1, h2]
    | false =>
      cases h3 : j.queue with
      | nil => simp [job.Ack, h1, h2, h3]
      | base => simp [job.Ack, h1, h2, h3]
      | acknowledgeable =>
        cases h4 : q.answer q.calls j.ackId with
        | true => simp [job.Ack, h1, h2, h3, h4, IAcknowledgeable.Acknowledge]
        | false => simp [job.Ack, h1, h2, h3, h4, IAcknowledgeable.Acknowledge]

end varmq

namespace concurrent_queue
variable {T R : Type}

theorem resumeLoop_frame (fuel : Nat) (q : ConcurrentQueue T R) :
    (resumeLoop fuel q).Concurrency = q.Concurrency ∧
    (resumeLoop fuel q).isPaused = q.isPaused ∧
    (resumeLoop fuel q).ChannelsStack = q.ChannelsStack ∧
    (resumeLoop fuel q).workers = q.workers ∧
    (resumeLoop fuel q).purged = q.purged := by
  induction fuel generalizing q with
  | zero => simp [resumeLoop]
  | succ n ih =>
    rw [resumeLoop]
    split
    · obtain ⟨a1, a2, a3, a4, a5⟩ := ih (processNextJob q)
      obtain ⟨b1, b2, b3, b4, b5⟩ := processNextJobAux_frame (q.JobQueue.Len + 1) q
      exact ⟨a1.trans b1, a2.trans b2, a3.trans b3, a4.trans b4, a5.trans b5⟩
    · exact ⟨rfl, rfl, rfl, rfl, rfl⟩

theorem step_slot (q q1 : ConcurrentQueue T R) (e : Step T R) (h : SlotInv q)
    (hs : step q e = .ok q1) : SlotInv q1 := by
  unfold SlotInv at h ⊢
  cases e with
  | AddJob j =>
    simp only [step, Outcome.ok.injEq] at hs
    subst hs
    unfold AddJob
    simp only
    split
    · obtain ⟨b1, _, b3, b4, _⟩ := processNextJobAux_frame
        (({ q with
          wg := q.wg + 1
          JobQueue := queue.Queue.Enqueue q.JobQueue
            { Value := j.ChangeStatus .Queued, Priority := 0, Index := 0 } } :
          ConcurrentQueue T R).JobQueue.Len + 1)
        ({ q with
          wg := q.wg + 1
          JobQueue := queue.Queue.Enqueue q.JobQueue
            { Value := j.ChangeStatus .Queued, Priority := 0, Index := 0 } } : ConcurrentQueue T R)
      unfold processNextJob
      rw [b1, b3, b4]
      exact h
    · exact h
  | Pause =>
    simp only [step, Outcome.ok.injEq] at hs
    subst hs
    exact h
  | Resume =>
    simp only [step, Outcome.ok.injEq] at hs
    subst hs
    obtain ⟨b1, _, b3, b4, _⟩ := resumeLoop_frame
      ({ q with isPaused := false } : ConcurrentQueue T R).JobQueue.Len
      ({ q with isPaused := false } : ConcurrentQueue T R)
    unfold Resume
    simp only
    rw [b1, b3, b4]
    exact h
  | Purge =>
    simp only [step, Purge] at hs
    cases hp : purgeLoop q.JobQueue.Values with
    | ok js =>
      rw [hp] at hs
      simp only [Outcome.map, Outcome.ok.injEq] at hs
      subst hs
      exact h
    | blocks => rw [hp] at hs; simp [Outcome.map] at hs
    | panic p => rw [hp] at hs; simp [Outcome.map] at hs
  | pick i =>
    simp only [step] at hs
    cases hj : q.senders.get? i with
    | none => rw [hj] at hs; simp at hs
    | some j =>
      rw [hj] at hs
      simp only [pickNextChannel] at hs
      cases hc : q.ChannelsStack.get? (q.ChannelsStack.length - 1) with
      | none => rw [hc] at hs; simp [Outcome.map] at hs
      | some c =>
        rw [hc] at hs
        by_cases hl : q.ChannelsStack.length = 0
        · simp [hl, Outcome.map] at hs
        · simp only [hl, if_false, Outcome.map, Outcome.ok.injEq] at hs
          subst hs
          show (q.ChannelsStack.take (q.ChannelsStack.length - 1)).length
            + (q.workers ++ [(c, j)]).length = q.Concurrency
          rw [List.length_take, List.length_append, List.length_singleton]
          omega
  | complete i =>
    simp only [step] at hs
    cases hw : q.workers.get? i with
    | none => rw [hw] at hs; simp at hs
    | some w =>
      obtain ⟨c, j⟩ := w
      rw [hw] at hs
      simp only [Outcome.ok.injEq] at hs
      subst hs
      have hi : i < q.workers.length := by
        rw [List.get?_eq_some] at hw
        exact hw.1
      have h2 : (q.ChannelsStack ++ [c]).length + (q.workers.eraseIdx i).length
          = q.Concurrency := by
        rw [List.length_append, List.length_singleton, List.length_eraseIdx, if_pos hi]
        omega
      unfold workerDone
      simp only
      split
      · obtain ⟨b1, _, b3, b4, _⟩ := processNextJobAux_frame
          (({ q with
            workers := q.workers.eraseIdx i
            ChannelsStack := q.ChannelsStack ++ [c]
            curProcessing := (q.curProcessing + (uint32Size - 1)) % uint32Size
            wg := q.wg - 1 } : ConcurrentQueue T R).JobQueue.Len + 1)
          ({ q with
            workers := q.workers.eraseIdx i
            ChannelsStack := q.ChannelsStack ++ [c]
            curProcessing := (q.curProcessing + (uint32Size - 1)) % uint32Size
            wg := q.wg - 1 } : ConcurrentQueue T R)
        unfold processNextJob
        rw [b1, b3, b4]
        exact h2
      · exact h2
  | closeJob i =>
    simp only [step] at hs
    cases hj : q.JobQueue.get? i with
    | none => rw [hj] at hs; simp at hs
    | some j =>
      rw [hj] at hs
      simp only at hs
      cases hc : Job.Close j with
      | ok r =>
        rw [hc] at hs
        simp only [Outcome.map, Outcome.ok.injEq] at hs
        subst hs
        exact h
      | blocks => rw [hc] at hs; simp [Outcome.map] at hs
      | panic p => rw [hc] at hs; simp [Outcome.map] at hs

theorem run_slot (steps : List (Step T R)) (q q1 : ConcurrentQueue T R) (h : SlotInv q)
    (hr : run q steps = .ok q1) : SlotInv q1 := by
  induction steps generalizing q with
  | nil =>
    simp only [run, Outcome.ok.injEq] at hr
    subst hr
    exact h
  | cons e rest ih =>
    simp only [run] at hr
    cases hs : step q e with
    | ok q2 =>
      rw [hs] at hr
      simp only [Outcome.bind] at hr
      exact ih q2 (step_slot q q2 e h hs) hr
    | blocks => rw [hs] at hr; simp [Outcome.bind] at hr
    | panic p => rw [hs] at hr; simp [Outcome.bind] at hr

theorem reachable_slot (N : Nat) (steps : List (Step T R))
    (q0 q : ConcurrentQueue T R) (h0 : NewQueue N = .ok q0) (hr : run q0 steps = .ok q) :
    SlotInv q := by
  apply run_slot steps q0 q _ hr
  rw [NewQueue_eq] at h0
  simp only [Outcome.ok.injEq] at h0
  subst h0
  simp [SlotInv]

/-- C15 (idle-slot accounting): in every state reached from `NewQueue N`, the
slots on the stack and the slots picked and not yet returned (those of the
workers that hold a job) are `N` together, and the sender goroutines whose
pick is still pending are no more than the slots on the stack; hence, for
every pending sender, the stack is not empty, the index `l-1` of
`pickNextChannel` is in range, `pickNextChannel` returns the last slot and
the pick step hands the job of the sender to the worker of that slot. -/
theorem C15_idle_slot_accounting (N : Nat) (hN : N < uint32Size) (steps : List (Step T R))
    (q0 q : ConcurrentQueue T R) (h0 : NewQueue N = .ok q0) (hr : run q0 steps = .ok q) :
    q.ChannelsStack.length + q.workers.length = N ∧
    q.senders.length ≤ q.ChannelsStack.length ∧
    (∀ i j, q.senders.get? i = some j →
      q.ChannelsStack.length - 1 < q.ChannelsStack.length ∧
      ∃ channel, q.ChannelsStack.get? (q.ChannelsStack.length - 1) = some channel ∧
        pickNextChannel q = .ok (channel,
          { q with ChannelsStack := q.ChannelsStack.take (q.ChannelsStack.length - 1) }) ∧
        step q (.pick i) = .ok { q with
          ChannelsStack := q.ChannelsStack.take (q.ChannelsStack.length - 1)
          senders := q.senders.eraseIdx i
          workers := q.workers ++ [(channel, j)] }) := by
  obtain ⟨⟨h1, h2, _⟩, _, hc⟩ := reachable_inv N hN steps q0 q h0 hr
  have hslot : q.ChannelsStack.length + q.workers.length = q.Concurrency :=
    reachable_slot N steps q0 q h0 hr
  have hle : q.senders.length ≤ q.ChannelsStack.length := by omega
  refine ⟨hslot.trans hc, hle, ?_⟩
  intro i j hj
  have hi : i < q.senders.length := by
    rw [List.get?_eq_some] at hj
    exact hj.1
  have hpos : 0 < q.ChannelsStack.length := by omega
  have hlt : q.ChannelsStack.length - 1 < q.ChannelsStack.length := by omega
  refine ⟨hlt, q.ChannelsStack.get ⟨_, hlt⟩, List.get?_eq_get hlt, ?_, ?_⟩
  · simp only [pickNextChannel, List.get?_eq_get hlt]
    rw [if_neg (by omega)]
  · simp only [step, hj, pickNextChannel, List.get?_eq_get hlt]
    rw [if_neg (by omega)]
    rfl

/-- Witness of C15: in `exampleLoaded` the sender of job 1 finds slot 0 on the
stack. -/
theorem C15_idle_slot_accounting_witness :
    (1 < uint32Size) ∧
    run exampleStart exampleSubmit = .ok exampleLoaded ∧
    exampleLoaded.ChannelsStack.length + exampleLoaded.workers.length = 1 ∧
    exampleLoaded.senders.length ≤ exampleLoaded.ChannelsStack.length :=
  ⟨by decide, by decide,
    (C15_idle_slot_accounting 1 (by decide) exampleSubmit exampleStart exampleLoaded
      (by decide) (by decide)).1,
    (C15_idle_slot_accounting 1 (by decide) exampleSubmit exampleStart exampleLoaded
      (by decide) (by decide)).2.1⟩

end concurrent_queue

namespace concurrent_queue
variable {T R : Type}

theorem closed_split (l : List (Job T R)) :
    ∃ cl, (∀ j ∈ cl, j.IsClosed = true) ∧
      (l = cl ∨ ∃ j rest, l = cl ++ j :: rest ∧ j.IsClosed = false) := by
  induction l with
  | nil => exact ⟨[], by simp, Or.inl rfl⟩
  | cons a t ih =>
    by_cases ha : a.IsClosed = true
    · obtain ⟨cl, hcl, h⟩ := ih
      refine ⟨a :: cl, ?_, ?_⟩
      · intro j hj
        rcases List.mem_cons.1 hj with hj | hj
        · rw [hj]; exact ha
        · exact hcl j hj
      · rcases h with h | ⟨j, rest, h, hj⟩
        · exact Or.inl (by rw [h])
        · exact Or.inr ⟨j, rest, by rw [h]; rfl, hj⟩
    · exact ⟨[], by simp, Or.inr ⟨a, t, rfl, by simpa using ha⟩⟩

theorem afterDispatch_nil (k : Nat) : afterDispatch k ([] : List (Job T R)) = [] := by
  cases k <;> rfl

theorem discardedClosed_nil (k : Nat) : discardedClosed k ([] : List (Job T R)) = 0 := by
  cases k <;> rfl

theorem openJobs_closed (cl : List (Job T R)) (hcl : ∀ j ∈ cl, j.IsClosed = true) :
    openJobs cl = [] := by
  unfold openJobs
  rw [List.filter_eq_nil_iff]
  intro j hj
  simp [hcl j hj]

theorem openJobs_split (cl rest : List (Job T R)) (j : Job T R)
    (hcl : ∀ x ∈ cl, x.IsClosed = true) (hj : j.IsClosed = false) :
    openJobs (cl ++ j :: rest) = j :: openJobs rest := by
  have h := openJobs_closed cl hcl
  unfold openJobs at h ⊢
  rw [List.filter_append, h, List.nil_append, List.filter_cons]
  simp [hj]

theorem afterDispatch_closed (k : Nat) (cl : List (Job T R))
    (hcl : ∀ j ∈ cl, j.IsClosed = true) :
    afterDispatch (k + 1) cl = [] ∧ discardedClosed (k + 1) cl = cl.length := by
  induction cl with
  | nil => exact ⟨rfl, rfl⟩
  | cons a t ih =>
    have ha := hcl a (List.mem_cons_self _ _)
    obtain ⟨h1, h2⟩ := ih (fun x hx => hcl x (List.mem_cons_of_mem _ hx))
    simp [afterDispatch, discardedClosed, ha, h1, h2]

theorem afterDispatch_split (k : Nat) (cl rest : List (Job T R)) (j : Job T R)
    (hcl : ∀ x ∈ cl, x.IsClosed = true) (hj : j.IsClosed = false) :
    afterDispatch (k + 1) (cl ++ j :: rest) = afterDispatch k rest ∧
    discardedClosed (k + 1) (cl ++ j :: rest) = discardedClosed k rest + cl.length := by
  induction cl with
  | nil => simp [afterDispatch, discardedClosed, hj]
  | cons a t ih =>
    have ha := hcl a (List.mem_cons_self _ _)
    obtain ⟨h1, h2⟩ := ih (fun x hx => hcl x (List.mem_cons_of_mem _ hx))
    have e : (a :: t) ++ j :: rest = a :: (t ++ j :: rest) := rfl
    rw [e]
    refine ⟨?_, ?_⟩
    · simp only [afterDispatch, ha, if_true]
      exact h1
    · simp only [discardedClosed, ha, if_true, List.length_cons]
      omega

theorem resumeLoop_empty (fuel : Nat) (q : ConcurrentQueue T R) (h : q.JobQueue = []) :
    resumeLoop fuel q = q := by
  cases fuel with
  | zero => rfl
  | succ n =>
    rw [resumeLoop]
    simp [shouldProcessNextJob, queue.Queue.Len, h]

/-- What the loop of `Resume` does, given enough iterations. -/
theorem resumeLoop_spec (fuel : Nat) (q : ConcurrentQueue T R)
    (hf : q.JobQueue.length ≤ fuel) (hc : q.curProcessing ≤ q.Concurrency)
    (hN : q.Concurrency < uint32Size) :
    (resumeLoop fuel q).senders = q.senders ++
      ((openJobs q.JobQueue).take (q.Concurrency - q.curProcessing)).map
        (fun j => j.ChangeStatus .Processing) ∧
    (resumeLoop fuel q).curProcessing = q.curProcessing +
      min (q.Concurrency - q.curProcessing) (openJobs q.JobQueue).length ∧
    (resumeLoop fuel q).JobQueue = afterDispatch (q.Concurrency - q.curProcessing) q.JobQueue ∧
    (resumeLoop fuel q).wg = q.wg -
      (discardedClosed (q.Concurrency - q.curProcessing) q.JobQueue : Int) := by
  induction fuel generalizing q with
  | zero =>
    have hl : q.JobQueue = [] := List.length_eq_zero.1 (Nat.le_zero.1 hf)
    simp [resumeLoop, hl, openJobs, afterDispatch_nil, discardedClosed_nil]
  | succ n ih =>
    by_cases hs : shouldProcessNextJob q "resume" = true
    · rw [resumeLoop, if_pos hs]
      simp only [shouldProcessNextJob, queue.Queue.Len] at hs
      simp only [String.reduceEq, if_false, if_true, Bool.and_eq_true, decide_eq_true_eq] at hs
      obtain ⟨hlt, hpos⟩ := hs
      obtain ⟨k, hk⟩ : ∃ k, q.Concurrency - q.curProcessing = k + 1 :=
        ⟨q.Concurrency - q.curProcessing - 1, by omega⟩
      obtain ⟨cl, hcl, hsplit⟩ := closed_split q.JobQueue
      rcases hsplit with hall | ⟨j, rest, hjr, hj⟩
      · rw [(processNextJob_skips_closed cl hcl q).2 hall, resumeLoop_empty _ _ rfl]
        rw [hk, hall, openJobs_closed cl hcl, (afterDispatch_closed k cl hcl).1,
          (afterDispatch_closed k cl hcl).2]
        simp
      · rw [(processNextJob_skips_closed cl hcl q).1 j rest hjr hj]
        have hmod : (q.curProcessing + 1) % uint32Size = q.curProcessing + 1 :=
          Nat.mod_eq_of_lt (by omega)
        have hlen : rest.length ≤ n := by
          rw [hjr, List.length_append, List.length_cons] at hf
          omega
        obtain ⟨i1, i2, i3, i4⟩ := ih
          ({ q with
            JobQueue := rest
            wg := q.wg - (cl.length : Int)
            curProcessing := (q.curProcessing + 1) % uint32Size
            senders := q.senders ++ [j.ChangeStatus .Processing] } : ConcurrentQueue T R)
          hlen (by show (q.curProcessing + 1) % uint32Size ≤ q.Concurrency; rw [hmod]; omega) hN
        simp only [hmod] at i1 i2 i3 i4 ⊢
        have hk1 : q.Concurrency - (q.curProcessing + 1) = k := by omega
        rw [hk1] at i1 i2 i3 i4
        rw [i1, i2, i3, i4, hk, hjr, openJobs_split cl rest j hcl hj,
          (afterDispatch_split k cl rest j hcl hj).1, (afterDispatch_split k cl rest j hcl hj).2]
        refine ⟨by simp, ?_, rfl, ?_⟩
        · simp only [List.length_cons]
          omega
        · push_cast
          omega
    · rw [resumeLoop, if_neg hs]
      simp only [shouldProcessNextJob, queue.Queue.Len] at hs
      simp only [String.reduceEq, if_false, if_true, Bool.and_eq_true, decide_eq_true_eq,
        not_and_or, not_lt] at hs
      rcases hs with hs | hs
      · have h0 : q.Concurrency - q.curProcessing = 0 := by omega
        simp [h0, afterDispatch, discardedClosed]
      · have hl : q.JobQueue = [] := List.length_eq_zero.1 (by omega)
        simp [hl, openJobs, afterDispatch_nil, discardedClosed_nil]

end concurrent_queue

namespace concurrent_queue
variable {T R : Type}

/-- C11 (Resume dispatches greedily): in every state with
`curProcessing = c ≤ Concurrency = N` (a `uint32`), `Resume` clears
`isPaused` and hands over, in status Processing and in queue order, the first
`min (N - c) m` of the `m` jobs of the queue that are not closed, and no other
job; `curProcessing` grows by that number; afterwards `curProcessing = N` or
the queue is empty.  The queue left is what follows the last job handed over
(nothing when fewer than `N - c` open jobs were waiting), and one wait-group
tick is released for every closed job dequeued on the way. -/
theorem C11_resume_greedy (q : ConcurrentQueue T R) (hc : q.curProcessing ≤ q.Concurrency)
    (hN : q.Concurrency < uint32Size) :
    (Resume q).isPaused = false ∧
    (Resume q).senders = q.senders ++
      ((openJobs q.JobQueue).take (q.Concurrency - q.curProcessing)).map
        (fun j => j.ChangeStatus .Processing) ∧
    ((openJobs q.JobQueue).take (q.Concurrency - q.curProcessing)).length =
      min (q.Concurrency - q.curProcessing) (openJobs q.JobQueue).length ∧
    (Resume q).curProcessing = q.curProcessing +
      min (q.Concurrency - q.curProcessing) (openJobs q.JobQueue).length ∧
    ((Resume q).curProcessing = q.Concurrency ∨ (Resume q).JobQueue = []) ∧
    (Resume q).JobQueue = afterDispatch (q.Concurrency - q.curProcessing) q.JobQueue ∧
    (Resume q).wg = q.wg - (discardedClosed (q.Concurrency - q.curProcessing) q.JobQueue : Int) ∧
    (Resume q).Concurrency = q.Concurrency ∧
    (Resume q).ChannelsStack = q.ChannelsStack ∧
    (Resume q).workers = q.workers := by
  obtain ⟨h1, h2, h3, h4⟩ := resumeLoop_spec
    ({ q with isPaused := false } : ConcurrentQueue T R).JobQueue.Len
    ({ q with isPaused := false } : ConcurrentQueue T R) (Nat.le_refl _) hc hN
  obtain ⟨f1, _, f3, f4, _⟩ := resumeLoop_frame
    ({ q with isPaused := false } : ConcurrentQueue T R).JobQueue.Len
    ({ q with isPaused := false } : ConcurrentQueue T R)
  obtain ⟨hdone, hpause⟩ := Resume_done q
  refine ⟨hpause, h1, List.length_take _ _, h2, ?_, h3, h4, f1, f3, f4⟩
  have hcur : (Resume q).curProcessing = q.curProcessing +
      min (q.Concurrency - q.curProcessing) (openJobs q.JobQueue).length := h2
  have hconc : (Resume q).Concurrency = q.Concurrency := f1
  simp only [shouldProcessNextJob, queue.Queue.Len] at hdone
  simp only [String.reduceEq, if_false, if_true, Bool.and_eq_false_iff, decide_eq_false_iff_not,
    not_lt] at hdone
  rcases hdone with hd | hd
  · left
    rw [hconc] at hd
    omega
  · right
    exact List.length_eq_zero.1 (by omega)

/-- Witness of C11: `Resume` in the paused state in which the slot is free and
the closed job 2 and job 3 wait. -/
theorem C11_resume_greedy_witness :
    ({ exampleIdle with isPaused := true } : ConcurrentQueue Nat Nat).curProcessing
      ≤ ({ exampleIdle with isPaused := true } : ConcurrentQueue Nat Nat).Concurrency ∧
    (Resume ({ exampleIdle with isPaused := true } : ConcurrentQueue Nat Nat)).senders
      = [(exampleJob 3).ChangeStatus .Processing] ∧
    Resume ({ exampleIdle with isPaused := true } : ConcurrentQueue Nat Nat) = exampleResumed :=
  ⟨by decide,
    (C11_resume_greedy ({ exampleIdle with isPaused := true } : ConcurrentQueue Nat Nat)
      (by decide) (by decide)).2.1.trans (by decide),
    by decide⟩

end concurrent_queue

namespace concurrent_queue
variable {T R : Type}

theorem sendErr_ok (j : Job T R) (ce : Chan (Option String)) (err : Option String)
    (he : j.ResultChannel.Err = some ce) (heo : ce.closed = false)
    (her : ce.buf.length < ce.cap) :
    j.sendErr err = .ok { j with
      ResultChannel := { j.ResultChannel with Err := some { ce with buf := ce.buf ++ [err] } } } := by
  simp [Job.sendErr, he, chanSend, heo, her, Outcome.map]

theorem sendData_ok (j : Job T R) (cd : Chan R) (result : R)
    (hd : j.ResultChannel.Data = some cd) (hdo : cd.closed = false)
    (hdr : cd.buf.length < cd.cap) :
    j.sendData result = .ok { j with
      ResultChannel :=
        { j.ResultChannel with Data := some { cd with buf := cd.buf ++ [result] } } } := by
  simp [Job.sendData, hd, chanSend, hdo, hdr, Outcome.map]

/-- Closing of a finished job whose result channels are open or nil. -/
theorem Close_finished (j : Job T R)
    (hd : ∀ cd, j.ResultChannel.Data = some cd → cd.closed = false)
    (he : ∀ ce, j.ResultChannel.Err = some ce → ce.closed = false) :
    Job.Close (j.ChangeStatus .Finished) = .ok (false, j.closedJob) := by
  cases j with
  | mk data rc st =>
    cases rc with
    | mk d e =>
      cases d with
      | none =>
        cases e with
        | none => rfl
        | some ce =>
          have h := he ce rfl
          simp [Job.Close, Job.ChangeStatus, closeIfPresent, chanClose, h, Outcome.bind,
            Job.closedJob]
      | some cd =>
        have h1 := hd cd rfl
        cases e with
        | none =>
          simp [Job.Close, Job.ChangeStatus, closeIfPresent, chanClose, h1, Outcome.bind,
            Job.closedJob]
        | some ce =>
          have h := he ce rfl
          simp [Job.Close, Job.ChangeStatus, closeIfPresent, chanClose, h, h1, Outcome.bind,
            Job.closedJob]

theorem sendErr_iff (j j1 : Job T R) (v : Option String) :
    j.sendErr v = .ok j1 ↔ j.sentErr j1 v := by
  constructor
  · intro h
    cases he : j.ResultChannel.Err with
    | none => simp [Job.sendErr, he, chanSend, Outcome.map] at h
    | some ce =>
      cases ho : ce.closed with
      | true => simp [Job.sendErr, he, chanSend, ho, Outcome.map] at h
      | false =>
        by_cases hr : ce.buf.length < ce.cap
        · rw [sendErr_ok j ce v he ho hr] at h
          exact ⟨ce, he, ho, hr, (Outcome.ok.inj h).symm⟩
        · simp [Job.sendErr, he, chanSend, ho, hr, Outcome.map] at h
  · rintro ⟨ce, he, ho, hr, h⟩
    rw [h]
    exact sendErr_ok j ce v he ho hr

theorem sendData_iff (j j1 : Job T R) (v : R) :
    j.sendData v = .ok j1 ↔ j.sentData j1 v := by
  constructor
  · intro h
    cases hd : j.ResultChannel.Data with
    | none => simp [Job.sendData, hd, chanSend, Outcome.map] at h
    | some cd =>
      cases ho : cd.closed with
      | true => simp [Job.sendData, hd, chanSend, ho, Outcome.map] at h
      | false =>
        by_cases hr : cd.buf.length < cd.cap
        · rw [sendData_ok j cd v hd ho hr] at h
          exact ⟨cd, hd, ho, hr, (Outcome.ok.inj h).symm⟩
        · simp [Job.sendData, hd, chanSend, ho, hr, Outcome.map] at h
  · rintro ⟨cd, hd, ho, hr, h⟩
    rw [h]
    exact sendData_ok j cd v hd ho hr

theorem callWorker_iff (w : WorkerValue T R) (j j1 : Job T R) :
    callWorker w j = .ok j1 ↔ delivered w j j1 := by
  cases w with
  | VoidWorker worker => exact sendErr_iff j j1 _
  | other => exact sendErr_iff j j1 _
  | Worker worker =>
    unfold callWorker delivered
    simp only
    cases (worker j.Data).2 with
    | some e => exact sendErr_iff j j1 _
    | none => exact sendData_iff j j1 _

/-- C12, as amended (the executor delivers exactly one result per job whose
channel can take it): for every job and every worker value, the type switch
of `spawnWorker` returns exactly when the channel it sends on is there, open
and with room, and it has then sent
exactly one value and changed nothing else: the error of a void worker, nil
or not, on `Err`; the error of a value-returning worker on `Err` when it is
not nil and its data on `Data` otherwise; the unsupported-worker error on
`Err` when the worker is of no known kind.  Whenever the type switch has
returned on a job whose channels were nil or open, the job is then marked
Finished and closed: its status ends Closed and its channels closed, the
value sent still in the buffer. -/
theorem C12_exactly_one_result (j : Job T R) :
    (∀ (w : WorkerValue T R) (j1 : Job T R), callWorker w j = .ok j1 ↔ delivered w j j1) ∧
    (∀ ce : Chan (Option String), j.ResultChannel.Err = some ce → ce.closed = false →
      ce.buf.length < ce.cap →
      (∀ worker : T → Option String,
        callWorker (.VoidWorker worker) j = .ok { j with
          ResultChannel :=
            { j.ResultChannel with Err := some { ce with buf := ce.buf ++ [worker j.Data] } } }) ∧
      (∀ (worker : T → R × Option String) (e : String), (worker j.Data).2 = some e →
        callWorker (.Worker worker) j = .ok { j with
          ResultChannel :=
            { j.ResultChannel with Err := some { ce with buf := ce.buf ++ [some e] } } }) ∧
      (callWorker (.other : WorkerValue T R) j = .ok { j with
          ResultChannel :=
            { j.ResultChannel with
              Err := some { ce with buf := ce.buf ++ [some unsupportedWorker] } } })) ∧
    (∀ (worker : T → R × Option String) (cd : Chan R), (worker j.Data).2 = none →
      j.ResultChannel.Data = some cd → cd.closed = false → cd.buf.length < cd.cap →
      callWorker (.Worker worker) j = .ok { j with
        ResultChannel :=
          { j.ResultChannel with
            Data := some { cd with buf := cd.buf ++ [(worker j.Data).1] } } }) ∧
    (∀ (w : WorkerValue T R) (j1 : Job T R), callWorker w j = .ok j1 →
      (∀ cd, j.ResultChannel.Data = some cd → cd.closed = false) →
      (∀ ce, j.ResultChannel.Err = some ce → ce.closed = false) →
      j1.Status = j.Status ∧ j1.Data = j.Data ∧
      (j1.ChangeStatus .Finished).Status = .Finished ∧
      spawnWorkerJob w j = .ok j1.closedJob ∧ j1.closedJob.Status = .Closed) := by
  refine ⟨fun w j1 => callWorker_iff w j j1, ?_, ?_, ?_⟩
  · intro ce he heo her
    have herr : ∀ err : Option String, j.sendErr err = .ok { j with
        ResultChannel :=
          { j.ResultChannel with Err := some { ce with buf := ce.buf ++ [err] } } } :=
      fun err => sendErr_ok j ce err he heo her
    refine ⟨?_, ?_, ?_⟩
    · intro worker
      simp only [callWorker]
      exact herr _
    · intro worker e hw
      simp only [callWorker, hw]
      exact herr _
    · simp only [callWorker]
      exact herr _
  · intro worker cd hw hdc hdo hroom
    simp only [callWorker, hw]
    exact sendData_ok j cd _ hdc hdo hroom
  · intro w j1 hcall hd he
    have key : ∀ v, (j.sentErr j1 v ∨ ∃ r, j.sentData j1 r) →
        j1.Status = j.Status ∧ j1.Data = j.Data ∧
        (j1.ChangeStatus .Finished).Status = .Finished ∧
        spawnWorkerJob w j = .ok j1.closedJob ∧ j1.closedJob.Status = .Closed := by
      intro v hsent
      have hfacts : j1.Status = j.Status ∧ j1.Data = j.Data ∧
          (∀ cd, j1.ResultChannel.Data = some cd → cd.closed = false) ∧
          (∀ c, j1.ResultChannel.Err = some c → c.closed = false) := by
        rcases hsent with ⟨ce, hce, ho, _, h1⟩ | ⟨r, cd, hcd, ho, _, h1⟩
        · rw [h1]
          refine ⟨rfl, rfl, hd, ?_⟩
          intro c hc
          simp only [Option.some.injEq] at hc
          rw [← hc]
          exact ho
        · rw [h1]
          refine ⟨rfl, rfl, ?_, he⟩
          intro c hc
          simp only [Option.some.injEq] at hc
          rw [← hc]
          exact ho
      obtain ⟨f1, f2, f3, f4⟩ := hfacts
      refine ⟨f1, f2, rfl, ?_, rfl⟩
      simp only [spawnWorkerJob, hcall, Outcome.bind, Close_finished j1 f3 f4, Outcome.map]
    have hdel := (callWorker_iff w j j1).1 hcall
    cases w with
    | VoidWorker worker => exact key _ (Or.inl hdel)
    | other => exact key _ (Or.inl hdel)
    | Worker worker =>
      unfold delivered at hdel
      simp only at hdel
      cases hw : (worker j.Data).2 with
      | some e =>
        rw [hw] at hdel
        exact key _ (Or.inl hdel)
      | none =>
        rw [hw] at hdel
        exact key none (Or.inr ⟨_, hdel⟩)

/-- Witness of C12: job 1, dispatched, and a worker that doubles its input. -/
theorem C12_exactly_one_result_witness :
    ((exampleJob 1).ChangeStatus .Processing).ResultChannel.Data = some (Chan.make 1) ∧
    callWorker (.Worker fun n => (2 * n, none)) ((exampleJob 1).ChangeStatus .Processing)
      = .ok { (exampleJob 1).ChangeStatus .Processing with
          ResultChannel :=
            { Data := some { buf := [2], cap := 1, closed := false }
              Err := some (Chan.make 1) } } :=
  ⟨rfl, (C12_exactly_one_result ((exampleJob 1).ChangeStatus .Processing)).2.2.1
    (fun n => (2 * n, none)) (Chan.make 1) rfl rfl rfl (by decide)⟩

/-- Counterexample to C12 as stated: four dispatched jobs.  With a worker that
returns (2n, nil): on the job without a Data channel and on the job whose
Data channel already holds a value the send blocks, so that no value is sent
and the job is never marked Finished; on the job whose Data channel is closed
the send panics.  With a void worker that returns nil, on a job whose Data
channel is closed: the error is sent on Err and the job marked Finished, and
`Close` then panics on the closed channel. -/
theorem C12_exactly_one_result_counterexample :
    (callWorker (.Worker fun n => (2 * n, none)) ((exampleVoidJob 1).ChangeStatus .Processing)
        = .blocks ∧
      spawnWorkerJob (.Worker fun n => (2 * n, none)) ((exampleVoidJob 1).ChangeStatus .Processing)
        = .blocks ∧
      ¬ ∃ j1, spawnWorkerJob (.Worker fun n => (2 * n, none))
        ((exampleVoidJob 1).ChangeStatus .Processing) = .ok j1) ∧
    (spawnWorkerJob (.Worker fun n => (2 * n, none))
        ({ Data := 1
           ResultChannel :=
             { Data := some { buf := [5], cap := 1, closed := false }, Err := some (Chan.make 1) }
           Status := .Processing } : Job Nat Nat)
        = .blocks) ∧
    (spawnWorkerJob (.Worker fun n => (2 * n, none))
        ({ Data := 1
           ResultChannel :=
             { Data := some { buf := [], cap := 1, closed := true }, Err := some (Chan.make 1) }
           Status := .Processing } : Job Nat Nat)
        = .panic .sendOnClosedChannel) ∧
    (callWorker (.VoidWorker fun _ => none)
        ({ Data := 1
           ResultChannel :=
             { Data := some { buf := [], cap := 1, closed := true }, Err := some (Chan.make 1) }
           Status := .Processing } : Job Nat Nat)
        = .ok { Data := 1
                ResultChannel :=
                  { Data := some { buf := [], cap := 1, closed := true }
                    Err := some { buf := [none], cap := 1, closed := false } }
                Status := .Processing } ∧
      spawnWorkerJob (.VoidWorker fun _ => none)
        ({ Data := 1
           ResultChannel :=
             { Data := some { buf := [], cap := 1, closed := true }, Err := some (Chan.make 1) }
           Status := .Processing } : Job Nat Nat)
        = .panic .closeOfClosedChannel) := by
  refine ⟨⟨rfl, rfl, ?_⟩, rfl, rfl, rfl, rfl⟩
  rintro ⟨j1, h⟩
  have hb : spawnWorkerJob (.Worker fun n => (2 * n, none))
      ((exampleVoidJob 1).ChangeStatus .Processing) = .blocks := rfl
  rw [hb] at h
  cases h

end concurrent_queue

namespace varmq
variable {T R : Type}

/-- The first call of `Drain()` on a job whose result channel has not been
read returns nil and starts no goroutine. -/
theorem Drain_unread (j : job T R) (c : Chan (Result R)) (hch : j.resultChannel.ch = some c)
    (hcons : j.resultChannel.consumed = false) :
    j.Drain = (none, { j with resultChannel := { j.resultChannel with consumed := true } }, none) := by
  simp [job.Drain, ResultController.Read, hch, hcons]

/-- A call of `Drain()` on a job whose result channel has been read returns
nil and starts a goroutine that ranges over a nil channel. -/
theorem Drain_consumed (j : job T R) (hcons : j.resultChannel.consumed = true) :
    j.Drain = (none, j, some none) := by
  simp [job.Drain, ResultController.Read, hcons]

/-- C13 at its failing input: on the job `newJob(7, {Id: "a"})`, whose result
channel has not been read, the first call of `Drain()` returns nil, marks the
channel consumed and starts no goroutine; the result 14 sent to the job
afterwards stays in the buffer of the result channel; and a second call of
`Drain()` returns nil and starts a goroutine that ranges over a nil channel. -/
theorem C13_drain_starts_no_consumer :
    (newJob 7 { Id := "a" } : job Nat Nat).Drain
      = (none,
         { (newJob 7 { Id := "a" } : job Nat Nat) with
           resultChannel := { ch := some (Chan.make 1), consumed := true, Output := Result.zero } },
         none) ∧
    ({ (newJob 7 { Id := "a" } : job Nat Nat) with
        resultChannel := { ch := some (Chan.make 1), consumed := true, Output := Result.zero } }
      : job Nat Nat).SaveAndSendResult 14
      = .ok { (newJob 7 { Id := "a" } : job Nat Nat) with
          Output := { JobId := "a", Data := 14, Err := none }
          resultChannel :=
            { ch := some { buf := [{ JobId := "a", Data := 14, Err := none }], cap := 1,
                           closed := false }
              consumed := true
              Output := Result.zero } } ∧
    ({ (newJob 7 { Id := "a" } : job Nat Nat) with
        resultChannel := { ch := some (Chan.make 1), consumed := true, Output := Result.zero } }
      : job Nat Nat).Drain
      = (none,
         { (newJob 7 { Id := "a" } : job Nat Nat) with
           resultChannel := { ch := some (Chan.make 1), consumed := true, Output := Result.zero } },
         some none) := by
  decide

theorem Add_without_id [Inhabited R] (codec : JsonCodec T R) (q : persistentQueue T R)
    (data : T) (configs : jobConfigs) (hid : configs.Id = "") :
    q.Add codec data configs = .panic .explicitPanic := by
  simp [persistentQueue.Add, withRequiredJobId, hid, Outcome.bind]

theorem close_new [Inhabited R] (data : T) (configs : jobConfigs) (a : IAcknowledgeable) :
    (newJob data configs : job T R).close a = .ok (none,
      { (newJob data configs : job T R) with
        resultChannel :=
          { (newResultController 1 : ResultController R) with
            ch := some { buf := [], cap := 1, closed := true } }
        status := closed },
      a) := by
  rw [close_open (newJob data configs : job T R) a (Chan.make 1)
    (by show (0 : Nat) ≠ 2; decide) (by show (0 : Nat) ≠ 4; decide) rfl rfl]
  rfl

/-- What `postEnqueue` does to a job and to the id index. -/
theorem postEnqueue_index (wbq : persistentQueue T R) (j : job T R) :
    (wbq.postEnqueue j).1 = j.ChangeStatus queued ∧
    (j.id ≠ "" → (wbq.postEnqueue j).2.Cache = cacheStore wbq.Cache j.id (j.ChangeStatus queued)) ∧
    (j.id = "" → (wbq.postEnqueue j).2.Cache = wbq.Cache) := by
  refine ⟨rfl, ?_, ?_⟩
  · intro h
    simp [persistentQueue.postEnqueue, job.ChangeStatus, job.ID, h]
  · intro h
    simp [persistentQueue.postEnqueue, job.ChangeStatus, job.ID, h]

/-- C14 (persistent `Add`): for a submission with a job id, `Add` returns
(job, true) exactly when the prepared job serialises and `Enqueue` of the
back-end returns true, and then the job returned has status Queued, points to
the back-end and is stored under its id in the id index; when the job does
not serialise, `Add` returns (nil, false) without calling `Enqueue`; when
`Enqueue` returns false, `Add` returns (nil, false), the prepared job has
status Closed and a closed result channel, and the id index is unchanged.
`postEnqueue` stores a job in the id index if and only if its id is not
empty. -/
theorem C14_persistent_add [Inhabited R] (codec : JsonCodec T R) (q : persistentQueue T R)
    (data : T) (configs : jobConfigs) (hid : configs.Id ≠ "") :
    (∀ e, (newJob data configs : job T R).Json codec = .error e →
      q.Add codec data configs = .ok ((none, false), q, newJob data configs)) ∧
    (∀ val, (newJob data configs : job T R).Json codec = .ok val →
      (q.internalQueue.Enqueue val).1 = false →
      q.Add codec data configs = .ok ((none, false),
        { q with internalQueue := (q.internalQueue.Enqueue val).2 },
        { (newJob data configs : job T R) with
          resultChannel :=
            { (newResultController 1 : ResultController R) with
              ch := some { buf := [], cap := 1, closed := true } }
          status := closed })) ∧
    (∀ val, (newJob data configs : job T R).Json codec = .ok val →
      (q.internalQueue.Enqueue val).1 = true →
      q.Add codec data configs = .ok
        ((some { (newJob data configs : job T R) with status := queued, queue := .acknowledgeable },
          true),
        { q with
          internalQueue := (q.internalQueue.Enqueue val).2
          Cache := cacheStore q.Cache configs.Id
            { (newJob data configs : job T R) with status := queued, queue := .acknowledgeable }
          notified := q.notified + 1 },
        { (newJob data configs : job T R) with status := queued, queue := .acknowledgeable })) ∧
    ((∃ j1 q1 p, q.Add codec data configs = .ok ((some j1, true), q1, p)) ↔
      ∃ val, (newJob data configs : job T R).Json codec = .ok val ∧
        (q.internalQueue.Enqueue val).1 = true) ∧
    (∀ (wbq : persistentQueue T R) (j : job T R),
      (j.id ≠ "" → (wbq.postEnqueue j).2.Cache j.id = some (j.ChangeStatus queued)) ∧
      (j.id = "" → (wbq.postEnqueue j).2.Cache = wbq.Cache)) := by
  have c1 : ∀ e, (newJob data configs : job T R).Json codec = .error e →
      q.Add codec data configs = .ok ((none, false), q, newJob data configs) := by
    intro e he
    simp [persistentQueue.Add, withRequiredJobId, hid, Outcome.bind, he]
  have c2 : ∀ val, (newJob data configs : job T R).Json codec = .ok val →
      (q.internalQueue.Enqueue val).1 = false →
      q.Add codec data configs = .ok ((none, false),
        { q with internalQueue := (q.internalQueue.Enqueue val).2 },
        { (newJob data configs : job T R) with
          resultChannel :=
            { (newResultController 1 : ResultController R) with
              ch := some { buf := [], cap := 1, closed := true } }
          status := closed }) := by
    intro val hv hf
    simp only [persistentQueue.Add, withRequiredJobId, hid, if_false, Outcome.bind, hv, hf,
      if_true, close_new, Outcome.map]
  have c3 : ∀ val, (newJob data configs : job T R).Json codec = .ok val →
      (q.internalQueue.Enqueue val).1 = true →
      q.Add codec data configs = .ok
        ((some { (newJob data configs : job T R) with status := queued, queue := .acknowledgeable },
          true),
        { q with
          internalQueue := (q.internalQueue.Enqueue val).2
          Cache := cacheStore q.Cache configs.Id
            { (newJob data configs : job T R) with status := queued, queue := .acknowledgeable }
          notified := q.notified + 1 },
        { (newJob data configs : job T R) with status := queued, queue := .acknowledgeable }) := by
    intro val hv ht
    have hne : (job.ChangeStatus (job.SetInternalQueue (newJob data configs : job T R)
        .acknowledgeable) queued).ID ≠ "" := hid
    simp only [persistentQueue.Add, withRequiredJobId, hid, if_false, Outcome.bind, hv, ht,
      Bool.true_eq_false, persistentQueue.postEnqueue, hne, ne_eq, not_false_eq_true, if_true]
    rfl
  refine ⟨c1, c2, c3, ?_, ?_⟩
  · constructor
    · rintro ⟨j1, q1, p, h⟩
      cases hj : (newJob data configs : job T R).Json codec with
      | error e =>
        rw [c1 e hj] at h
        simp at h
      | ok val =>
        cases hb : (q.internalQueue.Enqueue val).1 with
        | false =>
          rw [c2 val hj hb] at h
          simp at h
        | true => exact ⟨val, rfl, hb⟩
    · rintro ⟨val, hv, ht⟩
      exact ⟨_, _, _, c3 val hv ht⟩
  · intro wbq j
    obtain ⟨_, h2, h3⟩ := postEnqueue_index wbq j
    refine ⟨?_, h3⟩
    intro h
    rw [h2 h]
    simp [cacheStore]

/-- Witness of C14: the submission of 7 under the id "a" to
`examplePersistent`, which the back-end accepts. -/
theorem C14_persistent_add_witness :
    (({ Id := "a" } : jobConfigs).Id ≠ "") ∧
    ∃ j1 q1 p, examplePersistent.Add exampleCodec 7 { Id := "a" } = .ok ((some j1, true), q1, p) :=
  ⟨by decide,
    (C14_persistent_add exampleCodec examplePersistent 7 { Id := "a" } (by decide)).2.2.2.1.2
      ⟨[1, 97, 7, 67, 114, 101, 97, 116, 101, 100, 7, 0, 0, 0], rfl, rfl⟩⟩

end varmq
